import Mathlib

/-! # lineardb3: page manager, fingerprint index and data file

A shallow embedding of `src/server/lineardb3.cpp`.

Conventions of the embedding:

* The header `lineardb3.h` is not among the sources, so its two compile-time
  constants are parameters of every definition that uses them:
  `R` is `LINEARDB3_RECORDS_PER_BUCKET` and `P` is `LINEARDB3_BUCKETS_PER_PAGE`.
* C arrays are index functions (`Nat → _`); only the indices below the array
  size are ever read or written by the code.  A page pointer is an
  `Option BucketPage`, `none` being `NULL`.
* The data file is a list of bytes together with a position.  `fread` and
  `fwrite` follow the C library: they return the number of whole items
  transferred, which is `0` when the item size is `0`.
* A function returns `none` when the C code does not return: a loop that runs
  out of the given fuel, a `NULL` page dereference, a division by zero, or a
  read past the end of a caller's buffer.
* Counters whose C type is declared in the missing header (`numRecords`,
  `fileIndex`, file offsets, and the `numPages`, `pageAreaSize` and
  `numBuckets` of a page manager) are natural numbers.  Arithmetic whose width is
  visible in the source (`uint32_t newMod`, `unsigned int splitPoint`,
  `hashTableSizeA * 2`, the `int` sum of `getRecordSizeBytes`, the 64-bit
  hash) is taken modulo `2^32` or `2^64`.
* The field `maxLoad` only ever holds `DEFAULT_MAX_LOAD`, which is 0.5, so
  `ceil( n / maxLoad )` is `2 * n`; this is exact in double precision for every
  32-bit `n`.
-/

namespace LinearDB3

/-! ## Data model -/

/-- One bucket: `R` fingerprints (0 marks an empty slot), `R` record numbers,
and the handle of the next overflow bucket (0 marks the end of the chain). -/
structure FingerprintBucket where
  fingerprints : Nat → Nat
  fileIndex : Nat → Nat
  overflowIndex : Nat

/-- A page of `P` buckets. -/
structure BucketPage where
  buckets : Nat → FingerprintBucket

/-- The page manager: `pages` is the page-pointer array of `pageAreaSize`
entries, of which the first `numPages` point to allocated pages. -/
structure PageManager where
  numPages : Nat
  pageAreaSize : Nat
  pages : Nat → Option BucketPage
  numBuckets : Nat

/-- A bucket as left by `memset( ..., 0, sizeof( BucketPage ) )`. -/
def zeroBucket : FingerprintBucket :=
  { fingerprints := fun _ => 0, fileIndex := fun _ => 0, overflowIndex := 0 }

/-- A freshly allocated, zeroed page. -/
def zeroPage : BucketPage :=
  { buckets := fun _ => zeroBucket }

/-- The state of a page manager on which `initPageManager` has not run yet
(`new PageManager` in `LINEARDB3_open`): no page is allocated. -/
def uninitPageManager : PageManager :=
  { numPages := 0, pageAreaSize := 0, pages := fun _ => none, numBuckets := 0 }

/-- Source: `initPageManager`, lines 133-153. -/
def initPageManager (P : Nat) (inNumStartingBuckets : Nat) : PageManager :=
  let numPages := 1 + inNumStartingBuckets / P
  { numPages := numPages
    pageAreaSize := 2 * numPages
    pages := fun i => if i < numPages then some zeroPage else none
    numBuckets := inNumStartingBuckets }

/-- Source: `getBucket`, lines 219-225.  The result is the bucket the returned
pointer refers to; `none` when the page pointer is `NULL`. -/
def getBucket (P : Nat) (inPM : PageManager) (inBucketIndex : Nat) :
    Option FingerprintBucket :=
  let pageNumber := inBucketIndex / P
  let bucketNumber := inBucketIndex % P
  match inPM.pages pageNumber with
  | none => none
  | some page => some (page.buckets bucketNumber)

/-- A store through the pointer that `getBucket` returns for `inBucketIndex`:
the bucket at that place becomes `b`. -/
def setBucket (P : Nat) (inPM : PageManager) (inBucketIndex : Nat)
    (b : FingerprintBucket) : Option PageManager :=
  let pageNumber := inBucketIndex / P
  let bucketNumber := inBucketIndex % P
  match inPM.pages pageNumber with
  | none => none
  | some page =>
    some { inPM with
      pages := fun p =>
        if p = pageNumber then
          some { buckets := fun j => if j = bucketNumber then b else page.buckets j }
        else inPM.pages p }

/-- Source: `addBucket`, lines 170-215.  The returned pointer is modelled by
the index of the bucket it refers to. -/
def addBucket (P : Nat) (inPM : PageManager) : Option (Nat × PageManager) :=
  let pm1 :=
    if inPM.numPages * P = inPM.numBuckets then
      let pm0 :=
        if inPM.numPages = inPM.pageAreaSize then
          let oldSize := inPM.pageAreaSize
          { inPM with
            pageAreaSize := 2 * oldSize
            pages := fun i => if i < oldSize then inPM.pages i else none }
        else inPM
      { pm0 with
        pages := fun i => if i = pm0.numPages then some zeroPage else pm0.pages i
        numPages := pm0.numPages + 1 }
    else inPM
  match getBucket P pm1 pm1.numBuckets with
  | none => none
  | some _ => some (pm1.numBuckets, { pm1 with numBuckets := pm1.numBuckets + 1 })

/-- Source: `getNumBuckets`, lines 229-231. -/
def getNumBuckets (inPM : PageManager) : Nat :=
  inPM.numBuckets

/-- The inner loop of `getFirstEmptyBucketIndex` (lines 237-248) over the
buckets `b, b+1, ...` of page `p`, `k` of them remaining. -/
def scanBuckets (P : Nat) (page : BucketPage) (p : Nat) : Nat → Nat → Option Nat
  | 0, _ => none
  | k + 1, b =>
    if (page.buckets b).fingerprints 0 = 0 ∧ p * P + b ≠ 0 then some (p * P + b)
    else scanBuckets P page p k (b + 1)

/-- The outer loop of `getFirstEmptyBucketIndex` (lines 236-249) over the pages
`p, p+1, ...`, `k` of them remaining.  The outer `none` is a `NULL` page. -/
def scanPages (P : Nat) (inPM : PageManager) : Nat → Nat → Option (Option Nat)
  | 0, _ => some none
  | k + 1, p =>
    match inPM.pages p with
    | none => none
    | some page =>
      match scanBuckets P page p P 0 with
      | some index => some (some index)
      | none => scanPages P inPM k (p + 1)

/-- Source: `getFirstEmptyBucketIndex`, lines 235-257. -/
def getFirstEmptyBucketIndex (P : Nat) (inPM : PageManager) :
    Option (Nat × PageManager) :=
  match scanPages P inPM inPM.numPages 0 with
  | none => none
  | some (some index) => some (index, inPM)
  | some none =>
    let newIndex := inPM.numBuckets
    match addBucket P inPM with
    | none => none
    | some (_, pm) => some (newIndex, pm)

/-! ## The database handle and the data file -/

/-- Source: `LINEARDB3_HEADER_SIZE`, line 284. -/
def LINEARDB3_HEADER_SIZE : Nat := 11

/-- Source: `magicString`, line 280: the bytes of "Ld2". -/
def magicString : List Nat := [76, 100, 50]

/-- The fields of the handle that the code under study reads or writes.  The
file stream is its byte content and its position.  `recordSizeBytes` is not a
field here: it is assigned once, in `LINEARDB3_open`, from `keySize` and
`valueSize`, which are never reassigned (see `LINEARDB3.recordSizeBytes`). -/
structure LINEARDB3 where
  file : List Nat
  filePos : Nat
  hashTableSizeA : Nat
  hashTableSizeB : Nat
  numRecords : Nat
  keySize : Nat
  valueSize : Nat
  recordBuffer : List Nat
  maxOverflowDepth : Nat
  fingerprintMod : Nat
  hashTable : PageManager
  overflowBuckets : PageManager

/-- Source: `getRecordSizeBytes`, lines 327-329.  The function takes the two
`unsigned int` sizes as `int` and returns their `int` sum, which
`LINEARDB3_open` stores in `recordSizeBytes`: the result is the sum modulo
`2^32`, so that the sizes 4294967295 and 1 give a record size of 0. -/
def getRecordSizeBytes (inKeySize inValueSize : Nat) : Nat :=
  (inKeySize + inValueSize) % 2 ^ 32

/-- The value of the field `recordSizeBytes` (line 392). -/
def LINEARDB3.recordSizeBytes (inDB : LINEARDB3) : Nat :=
  getRecordSizeBytes inDB.keySize inDB.valueSize

/-- The bytes of `buf` with `data` stored at offset `off`; a store past the end
extends the list, filling the gap with zero bytes (as a file write does). -/
def overwrite (buf : List Nat) (off : Nat) (data : List Nat) : List Nat :=
  buf.take off ++ List.replicate (off - buf.length) 0 ++ data ++ buf.drop (off + data.length)

/-- C library `fseeko( file, pos, SEEK_SET )`; it succeeds. -/
def fseekoSet (inDB : LINEARDB3) (pos : Nat) : LINEARDB3 :=
  { inDB with filePos := pos }

/-- C library `fseeko( file, 0, SEEK_END )`; it succeeds. -/
def fseekoEnd (inDB : LINEARDB3) : LINEARDB3 :=
  { inDB with filePos := inDB.file.length }

/-- C library `ftello( file )`. -/
def ftello (inDB : LINEARDB3) : Nat :=
  inDB.filePos

/-- C library `fread( dst, size, 1, file )`: the number of items read (0 or 1),
the bytes transferred to `dst`, and the handle with the advanced position.  A
zero `size` transfers nothing and returns 0; a short read transfers what is
left of the file and returns 0. -/
def fread (inDB : LINEARDB3) (size : Nat) : Nat × List Nat × LINEARDB3 :=
  if size = 0 then (0, [], inDB)
  else
    let data := (inDB.file.drop inDB.filePos).take size
    (if data.length = size then 1 else 0, data,
      { inDB with filePos := inDB.filePos + data.length })

/-- C library `fwrite( src, size, 1, file )` with `data` the `size` bytes at
`src`: the number of items written (0 or 1) and the handle after the write.
A zero `size` writes nothing and returns 0. -/
def fwrite (inDB : LINEARDB3) (data : List Nat) : Nat × LINEARDB3 :=
  if data.length = 0 then (0, inDB)
  else
    (1, { inDB with
            file := overwrite inDB.file inDB.filePos data
            filePos := inDB.filePos + data.length })

/-- Where a key or value argument of `LINEARDB3_getOrPut` lives: in a buffer
of the caller holding `bytes`, or inside the handle's own `recordBuffer` at an
offset (the rebuild loop of `LINEARDB3_open` passes `&recordBuffer[0]` and
`&recordBuffer[keySize]`). -/
inductive Buf where
  | user (bytes : List Nat)
  | recbuf (offset : Nat)

/-- The `size` bytes the code reads at a buffer; `none` when the buffer holds
fewer. -/
def Buf.load (inDB : LINEARDB3) (size : Nat) : Buf → Option (List Nat)
  | .user bytes => if size ≤ bytes.length then some (bytes.take size) else none
  | .recbuf off =>
    if off + size ≤ inDB.recordBuffer.length then
      some ((inDB.recordBuffer.drop off).take size)
    else none

/-- The buffer and the handle after `data` is stored at the start of a buffer. -/
def Buf.store (inDB : LINEARDB3) (data : List Nat) : Buf → Buf × LINEARDB3
  | .user bytes => (.user (data ++ bytes.drop data.length), inDB)
  | .recbuf off =>
    (.recbuf off, { inDB with recordBuffer := overwrite inDB.recordBuffer off data })

/-- A 32-bit integer as the four bytes `fwrite( &val32, sizeof(uint32_t), ... )`
writes (least significant byte first). -/
def encode32 (v : Nat) : List Nat :=
  [v % 256, v / 256 % 256, v / 65536 % 256, v / 16777216 % 256]

/-- The 32-bit integer that `fread( &val32, sizeof(uint32_t), ... )` leaves in
`val32`. -/
def decode32 (bytes : List Nat) : Nat :=
  bytes.getD 0 0 + 256 * bytes.getD 1 0 + 65536 * bytes.getD 2 0 + 16777216 * bytes.getD 3 0

/-- Source: `writeHeader`, lines 291-323. -/
def writeHeader (inDB : LINEARDB3) : Int × LINEARDB3 :=
  let db0 := fseekoSet inDB 0
  let w1 := fwrite db0 magicString
  if w1.1 ≠ 1 then (-1, w1.2) else
  let w2 := fwrite w1.2 (encode32 inDB.keySize)
  if w2.1 ≠ 1 then (-1, w2.2) else
  let w3 := fwrite w2.2 (encode32 inDB.valueSize)
  if w3.1 ≠ 1 then (-1, w3.2) else
  (0, w3.2)

/-- The loop of `recomputeFingerprintMod` (lines 335-346) on the current value
of `fingerprintMod`; `newMod` is a `uint32_t`. -/
def recomputeLoop : Nat → Nat → Option Nat
  | 0, _ => none
  | fuel + 1, fingerprintMod =>
    let newMod := (fingerprintMod * 2) % 2 ^ 32
    if newMod ≤ fingerprintMod then some fingerprintMod
    else recomputeLoop fuel newMod

/-- Source: `recomputeFingerprintMod`, lines 332-347. -/
def recomputeFingerprintMod (fuel : Nat) (inDB : LINEARDB3) : Option LINEARDB3 :=
  match recomputeLoop fuel inDB.hashTableSizeA with
  | none => none
  | some m => some { inDB with fingerprintMod := m }

/-- Source: `keyComp`, lines 588-598. -/
def keyComp : Nat → List Nat → List Nat → Bool
  | 0, _, _ => true
  | n + 1, a :: as, b :: bs => if a ≠ b then false else keyComp n as bs
  | _ + 1, _, _ => false

/-! ## Fingerprint and bin -/

/-- Source: `UINT64_MAX`. -/
def UINT64_MAX : Nat := 2 ^ 64 - 1

/-- Lines 707-725 of `getBinNumber`: the hash value after the adjustment that
forbids a zero fingerprint. -/
def adjustedHash (hashVal fingerprintMod : Nat) : Nat :=
  if hashVal % fingerprintMod = 0 then
    if hashVal < UINT64_MAX then hashVal + 1 else hashVal - 1
  else hashVal

/-- Source: `getBinNumber`, lines 702-746, on the 64-bit value `hashVal` that
`LINEARDB3_hash` returned for the key.  The result is the bin number and the
fingerprint written to `outFingerprint`; `none` is a division by zero. -/
def getBinNumber (inDB : LINEARDB3) (hashVal : Nat) : Option (Nat × Nat) :=
  if inDB.fingerprintMod = 0 then none else
  let hashVal1 := adjustedHash hashVal inDB.fingerprintMod
  let outFingerprint := hashVal1 % inDB.fingerprintMod
  if inDB.hashTableSizeA = 0 then none else
  let binNumberA := hashVal1 % inDB.hashTableSizeA
  let splitPoint := (inDB.hashTableSizeB + 2 ^ 32 - inDB.hashTableSizeA) % 2 ^ 32
  if binNumberA < splitPoint then
    let doubled := (inDB.hashTableSizeA * 2) % 2 ^ 32
    if doubled = 0 then none else some (hashVal1 % doubled, outFingerprint)
  else some (binNumberA, outFingerprint)

/-! ## Get and put -/

/-- A `FingerprintBucket *` of `LINEARDB3_getOrPut`: a bucket of the primary
table (`hashTable`) or of the overflow area (`overflowBuckets`), by index. -/
structure BucketRef where
  isOverflow : Bool
  index : Nat

/-- The bucket a `BucketRef` points to. -/
def getBucketAt (P : Nat) (inDB : LINEARDB3) (ref : BucketRef) : Option FingerprintBucket :=
  if ref.isOverflow then getBucket P inDB.overflowBuckets ref.index
  else getBucket P inDB.hashTable ref.index

/-- A store through a `BucketRef`. -/
def setBucketAt (P : Nat) (inDB : LINEARDB3) (ref : BucketRef) (b : FingerprintBucket) :
    Option LINEARDB3 :=
  if ref.isOverflow then
    match setBucket P inDB.overflowBuckets ref.index b with
    | none => none
    | some pm => some { inDB with overflowBuckets := pm }
  else
    match setBucket P inDB.hashTable ref.index b with
    | none => none
    | some pm => some { inDB with hashTable := pm }

/-- What `LINEARDB3_getOrPut` and `LINEARDB3_considerFingerprintBucket` leave
behind: the returned `int`, the buffer `inOutValue` and the handle. -/
structure Ret where
  code : Int
  value : Buf
  db : LINEARDB3

/-- Lines 798-815 of `LINEARDB3_considerFingerprintBucket`: seek to the record,
read its key into `recordBuffer` and compare it with `inKey`.  The first
component is the value returned from inside the block, if any. -/
def readBackKey (inDB : LINEARDB3) (inKey : Buf) (filePosRec : Nat) :
    Option (Option Int × LINEARDB3) :=
  let db1 := fseekoSet inDB filePosRec
  let r := fread db1 db1.keySize
  let db2 := { r.2.2 with recordBuffer := overwrite r.2.2.recordBuffer 0 r.2.1 }
  if r.1 ≠ 1 then some (some (-1), db2) else
  match inKey.load db2 db2.keySize with
  | none => none
  | some key =>
    if keyComp db2.keySize db2.recordBuffer key then some (none, db2)
    else some (some 2, db2)

/-- Lines 840-848: write the value at the current position. -/
def writeValue (inDB : LINEARDB3) (inOutValue : Buf) : Option Ret :=
  match inOutValue.load inDB inDB.valueSize with
  | none => none
  | some v =>
    let w := fwrite inDB v
    if w.1 ≠ 1 then some ⟨-1, inOutValue, w.2⟩ else some ⟨0, inOutValue, w.2⟩

/-- Lines 818-849: the branch `inPut && inWriteDataFile`. -/
def writeRecord (inDB : LINEARDB3) (inKey inOutValue : Buf) (emptyRec : Bool)
    (filePosRec : Nat) : Option Ret :=
  if emptyRec then
    let db1 := fseekoEnd inDB
    if ftello db1 ≠ filePosRec then some ⟨-1, inOutValue, db1⟩ else
    match inKey.load db1 db1.keySize with
    | none => none
    | some key =>
      let w := fwrite db1 key
      if w.1 ≠ 1 then some ⟨-1, inOutValue, w.2⟩ else writeValue w.2 inOutValue
  else writeValue inDB inOutValue

/-- Lines 850-863: the `else` branch, which reads the value at the current
position into `inOutValue`. -/
def readValue (inDB : LINEARDB3) (inOutValue : Buf) : Option Ret :=
  let r := fread inDB inDB.valueSize
  let st := inOutValue.store r.2.2 r.2.1
  if r.1 ≠ 1 then some ⟨-1, st.1, st.2⟩ else some ⟨0, st.1, st.2⟩

/-- Lines 790-864: the block `if( binFP == inFingerprint )`. -/
def considerHit (inDB : LINEARDB3) (inKey inOutValue : Buf)
    (inPut inWriteDataFile emptyRec : Bool) (filePosRec : Nat) : Option Ret :=
  match (if emptyRec then some (none, inDB) else readBackKey inDB inKey filePosRec) with
  | none => none
  | some (some code, db) => some ⟨code, inOutValue, db⟩
  | some (none, db) =>
    if inPut && inWriteDataFile then writeRecord db inKey inOutValue emptyRec filePosRec
    else readValue db inOutValue

/-- Source: `LINEARDB3_considerFingerprintBucket`, lines 757-868. -/
def LINEARDB3_considerFingerprintBucket (P : Nat) (inDB : LINEARDB3)
    (inKey inOutValue : Buf) (inFingerprint : Nat) (inPut inWriteDataFile : Bool)
    (inBucket : BucketRef) (inRecIndex : Nat) : Option Ret :=
  let i := inRecIndex
  match getBucketAt P inDB inBucket with
  | none => none
  | some bucket =>
    let binFP := bucket.fingerprints i
    if binFP = 0 then
      if inPut then
        let claimed : FingerprintBucket :=
          { bucket with
            fingerprints := fun j => if j = i then inFingerprint else bucket.fingerprints j
            fileIndex := fun j => if j = i then inDB.numRecords else bucket.fileIndex j }
        match setBucketAt P inDB inBucket claimed with
        | none => none
        | some db1 =>
          let db2 := { db1 with numRecords := db1.numRecords + 1 }
          let filePosRec := LINEARDB3_HEADER_SIZE + claimed.fileIndex i * db2.recordSizeBytes
          considerHit db2 inKey inOutValue inPut inWriteDataFile true filePosRec
      else some ⟨1, inOutValue, inDB⟩
    else if binFP = inFingerprint then
      let filePosRec := LINEARDB3_HEADER_SIZE + bucket.fileIndex i * inDB.recordSizeBytes
      considerHit inDB inKey inOutValue inPut inWriteDataFile false filePosRec
    else some ⟨2, inOutValue, inDB⟩

/-- The loops `for( int i=0; i<RECORDS_PER_BUCKET; i++ )` of
`LINEARDB3_getOrPut` (lines 886-899 and 920-933) from slot `i` on, `k` slots
remaining.  The code 2 means that the loop ran to its end. -/
def considerSlots (P : Nat) (inKey : Buf) (inFingerprint : Nat)
    (inPut inWriteDataFile : Bool) (thisBucket : BucketRef) :
    Nat → Nat → LINEARDB3 → Buf → Option Ret
  | 0, _, db, v => some ⟨2, v, db⟩
  | k + 1, i, db, v =>
    match LINEARDB3_considerFingerprintBucket P db inKey v inFingerprint inPut
        inWriteDataFile thisBucket i with
    | none => none
    | some r =>
      if r.code < 2 then some r
      else considerSlots P inKey inFingerprint inPut inWriteDataFile thisBucket k (i + 1) r.db r.value

/-- Lines 909-911 and 946-948: keep the largest overflow depth seen. -/
def noteOverflowDepth (inDB : LINEARDB3) (overflowDepth : Nat) : LINEARDB3 :=
  if overflowDepth > inDB.maxOverflowDepth then
    { inDB with maxOverflowDepth := overflowDepth }
  else inDB

/-- Lines 951-962 of `LINEARDB3_getOrPut`: take a bucket from the overflow
area, link it behind `thisBucket`, and claim its slot 0 for the new record.
The result is the record number stored in `newBucket->fileIndex[0]` and the
handle. -/
def linkNewBucket (P : Nat) (fingerprint : Nat) (thisBucket : BucketRef) (inDB : LINEARDB3) :
    Option (Nat × LINEARDB3) :=
  match getFirstEmptyBucketIndex P inDB.overflowBuckets with
  | none => none
  | some (newIndex, pm) =>
    let db2 := { inDB with overflowBuckets := pm }
    match getBucketAt P db2 thisBucket with
    | none => none
    | some last =>
      match setBucketAt P db2 thisBucket { last with overflowIndex := newIndex } with
      | none => none
      | some db3 =>
        match getBucket P db3.overflowBuckets newIndex with
        | none => none
        | some newBucket =>
          let filled : FingerprintBucket :=
            { newBucket with
              fingerprints := fun j => if j = 0 then fingerprint else newBucket.fingerprints j
              fileIndex := fun j => if j = 0 then db3.numRecords else newBucket.fileIndex j }
          match setBucket P db3.overflowBuckets newIndex filled with
          | none => none
          | some pm4 =>
            some (filled.fileIndex 0,
              { db3 with overflowBuckets := pm4, numRecords := db3.numRecords + 1 })

/-- Lines 964-990 of `LINEARDB3_getOrPut`: append the key and the value at the
end of the file, after checking that the end is at `filePosRec`. -/
def appendRecord (inDB : LINEARDB3) (inKey inOutValue : Buf) (filePosRec : Nat) : Option Ret :=
  let db5 := fseekoEnd inDB
  if ftello db5 ≠ filePosRec then some ⟨-1, inOutValue, db5⟩ else
  match inKey.load db5 db5.keySize with
  | none => none
  | some key =>
    match inOutValue.load db5 db5.valueSize with
    | none => none
    | some v =>
      let w1 := fwrite db5 key
      let w2 := fwrite w1.2 v
      if w1.1 + w2.1 ≠ 2 then some ⟨-1, inOutValue, w2.2⟩
      else some ⟨0, inOutValue, w2.2⟩

/-- Lines 937-999 of `LINEARDB3_getOrPut`: what follows the walk of the chain,
with `thisBucket` the last bucket visited. -/
def afterChain (P : Nat) (inKey inOutValue : Buf) (fingerprint : Nat)
    (inPut inWriteDataFile : Bool) (overflowDepth : Nat) (thisBucket : BucketRef)
    (inDB : LINEARDB3) : Option Ret :=
  match getBucketAt P inDB thisBucket with
  | none => none
  | some last =>
    if inPut && last.overflowIndex == 0 then
      let db1 := noteOverflowDepth inDB (overflowDepth + 1)
      match linkNewBucket P fingerprint thisBucket db1 with
      | none => none
      | some (fileIndex0, db4) =>
        if inWriteDataFile then
          appendRecord db4 inKey inOutValue
            (LINEARDB3_HEADER_SIZE + fileIndex0 * db4.recordSizeBytes)
        else some ⟨0, inOutValue, db4⟩
    else some ⟨1, inOutValue, inDB⟩

/-- Lines 905-999 of `LINEARDB3_getOrPut`: the loop
`while( thisBucket->overflowIndex > 0 )` and what follows it.  Every test of
the loop condition takes one unit of fuel. -/
def walkChain (R P : Nat) (inKey : Buf) (fingerprint : Nat)
    (inPut inWriteDataFile : Bool) :
    Nat → Nat → BucketRef → LINEARDB3 → Buf → Option Ret
  | 0, _, _, _, _ => none
  | fuel + 1, overflowDepth, thisBucket, db, v =>
    match getBucketAt P db thisBucket with
    | none => none
    | some bucket =>
      if bucket.overflowIndex > 0 then
        let db1 := noteOverflowDepth db (overflowDepth + 1)
        let next : BucketRef := ⟨true, bucket.overflowIndex⟩
        match considerSlots P inKey fingerprint inPut inWriteDataFile next R 0 db1 v with
        | none => none
        | some r =>
          if r.code < 2 then some r
          else walkChain R P inKey fingerprint inPut inWriteDataFile fuel
            (overflowDepth + 1) next r.db r.value
      else
        afterChain P inKey v fingerprint inPut inWriteDataFile overflowDepth thisBucket db

/-- Source: `LINEARDB3_getOrPut`, lines 874-1000.  `hash` is `LINEARDB3_hash`
on the `keySize` bytes of the key, an external 64-bit hash function. -/
def LINEARDB3_getOrPut (R P : Nat) (hash : List Nat → Nat) (fuel : Nat)
    (inDB : LINEARDB3) (inKey inOutValue : Buf) (inPut inWriteDataFile : Bool) :
    Option Ret :=
  match inKey.load inDB inDB.keySize with
  | none => none
  | some key =>
    match getBinNumber inDB (hash key % 2 ^ 64) with
    | none => none
    | some (binNumber, fingerprint) =>
      let thisBucket : BucketRef := ⟨false, binNumber⟩
      match considerSlots P inKey fingerprint inPut inWriteDataFile thisBucket R 0
          inDB inOutValue with
      | none => none
      | some r =>
        if r.code < 2 then some r
        else walkChain R P inKey fingerprint inPut inWriteDataFile fuel 0 thisBucket
          r.db r.value

/-- Source: `LINEARDB3_get`, lines 1004-1006.  `outValue` holds the bytes of
the caller's buffer before the call. -/
def LINEARDB3_get (R P : Nat) (hash : List Nat → Nat) (fuel : Nat)
    (inDB : LINEARDB3) (inKey outValue : List Nat) : Option Ret :=
  LINEARDB3_getOrPut R P hash fuel inDB (.user inKey) (.user outValue) false false

/-- Source: `LINEARDB3_put`, lines 1010-1013. -/
def LINEARDB3_put (R P : Nat) (hash : List Nat → Nat) (fuel : Nat)
    (inDB : LINEARDB3) (inKey inValue : List Nat) : Option Ret :=
  LINEARDB3_getOrPut R P hash fuel inDB (.user inKey) (.user inValue) true true

/-! ## Open -/

/-- Lines 529-548 of `LINEARDB3_open`: the loop that reads the records of an
existing file and puts each into the index, `k` records remaining. -/
def rebuildLoop (R P : Nat) (hash : List Nat → Nat) (fuel : Nat) :
    Nat → LINEARDB3 → Option (Int × LINEARDB3)
  | 0, db => some (0, db)
  | k + 1, db =>
    let r := fread db db.recordSizeBytes
    let db1 := { r.2.2 with recordBuffer := overwrite r.2.2.recordBuffer 0 r.2.1 }
    if r.1 ≠ 1 then some (1, db1) else
    match LINEARDB3_getOrPut R P hash fuel db1 (.recbuf 0) (.recbuf db1.keySize)
        true false with
    | none => none
    | some res =>
      if res.code ≠ 0 then some (1, res.db) else rebuildLoop R P hash fuel k res.db

/-- Lines 429-549 of `LINEARDB3_open`: the branch for a file that holds a
header.  `DEFAULT_MAX_LOAD` is 0.5, so `ceil( n / maxLoad )` is `2 * n`, and
`ceil( a / R )` on doubles is the rounded-up quotient; both are exact for
counts below `2^32`, and the casts to `uint32_t` are taken modulo `2^32`. -/
def openExisting (R P : Nat) (hash : List Nat → Nat) (fuel : Nat) (inDB : LINEARDB3)
    (inKeySize inValueSize : Nat) : Option (Int × LINEARDB3) :=
  let db0 := fseekoSet inDB 0
  let rMagic := fread db0 3
  if rMagic.1 ≠ 1 then some (1, rMagic.2.2) else
  if rMagic.2.1 ≠ magicString then some (1, rMagic.2.2) else
  let rKey := fread rMagic.2.2 4
  if rKey.1 ≠ 1 then some (1, rKey.2.2) else
  if decode32 rKey.2.1 ≠ inKeySize then some (1, rKey.2.2) else
  let rVal := fread rKey.2.2 4
  if rVal.1 ≠ 1 then some (1, rVal.2.2) else
  if decode32 rVal.2.1 ≠ inValueSize then some (1, rVal.2.2) else
  let db1 := fseekoEnd rVal.2.2
  let fileSize := ftello db1
  match recomputeFingerprintMod fuel db1 with
  | none => none
  | some db2 =>
    if db2.recordSizeBytes = 0 then none else
    let numRecordsInFile := (fileSize - LINEARDB3_HEADER_SIZE) / db2.recordSizeBytes
    if db2.recordSizeBytes * numRecordsInFile + LINEARDB3_HEADER_SIZE ≠ fileSize then
      some (1, db2)
    else
      let minTableRecords := (2 * numRecordsInFile) % 2 ^ 32
      let minTableBuckets := ((minTableRecords + R - 1) / R) % 2 ^ 32
      let db3 := { db2 with
        hashTableSizeA := minTableBuckets
        hashTableSizeB := minTableBuckets }
      let db4 := { db3 with
        hashTable := initPageManager P db3.hashTableSizeA
        overflowBuckets := initPageManager P 2 }
      let db5 := fseekoSet db4 LINEARDB3_HEADER_SIZE
      rebuildLoop R P hash fuel numRecordsInFile db5

/-- Source: `LINEARDB3_open`, lines 357-556.  `inFile` is the content of the
file at `inPath`, empty when the file did not exist and was created. -/
def LINEARDB3_open (R P : Nat) (hash : List Nat → Nat) (fuel : Nat) (inFile : List Nat)
    (inHashTableStartSize inKeySize inValueSize : Nat) : Option (Int × LINEARDB3) :=
  let db0 : LINEARDB3 :=
    { file := inFile
      filePos := 0
      hashTableSizeA := inHashTableStartSize
      hashTableSizeB := inHashTableStartSize
      numRecords := 0
      keySize := inKeySize
      valueSize := inValueSize
      recordBuffer := List.replicate (getRecordSizeBytes inKeySize inValueSize) 0
      maxOverflowDepth := 0
      fingerprintMod := 0
      hashTable := uninitPageManager
      overflowBuckets := uninitPageManager }
  match recomputeFingerprintMod fuel db0 with
  | none => none
  | some db1 =>
    let db2 := fseekoEnd db1
    if ftello db2 < LINEARDB3_HEADER_SIZE then
      let h := writeHeader db2
      if h.1 ≠ 0 then some (1, h.2) else
      some (0, { h.2 with
        hashTable := initPageManager P h.2.hashTableSizeA
        overflowBuckets := initPageManager P 2 })
    else openExisting R P hash fuel db2 inKeySize inValueSize

/-! ## Iterator -/

/-- The caller's store `newBucket->fingerprints[0] = fingerprint` (line 956 of
`LINEARDB3_getOrPut`) into the bucket with handle `index`. -/
def storeFingerprint0 (P : Nat) (inPM : PageManager) (index fingerprint : Nat) :
    Option PageManager :=
  match getBucket P inPM index with
  | none => none
  | some b =>
    setBucket P inPM index
      { b with fingerprints := fun j => if j = 0 then fingerprint else b.fingerprints j }

/-- Repeated calls of `getFirstEmptyBucketIndex`, each followed by the caller
storing the next fingerprint of the list in slot 0 of the returned bucket. -/
def allocateAndFill (P : Nat) : List Nat → PageManager → Option PageManager
  | [], pm => some pm
  | fp :: rest, pm =>
    match getFirstEmptyBucketIndex P pm with
    | none => none
    | some (index, pm1) =>
      match storeFingerprint0 P pm1 index fp with
      | none => none
      | some pm2 => allocateAndFill P rest pm2

/-- The overflow page manager after `j` buckets were handed out and filled:
one page, `numBuckets` still 2, buckets `1..j` of the page in use, the rest
empty. -/
def FilledUpTo (j : Nat) (pm : PageManager) : Prop :=
  pm.numPages = 1 ∧ pm.numBuckets = 2 ∧
  ∃ page, pm.pages 0 = some page ∧
    (∀ b, 1 ≤ b → b ≤ j → (page.buckets b).fingerprints 0 ≠ 0) ∧
    (∀ b, j < b → (page.buckets b).fingerprints 0 = 0) ∧
    (page.buckets 0).fingerprints 0 = 0

/-- A `LINEARDB3_open` that returns 0, on the file content `inFile`. -/
def openOk (R P : Nat) (hash : List Nat → Nat) (fuel : Nat) (inFile : List Nat)
    (inHashTableStartSize inKeySize inValueSize : Nat) : Option LINEARDB3 :=
  match LINEARDB3_open R P hash fuel inFile inHashTableStartSize inKeySize inValueSize with
  | none => none
  | some r => if r.1 = 0 then some r.2 else none

/-- A sequence of `LINEARDB3_put` calls that each return 0. -/
def putAll (R P : Nat) (hash : List Nat → Nat) (fuel : Nat) :
    LINEARDB3 → List (List Nat × List Nat) → Option LINEARDB3
  | db, [] => some db
  | db, kv :: rest =>
    match LINEARDB3_put R P hash fuel db kv.1 kv.2 with
    | none => none
    | some r => if r.code = 0 then putAll R P hash fuel r.db rest else none

/-- A hash function for the scenarios: the first byte of the key. -/
def firstByteHash (key : List Nat) : Nat :=
  key.headD 0

/-- The scenario with one record per bucket and three buckets per page: a
fresh database with one primary bucket and one-byte keys and values, then puts
of the keys 1, 2, 3 and 4, each of which returns 0. -/
def fourPuts : Option LINEARDB3 :=
  match openOk 1 3 firstByteHash 40 [] 1 1 1 with
  | none => none
  | some db => putAll 1 3 firstByteHash 8 db [([1], [10]), ([2], [20]), ([3], [30]), ([4], [40])]

/-- A set `S` of overflow handles that the walk for fingerprint `fp` cannot
leave: every bucket in it is full, matches nowhere, and links to a bucket in
the set. -/
def Trapped (R P fp : Nat) (pm : PageManager) (S : Nat → Prop) : Prop :=
  ∀ c, S c → ∃ b, getBucket P pm c = some b ∧
    (∀ j, j < R → b.fingerprints j ≠ 0 ∧ b.fingerprints j ≠ fp) ∧
    0 < b.overflowIndex ∧ S b.overflowIndex

/-- What the walk reads in a state: the moduli and sizes, and, for the primary
bucket 0 and the overflow buckets 1 and 2, the fingerprint in slot 0 and the
link. -/
def chainSummary (db : LINEARDB3) :
    (Nat × Nat × Nat × Nat) × List (Option (Nat × Nat)) :=
  ((db.fingerprintMod, db.hashTableSizeA, db.hashTableSizeB, db.keySize),
    [(getBucketAt 3 db ⟨false, 0⟩).map (fun b => (b.fingerprints 0, b.overflowIndex)),
     (getBucketAt 3 db ⟨true, 1⟩).map (fun b => (b.fingerprints 0, b.overflowIndex)),
     (getBucketAt 3 db ⟨true, 2⟩).map (fun b => (b.fingerprints 0, b.overflowIndex))])

/-- The part of the handle that only `LINEARDB3_put` may change: two states are
related when they differ at most in the file position, the record buffer and
`maxOverflowDepth`. -/
def Frame (db db2 : LINEARDB3) : Prop :=
  db2.file = db.file ∧ db2.numRecords = db.numRecords ∧ db2.keySize = db.keySize ∧
  db2.valueSize = db.valueSize ∧ db2.hashTableSizeA = db.hashTableSizeA ∧
  db2.hashTableSizeB = db.hashTableSizeB ∧ db2.fingerprintMod = db.fingerprintMod ∧
  db2.hashTable = db.hashTable ∧ db2.overflowBuckets = db.overflowBuckets

/-- The file invariant: the file holds the header and `numRecords` whole
records. -/
def FileInv (db : LINEARDB3) : Prop :=
  db.file.length = LINEARDB3_HEADER_SIZE + db.numRecords * db.recordSizeBytes

/-- The key bytes of record `i` of the file. -/
def recordKey (db : LINEARDB3) (i : Nat) : List Nat :=
  (db.file.drop (LINEARDB3_HEADER_SIZE + i * db.recordSizeBytes)).take db.keySize

/-- The state after a fresh open (one record per bucket, three buckets per
page, one primary bucket, one-byte keys and values) and a put of the key 1
with the value 10 that returned 0. -/
def onePut : LINEARDB3 :=
  ((openOk 1 3 firstByteHash 40 [] 1 1 1).bind
    (fun db => putAll 1 3 firstByteHash 8 db [([1], [10])])).get (by decide)

/-- A hash function for the scenarios: the 32-bit integer in the first four
bytes of the key. -/
def wordHash (key : List Nat) : Nat :=
  decode32 key

/-- The key of record `j` in the one-bin scenario: the number `j + 1` in four
bytes. -/
def chainKey (j : Nat) : List Nat :=
  encode32 (j + 1)

/-- The content of bucket `m` of the chain of bin 0 (the primary bucket for
`m = 0`, overflow bucket `m` otherwise) after `j` records went in, record `i`
with fingerprint `i + 1`: the slots are filled in order and the bucket links to
bucket `m + 1` once that one is in use. -/
def chainFill (R j m : Nat) (b : FingerprintBucket) : Prop :=
  (∀ s, s < R → b.fingerprints s = if m * R + s < j then m * R + s + 1 else 0) ∧
  b.overflowIndex = if (m + 1) * R < j then m + 1 else 0

/-- The state of the one-bin scenario after `j` puts: four-byte keys, one-byte
values, one primary bucket, and a chain filled with `j` records. -/
def ChainInv (R P j : Nat) (db : LINEARDB3) : Prop :=
  db.keySize = 4 ∧ db.valueSize = 1 ∧ db.hashTableSizeA = 1 ∧ db.hashTableSizeB = 1 ∧
  db.fingerprintMod = 2147483648 ∧ db.numRecords = j ∧
  db.file.length = LINEARDB3_HEADER_SIZE + j * 5 ∧
  (∃ hp, db.hashTable.pages 0 = some hp ∧ chainFill R j 0 (hp.buckets 0)) ∧
  db.overflowBuckets.numPages = 1 ∧ db.overflowBuckets.numBuckets = 2 ∧
  ∃ op, db.overflowBuckets.pages 0 = some op ∧
    (∀ c, 1 ≤ c → c < P → chainFill R j c (op.buckets c)) ∧
    (op.buckets 0).fingerprints 0 = 0

/-- The bucket `m` of the chain of bin 0 as a `BucketRef`. -/
def chainRef (m : Nat) : BucketRef :=
  if m = 0 then ⟨false, 0⟩ else ⟨true, m⟩

/-- The puts of the one-bin scenario: records `j, j + 1, ...`, `n` of them,
record `i` with key `chainKey i` and the one-byte value `i % 256`. -/
def chainPuts : Nat → Nat → List (List Nat × List Nat)
  | _, 0 => []
  | j, n + 1 => (chainKey j, [j % 256]) :: chainPuts (j + 1) n

/-- The state of the one-bin scenario after the put that follows the `j` puts
filling the first overflow page: overflow bucket 2 has fingerprint `j + 1` in
slot 0, and the last bucket of the page links to bucket 2. -/
def CycleInv (R P j : Nat) (db : LINEARDB3) : Prop :=
  db.keySize = 4 ∧ db.hashTableSizeA = 1 ∧ db.hashTableSizeB = 1 ∧
  db.fingerprintMod = 2147483648 ∧
  (∃ hp, db.hashTable.pages 0 = some hp ∧ chainFill R j 0 (hp.buckets 0)) ∧
  ∃ op, db.overflowBuckets.pages 0 = some op ∧
    ∀ c, 1 ≤ c → c < P →
      (∀ s, s < R →
        (op.buckets c).fingerprints s = if c = 2 ∧ s = 0 then j + 1 else c * R + s + 1) ∧
      (op.buckets c).overflowIndex = if c + 1 < P then c + 1 else 2

/-- The one-bin scenario: a fresh open with one primary bucket, four-byte keys
and one-byte values, then `n` puts. -/
def chainScenario (R P fuel n : Nat) : Option LINEARDB3 :=
  match openOk R P wordHash fuel [] 1 4 1 with
  | none => none
  | some db => putAll R P wordHash fuel db (chainPuts 0 n)

/-! ## The shrink size -/

/-- The loop of `LINEARDB3_getShrinkSize` (lines 1109-1122) on the current
`divisor`; `newDivisor` is an `unsigned int`.  The result is the divisor at the
`break`; `none` is the division `curSize % 0`, or the fuel running out. -/
def shrinkLoop (curSize minSize : Nat) : Nat → Nat → Option Nat
  | 0, _ => none
  | fuel + 1, divisor =>
    let newDivisor := (divisor * 2) % 2 ^ 32
    if newDivisor = 0 then none
    else if curSize % newDivisor = 0 ∧ curSize / newDivisor ≥ minSize then
      shrinkLoop curSize minSize fuel newDivisor
    else some divisor

/-- Lines 1087-1093 of `LINEARDB3_getShrinkSize`: the `unsigned int curSize`. -/
def shrinkCurSize (inDB : LINEARDB3) : Nat :=
  if inDB.hashTableSizeA ≠ inDB.hashTableSizeB then (inDB.hashTableSizeA * 2) % 2 ^ 32
  else inDB.hashTableSizeA

/-- Source: `LINEARDB3_getShrinkSize`, lines 1084-1125.  The field `maxLoad` is
assigned once, in `LINEARDB3_open`, the constant `DEFAULT_MAX_LOAD`, which is
0.5; `ceil( n / 0.5 )` is `2 * n`, exactly, for every `unsigned int n`, and the
`long` that `lrint` returns is converted to `unsigned int` modulo `2^32`. -/
def LINEARDB3_getShrinkSize (fuel : Nat) (inDB : LINEARDB3) (inNewNumRecords : Nat) :
    Option Nat :=
  let curSize := shrinkCurSize inDB
  if inNewNumRecords ≥ curSize then some curSize else
  let minSize := (2 * inNewNumRecords) % 2 ^ 32
  match shrinkLoop curSize minSize fuel 1 with
  | none => none
  | some divisor => some (curSize / divisor)

/-! ## More scenarios and invariants -/

/-- A page manager as `initPageManager` and `addBucket` leave it: the page
area has room for the pages, exactly the first `numPages` page pointers are
set, and the buckets counted by `numBuckets` lie in them. -/
def PMWellFormed (P : Nat) (pm : PageManager) : Prop :=
  1 ≤ P ∧ 1 ≤ pm.pageAreaSize ∧ pm.numPages ≤ pm.pageAreaSize ∧
  pm.numBuckets ≤ pm.numPages * P ∧
  ∀ i, (pm.pages i).isSome = true ↔ i < pm.numPages

/-- The scenario with two bins, one record per bucket and three buckets per
page: a fresh database with two primary buckets and one-byte keys and values,
then puts of the keys 2, 4 and 6, which fall into bin 0, and of the keys 1 and
3, which fall into bin 1; each put returns 0. -/
def twoBins : Option LINEARDB3 :=
  match openOk 1 3 firstByteHash 40 [] 2 1 1 with
  | none => none
  | some db =>
    putAll 1 3 firstByteHash 8 db
      [([2], [20]), ([4], [40]), ([6], [60]), ([1], [10]), ([3], [30])]

/-- What a bucket holds in its slot 0, and its link. -/
def slotSummary (b : Option FingerprintBucket) : Option (Nat × Nat × Nat) :=
  b.map (fun b => (b.fingerprints 0, b.fileIndex 0, b.overflowIndex))

/-- A sequence of `k` calls of `addBucket`; `none` when one of them dereferences
a `NULL` page. -/
def addBuckets (P : Nat) : Nat → PageManager → Option PageManager
  | 0, pm => some pm
  | k + 1, pm =>
    match addBucket P pm with
    | none => none
    | some r => addBuckets P k r.2

/-- Two states with the same table sizes and the same fingerprint modulus: the
three fields that `getBinNumber` reads. -/
def SameModuli (db db2 : LINEARDB3) : Prop :=
  db2.hashTableSizeA = db.hashTableSizeA ∧ db2.hashTableSizeB = db.hashTableSizeB ∧
  db2.fingerprintMod = db.fingerprintMod

/-! # Properties -/

/-! ## Fingerprints and bins: arithmetic -/

theorem recomputeLoop_range : ∀ (fuel m r : Nat), 1 ≤ m → m < 2 ^ 32 →
    recomputeLoop fuel m = some r → 2 ^ 31 ≤ r ∧ r < 2 ^ 32 := by
  intro fuel
  induction fuel with
  | zero => intro m r _ _ h; simp [recomputeLoop] at h
  | succ fuel ih =>
    intro m r h1 h2 h
    simp only [recomputeLoop] at h
    split at h
    · simp only [Option.some.injEq] at h
      subst h
      omega
    · exact ih _ r (by omega) (by omega) h

theorem recomputeFingerprintMod_fields (fuel : Nat) (db0 db : LINEARDB3)
    (h : recomputeFingerprintMod fuel db0 = some db) :
    recomputeLoop fuel db0.hashTableSizeA = some db.fingerprintMod ∧
    db.hashTableSizeA = db0.hashTableSizeA ∧ db.hashTableSizeB = db0.hashTableSizeB := by
  unfold recomputeFingerprintMod at h
  split at h
  · simp at h
  · rename_i m hm
    simp only [Option.some.injEq] at h
    subst h
    exact ⟨hm, rfl, rfl⟩

theorem adjustedHash_mod_ne_zero (hashVal fm : Nat) (hfm : 2 ≤ fm) :
    adjustedHash hashVal fm % fm ≠ 0 := by
  unfold adjustedHash UINT64_MAX
  split
  · rename_i h0
    split
    · rw [Nat.add_mod, h0]
      simp
      omega
    · intro hcon
      have h1 : hashVal ≥ 1 := by omega
      have h2 : fm ∣ hashVal := Nat.dvd_of_mod_eq_zero h0
      have h3 : fm ∣ hashVal - (hashVal - 1) :=
        Nat.dvd_sub' h2 (Nat.dvd_of_mod_eq_zero hcon)
      have h4 : hashVal - (hashVal - 1) = 1 := by omega
      rw [h4] at h3
      have := Nat.le_of_dvd (by omega) h3
      omega
  · assumption

theorem getBinNumber_fingerprint (db : LINEARDB3) (hashVal bin fp : Nat)
    (h : getBinNumber db hashVal = some (bin, fp)) :
    fp = adjustedHash hashVal db.fingerprintMod % db.fingerprintMod := by
  unfold getBinNumber at h
  by_cases h1 : db.fingerprintMod = 0
  · simp [h1] at h
  by_cases h2 : db.hashTableSizeA = 0
  · simp [h1, h2] at h
  simp only [h1, h2, if_false] at h
  split at h
  · split at h
    · simp at h
    · simp only [Option.some.injEq, Prod.mk.injEq] at h
      exact h.2.symm
  · simp only [Option.some.injEq, Prod.mk.injEq] at h
    exact h.2.symm

/-- C9: for a `fingerprintMod` that `recomputeFingerprintMod` computed from a
table size between 1 and `2^32 - 1`, every fingerprint that `getBinNumber`
outputs for a hash value is non-zero and smaller than `fingerprintMod`; and
`getBinNumber` does output one when the table is not being split or twice the
table size fits in 32 bits. -/
theorem getBinNumber_fingerprint_nonzero (fuel : Nat) (db0 db : LINEARDB3) (hashVal : Nat)
    (hA : 1 ≤ db0.hashTableSizeA) (hA32 : db0.hashTableSizeA < 2 ^ 32)
    (hmod : recomputeFingerprintMod fuel db0 = some db) :
    (∀ bin fp, getBinNumber db hashVal = some (bin, fp) →
      fp ≠ 0 ∧ fp < db.fingerprintMod) ∧
    (db.hashTableSizeB = db.hashTableSizeA ∨ db.hashTableSizeA * 2 < 2 ^ 32 →
      ∃ bin fp, getBinNumber db hashVal = some (bin, fp)) := by
  obtain ⟨hloop, hAeq, _⟩ := recomputeFingerprintMod_fields fuel db0 db hmod
  have hr := recomputeLoop_range fuel _ _ hA hA32 hloop
  have hfm2 : 2 ≤ db.fingerprintMod := by omega
  refine ⟨?_, ?_⟩
  · intro bin fp h
    have hfp := getBinNumber_fingerprint db hashVal bin fp h
    subst hfp
    exact ⟨adjustedHash_mod_ne_zero hashVal _ hfm2, Nat.mod_lt _ (by omega)⟩
  · intro hB
    have hA0 : db.hashTableSizeA ≠ 0 := by omega
    have hfm0 : db.fingerprintMod ≠ 0 := by omega
    unfold getBinNumber
    simp only [hfm0, hA0, if_false]
    split
    · rename_i hlt
      have hd : db.hashTableSizeA * 2 % 2 ^ 32 ≠ 0 := by
        rcases hB with hB | hB
        · rw [hB] at hlt
          omega
        · omega
      simp only [hd, if_false]
      exact ⟨_, _, rfl⟩
    · exact ⟨_, _, rfl⟩

/-- Witness for C9: a table of 3 buckets, whose `fingerprintMod` is `3 * 2^30`,
and the hash value 0. -/
theorem getBinNumber_fingerprint_nonzero_witness :
    (∀ bin fp,
      getBinNumber
        { file := [], filePos := 0, hashTableSizeA := 3, hashTableSizeB := 3,
          numRecords := 0, keySize := 4, valueSize := 4, recordBuffer := [],
          maxOverflowDepth := 0, fingerprintMod := 3221225472,
          hashTable := initPageManager 4 3, overflowBuckets := initPageManager 4 2 }
        0 = some (bin, fp) → fp ≠ 0 ∧ fp < 3221225472) ∧
    ((3 : Nat) = 3 ∨ 3 * 2 < 2 ^ 32 →
      ∃ bin fp,
        getBinNumber
          { file := [], filePos := 0, hashTableSizeA := 3, hashTableSizeB := 3,
            numRecords := 0, keySize := 4, valueSize := 4, recordBuffer := [],
            maxOverflowDepth := 0, fingerprintMod := 3221225472,
            hashTable := initPageManager 4 3, overflowBuckets := initPageManager 4 2 }
          0 = some (bin, fp)) :=
  getBinNumber_fingerprint_nonzero 32
    { file := [], filePos := 0, hashTableSizeA := 3, hashTableSizeB := 3,
      numRecords := 0, keySize := 4, valueSize := 4, recordBuffer := [],
      maxOverflowDepth := 0, fingerprintMod := 0,
      hashTable := initPageManager 4 3, overflowBuckets := initPageManager 4 2 }
    _ 0 (by decide) (by decide) rfl

/-- C10: with a non-zero `fingerprintMod`, `1 ≤ A ≤ B ≤ 2A` and `2A < 2^32`,
`getBinNumber` returns, for the adjusted hash value `h`, the bin `h mod A`
when `h mod A ≥ B - A` and the bin `h mod 2A` otherwise. -/
theorem getBinNumber_bin_rule (db : LINEARDB3) (hashVal : Nat)
    (hfm : 0 < db.fingerprintMod) (hA : 1 ≤ db.hashTableSizeA)
    (hAB : db.hashTableSizeA ≤ db.hashTableSizeB)
    (hB : db.hashTableSizeB ≤ 2 * db.hashTableSizeA)
    (h32 : 2 * db.hashTableSizeA < 2 ^ 32) :
    getBinNumber db hashVal =
      some
        (if adjustedHash hashVal db.fingerprintMod % db.hashTableSizeA
              ≥ db.hashTableSizeB - db.hashTableSizeA then
            adjustedHash hashVal db.fingerprintMod % db.hashTableSizeA
          else adjustedHash hashVal db.fingerprintMod % (2 * db.hashTableSizeA),
         adjustedHash hashVal db.fingerprintMod % db.fingerprintMod) := by
  have hA0 : db.hashTableSizeA ≠ 0 := by omega
  have hfm0 : db.fingerprintMod ≠ 0 := by omega
  have hsp : (db.hashTableSizeB + 2 ^ 32 - db.hashTableSizeA) % 2 ^ 32
      = db.hashTableSizeB - db.hashTableSizeA := by omega
  have hd : db.hashTableSizeA * 2 % 2 ^ 32 = 2 * db.hashTableSizeA := by omega
  have hd0 : 2 * db.hashTableSizeA ≠ 0 := by omega
  unfold getBinNumber
  simp only [hfm0, hA0, if_false, hsp, hd, hd0]
  by_cases hlt : adjustedHash hashVal db.fingerprintMod % db.hashTableSizeA
      < db.hashTableSizeB - db.hashTableSizeA
  · simp only [hlt, if_true, ge_iff_le, Nat.not_le.mpr hlt, if_false]
  · simp only [hlt, if_false, ge_iff_le, Nat.not_lt.mp hlt, if_true]

/-- Witness for C10: a table with `A = 4`, `B = 6` and the hash value 13, which
falls before the split point and lands in bin `13 mod 8`. -/
theorem getBinNumber_bin_rule_witness :
    getBinNumber
        { file := [], filePos := 0, hashTableSizeA := 4, hashTableSizeB := 6,
          numRecords := 0, keySize := 4, valueSize := 4, recordBuffer := [],
          maxOverflowDepth := 0, fingerprintMod := 2147483648,
          hashTable := initPageManager 4 6, overflowBuckets := initPageManager 4 2 }
        13 = some (5, 13) :=
  getBinNumber_bin_rule
    { file := [], filePos := 0, hashTableSizeA := 4, hashTableSizeB := 6,
      numRecords := 0, keySize := 4, valueSize := 4, recordBuffer := [],
      maxOverflowDepth := 0, fingerprintMod := 2147483648,
      hashTable := initPageManager 4 6, overflowBuckets := initPageManager 4 2 }
    13 (by decide) (by decide) (by decide) (by decide) (by decide)

/-! ## `getFirstEmptyBucketIndex` -/

theorem scanBuckets_found (P : Nat) (page : BucketPage) (p t : Nat) :
    ∀ (k b : Nat), b ≤ t → t < b + k →
      (∀ x, b ≤ x → x < t → ¬ ((page.buckets x).fingerprints 0 = 0 ∧ p * P + x ≠ 0)) →
      ((page.buckets t).fingerprints 0 = 0 ∧ p * P + t ≠ 0) →
      scanBuckets P page p k b = some (p * P + t) := by
  intro k
  induction k with
  | zero => intro b h1 h2; omega
  | succ k ih =>
    intro b h1 h2 hbefore ht
    unfold scanBuckets
    by_cases hb : b = t
    · subst hb
      simp only [ht, ne_eq, not_false_eq_true, and_self, if_true]
    · have hnot := hbefore b (le_refl b) (by omega)
      simp only [hnot, if_false]
      exact ih (b + 1) (by omega) (by omega) (fun x hx hxt => hbefore x (by omega) hxt) ht

theorem scanBuckets_none (P : Nat) (page : BucketPage) (p : Nat) :
    ∀ (k b : Nat),
      (∀ x, b ≤ x → x < b + k → ¬ ((page.buckets x).fingerprints 0 = 0 ∧ p * P + x ≠ 0)) →
      scanBuckets P page p k b = none := by
  intro k
  induction k with
  | zero => intro b _; rfl
  | succ k ih =>
    intro b hall
    unfold scanBuckets
    have hnot := hall b (le_refl b) (by omega)
    simp only [hnot, if_false]
    exact ih (b + 1) (fun x hx hxt => hall x (by omega) (by omega))

theorem filledUpTo_init (P : Nat) (hP : 3 ≤ P) : FilledUpTo 0 (initPageManager P 2) := by
  have h2 : 2 / P = 0 := Nat.div_eq_of_lt (by omega)
  refine ⟨by simp [initPageManager, h2], rfl, zeroPage, by simp [initPageManager, h2], ?_, ?_, rfl⟩
  · intro b h1 h2; omega
  · intro b _; rfl

theorem filledUpTo_step (P j fp : Nat) (pm : PageManager) (hj : j + 1 < P) (hfp : fp ≠ 0)
    (h : FilledUpTo j pm) :
    getFirstEmptyBucketIndex P pm = some (j + 1, pm) ∧
    ∃ pm2, storeFingerprint0 P pm (j + 1) fp = some pm2 ∧ FilledUpTo (j + 1) pm2 := by
  obtain ⟨hnp, hnb, page, hpage, hfull, hempty, h0⟩ := h
  have hscan : scanBuckets P page 0 P 0 = some (0 * P + (j + 1)) := by
    apply scanBuckets_found P page 0 (j + 1) P 0 (by omega) (by omega)
    · intro x _ hx hcon
      rcases Nat.eq_zero_or_pos x with hx0 | hx0
      · subst hx0; simp at hcon
      · exact hfull x hx0 (by omega) hcon.1
    · exact ⟨hempty (j + 1) (by omega), by omega⟩
  have hdiv : (j + 1) / P = 0 := Nat.div_eq_of_lt hj
  have hmod : (j + 1) % P = j + 1 := Nat.mod_eq_of_lt hj
  refine ⟨?_, ?_⟩
  · unfold getFirstEmptyBucketIndex
    rw [hnp]
    simp [scanPages, hpage, hscan]
  · unfold storeFingerprint0 getBucket setBucket
    simp only [hdiv, hmod, hpage]
    refine ⟨_, rfl, hnp, hnb, _, rfl, ?_, ?_, ?_⟩
    · intro b hb1 hb2
      by_cases hb : b = j + 1
      · simp [hb, hfp]
      · simp only [hb, if_false]
        exact hfull b hb1 (by omega)
    · intro b hb
      have : b ≠ j + 1 := by omega
      simp only [this, if_false]
      exact hempty b (by omega)
    · simp [h0]

theorem allocateAndFill_filled (P : Nat) :
    ∀ (fps : List Nat) (j : Nat) (pm : PageManager), j + fps.length < P →
      (∀ fp ∈ fps, fp ≠ 0) → FilledUpTo j pm →
      ∃ pm2, allocateAndFill P fps pm = some pm2 ∧ FilledUpTo (j + fps.length) pm2 := by
  intro fps
  induction fps with
  | nil => intro j pm _ _ h; exact ⟨pm, rfl, h⟩
  | cons fp rest ih =>
    intro j pm hlen hne h
    simp only [List.length_cons] at hlen
    obtain ⟨hget, pm2, hstore, hinv⟩ :=
      filledUpTo_step P j fp pm (by omega) (hne fp (List.mem_cons_self _ _)) h
    obtain ⟨pm3, hrun, hinv3⟩ :=
      ih (j + 1) pm2 (by omega) (fun x hx => hne x (List.mem_cons_of_mem _ hx)) hinv
    refine ⟨pm3, ?_, ?_⟩
    · simp only [allocateAndFill, hget, hstore, hrun]
    · simp only [List.length_cons]
      rw [show j + (rest.length + 1) = j + 1 + rest.length by omega]
      exact hinv3

theorem filledUpTo_full (P : Nat) (pm : PageManager) (hP : 3 ≤ P) (h : FilledUpTo (P - 1) pm) :
    ∃ pm2 b, getFirstEmptyBucketIndex P pm = some (2, pm2) ∧
      getBucket P pm2 2 = some b ∧ b.fingerprints 0 ≠ 0 := by
  obtain ⟨hnp, hnb, page, hpage, hfull, hempty, h0⟩ := h
  have hscan : scanBuckets P page 0 P 0 = none := by
    apply scanBuckets_none
    intro x _ hx hcon
    rcases Nat.eq_zero_or_pos x with hx0 | hx0
    · subst hx0; simp at hcon
    · exact hfull x hx0 (by omega) hcon.1
  have hdiv : 2 / P = 0 := Nat.div_eq_of_lt (by omega)
  have hmod : 2 % P = 2 := Nat.mod_eq_of_lt (by omega)
  have hne : ¬ (P = 2) := by omega
  refine ⟨{ pm with numBuckets := 3 }, page.buckets 2, ?_, ?_, hfull 2 (by omega) (by omega)⟩
  · unfold getFirstEmptyBucketIndex
    rw [hnp]
    simp [scanPages, hpage, hscan, addBucket, hnp, hnb, hne, getBucket, hdiv, hmod]
  · simp [getBucket, hdiv, hmod, hpage]

/-- C6 fails on the code.  For every page size `P ≥ 3`: after `P - 1` calls of
`getFirstEmptyBucketIndex` on `initPageManager(2)`, each followed by the
caller storing a non-zero fingerprint in slot 0 of the returned bucket, the
page is full, and the next call returns index 2, whose slot-0 fingerprint is
not 0: the scan covers the whole page while `numBuckets` stayed 2, so the
"new bucket off the end" is a bucket already handed out. -/
theorem getFirstEmptyBucketIndex_reissues (P : Nat) (fps : List Nat) (hP : 3 ≤ P)
    (hlen : fps.length = P - 1) (hne : ∀ fp ∈ fps, fp ≠ 0) :
    ∃ pm pm2 b, allocateAndFill P fps (initPageManager P 2) = some pm ∧
      getFirstEmptyBucketIndex P pm = some (2, pm2) ∧
      getBucket P pm2 2 = some b ∧ b.fingerprints 0 ≠ 0 := by
  obtain ⟨pm, hrun, hinv⟩ :=
    allocateAndFill_filled P fps 0 (initPageManager P 2) (by omega) hne (filledUpTo_init P hP)
  rw [Nat.zero_add, hlen] at hinv
  obtain ⟨pm2, b, hget, hb, hb0⟩ := filledUpTo_full P pm hP hinv
  exact ⟨pm, pm2, b, hrun, hget, hb, hb0⟩

/-- Witness for C6: pages of 4096 buckets and 4095 stored fingerprints 7. -/
theorem getFirstEmptyBucketIndex_reissues_witness :
    3 ≤ 4096 ∧ (List.replicate 4095 7).length = 4096 - 1 ∧
    (∀ fp ∈ List.replicate 4095 7, fp ≠ 0) ∧
    ∃ pm pm2 b, allocateAndFill 4096 (List.replicate 4095 7) (initPageManager 4096 2) = some pm ∧
      getFirstEmptyBucketIndex 4096 pm = some (2, pm2) ∧
      getBucket 4096 pm2 2 = some b ∧ b.fingerprints 0 ≠ 0 :=
  ⟨by decide, List.length_replicate 4095 7,
    fun fp h => by rw [List.eq_of_mem_replicate h]; decide,
    getFirstEmptyBucketIndex_reissues 4096 (List.replicate 4095 7) (by decide)
      (List.length_replicate 4095 7)
      (fun fp h => by rw [List.eq_of_mem_replicate h]; decide)⟩

/-! ## The walk of the chain on occupied, non-matching slots -/

theorem consider_mismatch (P : Nat) (db : LINEARDB3) (key v : Buf) (fp : Nat)
    (put write : Bool) (ref : BucketRef) (i : Nat) (b : FingerprintBucket)
    (hb : getBucketAt P db ref = some b) (h0 : b.fingerprints i ≠ 0)
    (hne : b.fingerprints i ≠ fp) :
    LINEARDB3_considerFingerprintBucket P db key v fp put write ref i = some ⟨2, v, db⟩ := by
  unfold LINEARDB3_considerFingerprintBucket
  simp only [hb, h0, hne, if_false]

theorem considerSlots_mismatch (P : Nat) (key : Buf) (fp : Nat) (put write : Bool)
    (ref : BucketRef) (db : LINEARDB3) (v : Buf) (b : FingerprintBucket)
    (hb : getBucketAt P db ref = some b) :
    ∀ (k i : Nat),
      (∀ j, i ≤ j → j < i + k → b.fingerprints j ≠ 0 ∧ b.fingerprints j ≠ fp) →
      considerSlots P key fp put write ref k i db v = some ⟨2, v, db⟩ := by
  intro k
  induction k with
  | zero => intro i _; rfl
  | succ k ih =>
    intro i hall
    have hi := hall i (le_refl i) (by omega)
    unfold considerSlots
    rw [consider_mismatch P db key v fp put write ref i b hb hi.1 hi.2]
    simp only [show ¬ ((2 : Int) < 2) by decide, if_false]
    exact ih (i + 1) (fun j hj hjk => hall j (by omega) (by omega))

theorem noteOverflowDepth_overflowBuckets (db : LINEARDB3) (d : Nat) :
    (noteOverflowDepth db d).overflowBuckets = db.overflowBuckets := by
  unfold noteOverflowDepth
  split <;> rfl

theorem walkChain_trapped (R P : Nat) (key : Buf) (fp : Nat) (put write : Bool)
    (pm : PageManager) (S : Nat → Prop) (hS : Trapped R P fp pm S) :
    ∀ (fuel depth c : Nat) (db : LINEARDB3) (v : Buf), S c → db.overflowBuckets = pm →
      walkChain R P key fp put write fuel depth ⟨true, c⟩ db v = none := by
  intro fuel
  induction fuel with
  | zero => intro depth c db v _ _; rfl
  | succ fuel ih =>
    intro depth c db v hc hpm
    obtain ⟨b, hb, _, hpos, hnext⟩ := hS c hc
    obtain ⟨b2, hb2, hfull2, _, _⟩ := hS b.overflowIndex hnext
    have hget : getBucketAt P db ⟨true, c⟩ = some b := by
      simp only [getBucketAt, if_true, hpm, hb]
    have hget2 : getBucketAt P (noteOverflowDepth db (depth + 1)) ⟨true, b.overflowIndex⟩
        = some b2 := by
      simp only [getBucketAt, if_true, noteOverflowDepth_overflowBuckets, hpm, hb2]
    unfold walkChain
    simp only [hget, hpos, if_true]
    rw [considerSlots_mismatch P key fp put write _ _ v b2 hget2 R 0
      (fun j _ hj => hfull2 j (by omega))]
    simp only [show ¬ ((2 : Int) < 2) by decide, if_false]
    exact ih (depth + 1) b.overflowIndex _ v hnext
      (by rw [noteOverflowDepth_overflowBuckets, hpm])

/-- One step of the walk from a full, non-matching bucket with a link. -/
theorem walkChain_step (R P : Nat) (key : Buf) (fp : Nat) (put write : Bool)
    (fuel depth : Nat) (ref : BucketRef) (db : LINEARDB3) (v : Buf)
    (b b2 : FingerprintBucket) (hb : getBucketAt P db ref = some b)
    (hpos : 0 < b.overflowIndex)
    (hb2 : getBucket P db.overflowBuckets b.overflowIndex = some b2)
    (hfull2 : ∀ j, j < R → b2.fingerprints j ≠ 0 ∧ b2.fingerprints j ≠ fp) :
    walkChain R P key fp put write (fuel + 1) depth ref db v =
      walkChain R P key fp put write fuel (depth + 1) ⟨true, b.overflowIndex⟩
        (noteOverflowDepth db (depth + 1)) v := by
  have hget2 : getBucketAt P (noteOverflowDepth db (depth + 1)) ⟨true, b.overflowIndex⟩
      = some b2 := by
    simp only [getBucketAt, if_true, noteOverflowDepth_overflowBuckets, hb2]
  conv => lhs; unfold walkChain
  simp only [hb, hpos, if_true]
  rw [considerSlots_mismatch P key fp put write _ _ v b2 hget2 R 0
    (fun j _ hj => hfull2 j (by omega))]
  simp only [show ¬ ((2 : Int) < 2) by decide, if_false]

/-! ## The scenario `fourPuts` -/

theorem fourPuts_summary :
    fourPuts.map chainSummary =
      some ((2147483648, 1, 1, 1), [some (1, 1), some (2, 2), some (4, 2)]) := by
  decide

/-- In every state with the index that `fourPuts` leaves, whatever its file
holds, the walk for a key of bin 0 whose fingerprint is not in the chain does
not end, in get mode and in put mode. -/
theorem chainSummary_getOrPut_diverges (db : LINEARDB3)
    (hsum : chainSummary db =
      ((2147483648, 1, 1, 1), [some (1, 1), some (2, 2), some (4, 2)]))
    (x fp : Nat) (hbin : getBinNumber db (firstByteHash [x] % 2 ^ 64) = some (0, fp))
    (h1 : fp ≠ 1) (h2 : fp ≠ 2) (h4 : fp ≠ 4)
    (fuel : Nat) (v : Buf) (put write : Bool) :
    LINEARDB3_getOrPut 1 3 firstByteHash fuel db (.user [x]) v put write = none := by
  simp only [chainSummary, Prod.mk.injEq,
    List.cons.injEq, and_true, Option.map_eq_some', Prod.exists] at hsum
  obtain ⟨⟨hfm, hA, hB, hks⟩, ⟨b0, hb0, hb0f, hb0o⟩, ⟨b1, hb1, hb1f, hb1o⟩,
    ⟨b2, hb2, hb2f, hb2o⟩⟩ := hsum
  have e1 : getBucket 3 db.overflowBuckets 1 = some b1 := by
    simpa [getBucketAt] using hb1
  have e2 : getBucket 3 db.overflowBuckets 2 = some b2 := by
    simpa [getBucketAt] using hb2
  have full0 : ∀ j, j < 1 → b0.fingerprints j ≠ 0 ∧ b0.fingerprints j ≠ fp := by
    intro j hj
    have : j = 0 := by omega
    subst this
    rw [hb0f]
    exact ⟨by decide, fun h => h1 h.symm⟩
  have full1 : ∀ j, j < 1 → b1.fingerprints j ≠ 0 ∧ b1.fingerprints j ≠ fp := by
    intro j hj
    have : j = 0 := by omega
    subst this
    rw [hb1f]
    exact ⟨by decide, fun h => h2 h.symm⟩
  have full2 : ∀ j, j < 1 → b2.fingerprints j ≠ 0 ∧ b2.fingerprints j ≠ fp := by
    intro j hj
    have : j = 0 := by omega
    subst this
    rw [hb2f]
    exact ⟨by decide, fun h => h4 h.symm⟩
  have htrap : Trapped 1 3 fp db.overflowBuckets (fun c => c = 2) := by
    intro c hc
    subst hc
    exact ⟨b2, e2, full2, by omega, hb2o⟩
  unfold LINEARDB3_getOrPut
  simp only [Buf.load, hks, List.length_singleton, le_refl, if_true, List.take_succ_cons,
    List.take_zero, hbin]
  rw [considerSlots_mismatch 3 _ fp put write _ db _ b0 hb0 1 0
    (fun j _ hj => full0 j (by omega))]
  simp only [show ¬ ((2 : Int) < 2) by decide, if_false]
  cases fuel with
  | zero => rfl
  | succ fuel =>
    rw [walkChain_step 1 3 _ fp put write fuel 0 _ db _ b0 b1 hb0 (by omega)
      (by rw [hb0o]; exact e1) full1]
    cases fuel with
    | zero => rfl
    | succ fuel =>
      have hb1n : getBucketAt 3 (noteOverflowDepth db (0 + 1)) ⟨true, b0.overflowIndex⟩
          = some b1 := by
        simp only [getBucketAt, if_true, noteOverflowDepth_overflowBuckets, hb0o, e1]
      rw [walkChain_step 1 3 _ fp put write fuel (0 + 1) _ _ _ b1 b2 hb1n (by omega)
        (by rw [noteOverflowDepth_overflowBuckets, hb1o]; exact e2) full2]
      rw [hb1o]
      exact walkChain_trapped 1 3 _ fp put write db.overflowBuckets _ htrap fuel _ 2 _ _ rfl
        (by rw [noteOverflowDepth_overflowBuckets, noteOverflowDepth_overflowBuckets])

theorem fourPuts_getOrPut_diverges (db : LINEARDB3) (hdb : fourPuts = some db)
    (x fp : Nat) (hbin : getBinNumber db (firstByteHash [x] % 2 ^ 64) = some (0, fp))
    (h1 : fp ≠ 1) (h2 : fp ≠ 2) (h4 : fp ≠ 4)
    (fuel : Nat) (v : Buf) (put write : Bool) :
    LINEARDB3_getOrPut 1 3 firstByteHash fuel db (.user [x]) v put write = none := by
  have hsum := fourPuts_summary
  rw [hdb] at hsum
  simp only [Option.map_some', Option.some.injEq] at hsum
  exact chainSummary_getOrPut_diverges db hsum x fp hbin h1 h2 h4 fuel v put write

/-- C1 fails on the code.  With one record per bucket and three buckets per
page, after a fresh open with one primary bucket and successful puts of the
keys 1, 2, 3 and 4, `LINEARDB3_get` of the key 3 does not return, with any
fuel: the fourth put made `getFirstEmptyBucketIndex` hand out overflow bucket
2 again, which held key 3, and linked it to itself. -/
theorem fourPuts_lost_key :
    ∃ db, fourPuts = some db ∧
      ∀ (fuel : Nat) (out : List Nat), LINEARDB3_get 1 3 firstByteHash fuel db [3] out = none := by
  have hsome : fourPuts.isSome = true := by decide
  obtain ⟨db, hdb⟩ := Option.isSome_iff_exists.mp hsome
  refine ⟨db, hdb, fun fuel out => ?_⟩
  have hsum := fourPuts_summary
  rw [hdb] at hsum
  simp only [Option.map_some', Option.some.injEq, chainSummary, Prod.mk.injEq] at hsum
  obtain ⟨⟨hfm, hA, hB, _⟩, _⟩ := hsum
  have hbin : getBinNumber db (firstByteHash [3] % 2 ^ 64) = some (0, 3) := by
    simp [getBinNumber, hfm, hA, hB, adjustedHash, firstByteHash]
  exact fourPuts_getOrPut_diverges db hdb 3 3 hbin (by decide) (by decide) (by decide)
    fuel _ false false

/-- C4 fails on the code.  In the same state, `LINEARDB3_get` of the key 9,
which was never put, does not return 1: it does not return at all, with any
fuel, because the chain of bin 0 ends in the self-linked overflow bucket 2.
The defect is the one of `getFirstEmptyBucketIndex` shown for C6. -/
theorem fourPuts_absent_key :
    ∃ db, fourPuts = some db ∧
      ∀ (fuel : Nat) (out : List Nat), LINEARDB3_get 1 3 firstByteHash fuel db [9] out = none := by
  have hsome : fourPuts.isSome = true := by decide
  obtain ⟨db, hdb⟩ := Option.isSome_iff_exists.mp hsome
  refine ⟨db, hdb, fun fuel out => ?_⟩
  have hsum := fourPuts_summary
  rw [hdb] at hsum
  simp only [Option.map_some', Option.some.injEq, chainSummary, Prod.mk.injEq] at hsum
  obtain ⟨⟨hfm, hA, hB, _⟩, _⟩ := hsum
  have hbin : getBinNumber db (firstByteHash [9] % 2 ^ 64) = some (0, 9) := by
    simp [getBinNumber, hfm, hA, hB, adjustedHash, firstByteHash]
  exact fourPuts_getOrPut_diverges db hdb 9 9 hbin (by decide) (by decide) (by decide)
    fuel _ false false

/-- C5 fails on the code.  In the same state the index has a cycle: overflow
bucket 2 is linked from overflow bucket 1 and from itself, so following
`overflowIndex` from primary bucket 0 visits bucket 2 again and again and
never reaches a bucket with `overflowIndex == 0`; and the chain walk does not
terminate: a `LINEARDB3_put` of a fifth key does not return, with any fuel.
The defect is the one of `getFirstEmptyBucketIndex` shown for C6. -/
theorem fourPuts_cycle :
    ∃ db, fourPuts = some db ∧
      (∃ b0 b1 b2, getBucket 3 db.hashTable 0 = some b0 ∧
        getBucket 3 db.overflowBuckets 1 = some b1 ∧
        getBucket 3 db.overflowBuckets 2 = some b2 ∧
        b0.overflowIndex = 1 ∧ b1.overflowIndex = 2 ∧ b2.overflowIndex = 2) ∧
      ∀ (fuel : Nat), LINEARDB3_put 1 3 firstByteHash fuel db [5] [50] = none := by
  have hsome : fourPuts.isSome = true := by decide
  obtain ⟨db, hdb⟩ := Option.isSome_iff_exists.mp hsome
  have hsum := fourPuts_summary
  rw [hdb] at hsum
  simp only [Option.map_some', Option.some.injEq, chainSummary, Prod.mk.injEq,
    List.cons.injEq, and_true, Option.map_eq_some', Prod.exists] at hsum
  obtain ⟨⟨hfm, hA, hB, hks⟩, ⟨b0, hb0, _, hb0o⟩, ⟨b1, hb1, _, hb1o⟩,
    ⟨b2, hb2, _, hb2o⟩⟩ := hsum
  refine ⟨db, hdb, ⟨b0, b1, b2, ?_, ?_, ?_, hb0o, hb1o, hb2o⟩, fun fuel => ?_⟩
  · simpa [getBucketAt] using hb0
  · simpa [getBucketAt] using hb1
  · simpa [getBucketAt] using hb2
  · have hbin : getBinNumber db (firstByteHash [5] % 2 ^ 64) = some (0, 5) := by
      simp [getBinNumber, hfm, hA, hB, adjustedHash, firstByteHash]
    exact fourPuts_getOrPut_diverges db hdb 5 5 hbin (by decide) (by decide) (by decide)
      fuel _ true true

theorem Frame.refl (db : LINEARDB3) : Frame db db :=
  ⟨rfl, rfl, rfl, rfl, rfl, rfl, rfl, rfl, rfl⟩

theorem Frame.trans {a b c : LINEARDB3} (h1 : Frame a b) (h2 : Frame b c) : Frame a c := by
  obtain ⟨a1, a2, a3, a4, a5, a6, a7, a8, a9⟩ := h1
  obtain ⟨b1, b2, b3, b4, b5, b6, b7, b8, b9⟩ := h2
  exact ⟨b1.trans a1, b2.trans a2, b3.trans a3, b4.trans a4, b5.trans a5, b6.trans a6,
    b7.trans a7, b8.trans a8, b9.trans a9⟩

theorem frame_fseekoSet (db : LINEARDB3) (pos : Nat) : Frame db (fseekoSet db pos) :=
  ⟨rfl, rfl, rfl, rfl, rfl, rfl, rfl, rfl, rfl⟩

theorem frame_fread (db : LINEARDB3) (size : Nat) : Frame db (fread db size).2.2 := by
  unfold fread
  split
  · exact Frame.refl db
  · exact ⟨rfl, rfl, rfl, rfl, rfl, rfl, rfl, rfl, rfl⟩

theorem frame_store (db : LINEARDB3) (data : List Nat) (b : Buf) :
    Frame db (b.store db data).2 := by
  cases b with
  | user bytes => exact Frame.refl db
  | recbuf off => exact ⟨rfl, rfl, rfl, rfl, rfl, rfl, rfl, rfl, rfl⟩

theorem frame_noteOverflowDepth (db : LINEARDB3) (d : Nat) :
    Frame db (noteOverflowDepth db d) := by
  unfold noteOverflowDepth
  split
  · exact ⟨rfl, rfl, rfl, rfl, rfl, rfl, rfl, rfl, rfl⟩
  · exact Frame.refl db

theorem frame_recordBuffer (db : LINEARDB3) (buf : List Nat) :
    Frame db { db with recordBuffer := buf } :=
  ⟨rfl, rfl, rfl, rfl, rfl, rfl, rfl, rfl, rfl⟩

theorem readBackKey_frame (db : LINEARDB3) (key : Buf) (pos : Nat) (c : Option Int)
    (db2 : LINEARDB3) (h : readBackKey db key pos = some (c, db2)) : Frame db db2 := by
  have hf : Frame db
      { (fread (fseekoSet db pos) (fseekoSet db pos).keySize).2.2 with
        recordBuffer := overwrite
          (fread (fseekoSet db pos) (fseekoSet db pos).keySize).2.2.recordBuffer 0
          (fread (fseekoSet db pos) (fseekoSet db pos).keySize).2.1 } :=
    ((frame_fseekoSet db pos).trans (frame_fread _ _)).trans (frame_recordBuffer _ _)
  unfold readBackKey at h
  simp only at h
  split at h
  · simp only [Option.some.injEq, Prod.mk.injEq] at h
    rw [← h.2]
    exact hf
  · split at h
    · simp at h
    · split at h
      · simp only [Option.some.injEq, Prod.mk.injEq] at h
        rw [← h.2]
        exact hf
      · simp only [Option.some.injEq, Prod.mk.injEq] at h
        rw [← h.2]
        exact hf

theorem readValue_frame (db : LINEARDB3) (v : Buf) (r : Ret) (h : readValue db v = some r) :
    Frame db r.db := by
  have hf : Frame db (v.store (fread db db.valueSize).2.2 (fread db db.valueSize).2.1).2 :=
    (frame_fread _ _).trans (frame_store _ _ _)
  unfold readValue at h
  simp only at h
  split at h
  · simp only [Option.some.injEq] at h
    rw [← h]
    exact hf
  · simp only [Option.some.injEq] at h
    rw [← h]
    exact hf

/-- In get mode `LINEARDB3_considerFingerprintBucket` changes at most the file
position and the record buffer. -/
theorem consider_get_frame (P : Nat) (db : LINEARDB3) (key v : Buf) (fp : Nat) (write : Bool)
    (ref : BucketRef) (i : Nat) (r : Ret)
    (h : LINEARDB3_considerFingerprintBucket P db key v fp false write ref i = some r) :
    Frame db r.db := by
  unfold LINEARDB3_considerFingerprintBucket at h
  simp only at h
  split at h
  · simp at h
  · split at h
    · simp only [Bool.false_eq_true, if_false, Option.some.injEq] at h
      rw [← h]
      exact Frame.refl db
    · split at h
      · unfold considerHit at h
        simp only [Bool.false_eq_true, if_false, Bool.false_and] at h
        split at h
        · simp at h
        · rename_i code db2 hrb
          simp only [Option.some.injEq] at h
          rw [← h]
          exact readBackKey_frame _ _ _ _ _ hrb
        · rename_i db2 hrb
          exact (readBackKey_frame _ _ _ _ _ hrb).trans (readValue_frame _ _ _ h)
      · simp only [Option.some.injEq] at h
        rw [← h]
        exact Frame.refl db

theorem considerSlots_get_frame (P : Nat) (key : Buf) (fp : Nat) (write : Bool)
    (ref : BucketRef) :
    ∀ (k i : Nat) (db : LINEARDB3) (v : Buf) (r : Ret),
      considerSlots P key fp false write ref k i db v = some r → Frame db r.db := by
  intro k
  induction k with
  | zero =>
    intro i db v r h
    simp only [considerSlots, Option.some.injEq] at h
    rw [← h]
    exact Frame.refl db
  | succ k ih =>
    intro i db v r h
    unfold considerSlots at h
    split at h
    · simp at h
    · rename_i r1 hr1
      have hf1 := consider_get_frame P db key v fp write ref i r1 hr1
      split at h
      · simp only [Option.some.injEq] at h
        rw [← h]
        exact hf1
      · exact hf1.trans (ih _ _ _ _ h)

theorem afterChain_get (P : Nat) (key v : Buf) (fp : Nat) (write : Bool) (depth : Nat)
    (ref : BucketRef) (db : LINEARDB3) (r : Ret)
    (h : afterChain P key v fp false write depth ref db = some r) :
    r = ⟨1, v, db⟩ := by
  unfold afterChain at h
  split at h
  · simp at h
  · simp only [Bool.false_and, Bool.false_eq_true, if_false, Option.some.injEq] at h
    exact h.symm

theorem walkChain_get_frame (R P : Nat) (key : Buf) (fp : Nat) (write : Bool) :
    ∀ (fuel depth : Nat) (ref : BucketRef) (db : LINEARDB3) (v : Buf) (r : Ret),
      walkChain R P key fp false write fuel depth ref db v = some r → Frame db r.db := by
  intro fuel
  induction fuel with
  | zero => intro depth ref db v r h; simp [walkChain] at h
  | succ fuel ih =>
    intro depth ref db v r h
    unfold walkChain at h
    split at h
    · simp at h
    · split at h
      · simp only at h
        split at h
        · simp at h
        · rename_i r1 hr1
          have hf1 := (frame_noteOverflowDepth db (depth + 1)).trans
            (considerSlots_get_frame P key fp write _ R 0 _ v r1 hr1)
          split at h
          · simp only [Option.some.injEq] at h
            rw [← h]
            exact hf1
          · exact hf1.trans (ih _ _ _ _ _ h)
      · rw [afterChain_get P key v fp write depth ref db r h]
        exact Frame.refl db

/-- `LINEARDB3_getOrPut` in get mode changes at most the file position, the
record buffer and `maxOverflowDepth`. -/
theorem getOrPut_get_frame (R P : Nat) (hash : List Nat → Nat) (fuel : Nat) (db : LINEARDB3)
    (key v : Buf) (write : Bool) (r : Ret)
    (h : LINEARDB3_getOrPut R P hash fuel db key v false write = some r) : Frame db r.db := by
  unfold LINEARDB3_getOrPut at h
  split at h
  · simp at h
  · split at h
    · simp at h
    · simp only at h
      split at h
      · simp at h
      · rename_i r1 hr1
        have hf1 := considerSlots_get_frame P key _ write _ R 0 db v r1 hr1
        split at h
        · simp only [Option.some.injEq] at h
          rw [← h]
          exact hf1
        · exact hf1.trans (walkChain_get_frame R P key _ write fuel 0 _ _ _ r h)

/-! ## File primitives -/

theorem overwrite_length (buf : List Nat) (off : Nat) (data : List Nat) :
    (overwrite buf off data).length = max buf.length (off + data.length) := by
  simp only [overwrite, List.length_append, List.length_take, List.length_replicate,
    List.length_drop]
  omega

theorem load_length (db : LINEARDB3) (n : Nat) (b : Buf) (l : List Nat)
    (h : b.load db n = some l) : l.length = n := by
  cases b with
  | user bytes =>
    simp only [Buf.load] at h
    split at h
    · simp only [Option.some.injEq] at h
      subst h
      simp only [List.length_take]
      omega
    · simp at h
  | recbuf off =>
    simp only [Buf.load] at h
    split at h
    · simp only [Option.some.injEq] at h
      subst h
      simp only [List.length_take, List.length_drop]
      omega
    · simp at h

theorem readBackKey_code (db : LINEARDB3) (key : Buf) (pos : Nat) (c : Int) (d : LINEARDB3)
    (h : readBackKey db key pos = some (some c, d)) : c = -1 ∨ c = 2 := by
  unfold readBackKey at h
  simp only at h
  split at h
  · simp only [Option.some.injEq, Prod.mk.injEq] at h
    exact Or.inl h.1.symm
  · split at h
    · simp at h
    · split at h
      · simp at h
      · simp only [Option.some.injEq, Prod.mk.injEq] at h
        exact Or.inr h.1.symm

theorem setBucketAt_fields (P : Nat) (db : LINEARDB3) (ref : BucketRef) (b : FingerprintBucket)
    (db1 : LINEARDB3) (h : setBucketAt P db ref b = some db1) :
    db1.file = db.file ∧ db1.filePos = db.filePos ∧ db1.numRecords = db.numRecords ∧
    db1.keySize = db.keySize ∧ db1.valueSize = db.valueSize := by
  unfold setBucketAt at h
  split at h
  · split at h
    · simp at h
    · simp only [Option.some.injEq] at h
      subst h
      exact ⟨rfl, rfl, rfl, rfl, rfl⟩
  · split at h
    · simp at h
    · simp only [Option.some.injEq] at h
      subst h
      exact ⟨rfl, rfl, rfl, rfl, rfl⟩

theorem consider_empty_get (P : Nat) (db : LINEARDB3) (key v : Buf) (fp : Nat) (write : Bool)
    (ref : BucketRef) (i : Nat) (b : FingerprintBucket)
    (hb : getBucketAt P db ref = some b) (h0 : b.fingerprints i = 0) :
    LINEARDB3_considerFingerprintBucket P db key v fp false write ref i = some ⟨1, v, db⟩ := by
  unfold LINEARDB3_considerFingerprintBucket
  simp only [hb, h0, if_true, Bool.false_eq_true, if_false]

theorem consider_candidate (P : Nat) (db : LINEARDB3) (key v : Buf) (fp : Nat)
    (put write : Bool) (ref : BucketRef) (i : Nat) (b : FingerprintBucket)
    (hb : getBucketAt P db ref = some b) (h0 : b.fingerprints i ≠ 0)
    (heq : b.fingerprints i = fp) :
    LINEARDB3_considerFingerprintBucket P db key v fp put write ref i =
      considerHit db key v put write false
        (LINEARDB3_HEADER_SIZE + b.fileIndex i * db.recordSizeBytes) := by
  subst heq
  unfold LINEARDB3_considerFingerprintBucket
  simp only [hb, h0, if_true, if_false]

theorem linkNewBucket_fields (P fp : Nat) (ref : BucketRef) (db : LINEARDB3) (idx : Nat)
    (db4 : LINEARDB3) (h : linkNewBucket P fp ref db = some (idx, db4)) :
    idx = db.numRecords ∧ db4.file = db.file ∧ db4.numRecords = db.numRecords + 1 ∧
    db4.keySize = db.keySize ∧ db4.valueSize = db.valueSize := by
  unfold linkNewBucket at h
  cases hfe : getFirstEmptyBucketIndex P db.overflowBuckets with
  | none => simp [hfe] at h
  | some p =>
    obtain ⟨newIndex, pm⟩ := p
    simp only [hfe] at h
    cases hl : getBucketAt P { db with overflowBuckets := pm } ref with
    | none => simp [hl] at h
    | some last =>
      simp only [hl] at h
      cases hs : setBucketAt P { db with overflowBuckets := pm } ref
          { last with overflowIndex := newIndex } with
      | none => simp [hs] at h
      | some db3 =>
        obtain ⟨s1, _, s3, s4, s5⟩ := setBucketAt_fields _ _ _ _ _ hs
        simp only [hs] at h
        cases hn : getBucket P db3.overflowBuckets newIndex with
        | none => simp [hn] at h
        | some newBucket =>
          simp only [hn] at h
          split at h
          · simp at h
          · simp only [if_true, Option.some.injEq, Prod.mk.injEq] at h
            obtain ⟨h1, h2⟩ := h
            subst h2
            exact ⟨by rw [← h1]; exact s3, s1, by simp only [s3], s4, s5⟩

theorem recomputeLoop_terminates_aux : ∀ (k m fuel : Nat), m = 0 ∨ 2 ^ 32 ≤ m * 2 ^ k →
    k + 1 ≤ fuel → ∃ r, recomputeLoop fuel m = some r := by
  intro k
  induction k with
  | zero =>
    intro m fuel hm hfuel
    obtain ⟨f, rfl⟩ : ∃ f, fuel = f + 1 := ⟨fuel - 1, by omega⟩
    simp only [recomputeLoop]
    have : m * 2 % 2 ^ 32 ≤ m := by
      rcases hm with hm | hm
      · subst hm; simp
      · simp only [pow_zero, Nat.mul_one] at hm
        have := Nat.mod_lt (m * 2) (show 0 < 2 ^ 32 by decide)
        omega
    simp only [this, if_true]
    exact ⟨m, rfl⟩
  | succ k ih =>
    intro m fuel hm hfuel
    obtain ⟨f, rfl⟩ : ∃ f, fuel = f + 1 := ⟨fuel - 1, by omega⟩
    simp only [recomputeLoop]
    by_cases hle : m * 2 % 2 ^ 32 ≤ m
    · simp only [hle, if_true]
      exact ⟨m, rfl⟩
    · simp only [hle, if_false]
      apply ih _ f _ (by omega)
      right
      rcases hm with hm | hm
      · subst hm; simp at hle
      · have hlt : m * 2 < 2 ^ 32 := by
          by_contra hcon
          have := Nat.mod_lt (m * 2) (show 0 < 2 ^ 32 by decide)
          omega
        rw [Nat.mod_eq_of_lt hlt]
        rw [pow_succ] at hm
        calc 2 ^ 32 ≤ m * (2 ^ k * 2) := hm
          _ = m * 2 * 2 ^ k := by ring

theorem recomputeLoop_terminates (m fuel : Nat) (hfuel : 33 ≤ fuel) :
    ∃ r, recomputeLoop fuel m = some r := by
  apply recomputeLoop_terminates_aux 32 m fuel _ hfuel
  rcases Nat.eq_zero_or_pos m with h | h
  · exact Or.inl h
  · right
    calc 2 ^ 32 = 1 * 2 ^ 32 := by ring
      _ ≤ m * 2 ^ 32 := Nat.mul_le_mul_right _ h

theorem readValue_code (d : LINEARDB3) (v : Buf) (r : Ret) (h : readValue d v = some r) :
    r.code = -1 ∨ r.code = 0 := by
  unfold readValue at h
  simp only at h
  split at h
  · simp only [Option.some.injEq] at h
    subst h
    exact Or.inl rfl
  · simp only [Option.some.injEq] at h
    subst h
    exact Or.inr rfl

theorem recomputeLoop_mono : ∀ (fuel k m r : Nat),
    recomputeLoop fuel m = some r → recomputeLoop (fuel + k) m = some r := by
  intro fuel
  induction fuel with
  | zero => intro k m r h; simp [recomputeLoop] at h
  | succ fuel ih =>
    intro k m r h
    rw [show fuel + 1 + k = (fuel + k) + 1 by omega]
    simp only [recomputeLoop] at h ⊢
    split
    · rename_i hle
      simpa only [hle, if_true] using h
    · rename_i hle
      simp only [hle, if_false] at h
      exact ih k _ r h

theorem recomputeLoop_one (fuel : Nat) (h : 32 ≤ fuel) :
    recomputeLoop fuel 1 = some 2147483648 := by
  have h32 : recomputeLoop 32 1 = some 2147483648 := by decide
  have := recomputeLoop_mono 32 (fuel - 32) 1 _ h32
  rwa [show 32 + (fuel - 32) = fuel by omega] at this

theorem initPageManager_getBucket (P A bin : Nat) (h : bin < A) :
    getBucket P (initPageManager P A) bin = some zeroBucket := by
  have hlt : bin / P < 1 + A / P := by
    have := Nat.div_le_div_right (c := P) (Nat.le_of_lt h)
    omega
  simp [getBucket, initPageManager, hlt, zeroPage]

theorem fread_eof (db : LINEARDB3) (n : Nat) (h : db.file.length ≤ db.filePos) :
    (fread db n).1 = 0 := by
  unfold fread
  by_cases hn : n = 0
  · simp [hn]
  · have hd : List.drop db.filePos db.file = [] := List.drop_eq_nil_of_le h
    simp only [hn, if_false, hd, List.take_nil, List.length_nil]
    have : ¬ (0 = n) := fun h0 => hn h0.symm
    simp only [this, if_false]

theorem setBucket_of_getBucket (P : Nat) (pm : PageManager) (i : Nat) (b c : FingerprintBucket)
    (h : getBucket P pm i = some b) : ∃ pm2, setBucket P pm i c = some pm2 := by
  unfold getBucket at h
  unfold setBucket
  cases hp : pm.pages (i / P) with
  | none => simp [hp] at h
  | some page => simp only [hp]; exact ⟨_, rfl⟩

/-- The rebuild call of `LINEARDB3_getOrPut` (put without writing the file) on
a record that lands in an empty slot, when the file position is at the end of
the file: the call reads a value at the current position and returns -1. -/
theorem getOrPut_rebuild_at_eof (R P : Nat) (hash : List Nat → Nat) (fuel : Nat)
    (db : LINEARDB3) (v : Buf) (key : List Nat) (bin fp : Nat) (b : FingerprintBucket)
    (hR : 1 ≤ R) (hkey : (Buf.recbuf 0).load db db.keySize = some key)
    (hbin : getBinNumber db (hash key % 2 ^ 64) = some (bin, fp))
    (hb : getBucket P db.hashTable bin = some b) (h0 : b.fingerprints 0 = 0)
    (heof : db.file.length ≤ db.filePos) :
    ∃ res, LINEARDB3_getOrPut R P hash fuel db (.recbuf 0) v true false = some res ∧
      res.code = -1 := by
  obtain ⟨R', rfl⟩ : ∃ R', R = R' + 1 := ⟨R - 1, by omega⟩
  obtain ⟨pm2, hset⟩ := setBucket_of_getBucket P db.hashTable bin b
    { b with
      fingerprints := fun j => if j = 0 then fp else b.fingerprints j
      fileIndex := fun j => if j = 0 then db.numRecords else b.fileIndex j } hb
  have hgb : getBucketAt P db ⟨false, bin⟩ = some b := by
    simp only [getBucketAt, Bool.false_eq_true, if_false, hb]
  have hsb : setBucketAt P db ⟨false, bin⟩
      { b with
        fingerprints := fun j => if j = 0 then fp else b.fingerprints j
        fileIndex := fun j => if j = 0 then db.numRecords else b.fileIndex j }
      = some { db with hashTable := pm2 } := by
    simp only [setBucketAt, Bool.false_eq_true, if_false, hset]
  have hcons : ∃ res, LINEARDB3_considerFingerprintBucket P db (.recbuf 0) v fp true false
      ⟨false, bin⟩ 0 = some res ∧ res.code = -1 := by
    unfold LINEARDB3_considerFingerprintBucket
    simp only [hgb, h0, if_true, hsb, considerHit, Bool.and_false, Bool.false_eq_true, if_false,
      readValue]
    have hr := fread_eof { db with hashTable := pm2, numRecords := db.numRecords + 1 }
      db.valueSize heof
    simp only [hr, ne_eq, zero_ne_one, not_false_eq_true, if_true]
    exact ⟨_, rfl, rfl⟩
  obtain ⟨res, hres, hcode⟩ := hcons
  refine ⟨res, ?_, hcode⟩
  unfold LINEARDB3_getOrPut
  simp only [hkey, hbin, considerSlots, hres, hcode, show ((-1 : Int) < 2) by decide, if_true]

/-- C2 fails on the code.  For a file made of the header for one-byte keys and
values followed by the single record `[65, 66]`, `LINEARDB3_open` with the
same key and value size returns 1, not 0: the rebuild call of
`LINEARDB3_getOrPut` (put without writing the file) takes the branch that
reads a value at the current position, which is the end of the file. -/
theorem open_one_record_fails (R P : Nat) (hash : List Nat → Nat) (fuel : Nat)
    (hR : 1 ≤ R) (hfuel : 32 ≤ fuel) :
    (LINEARDB3_open R P hash fuel [76, 100, 50, 1, 0, 0, 0, 1, 0, 0, 0, 65, 66] 1 1 1).map
      Prod.fst = some 1 := by
  have hloop := recomputeLoop_one fuel hfuel
  obtain ⟨R', rfl⟩ : ∃ R', R = R' + 1 := ⟨R - 1, by omega⟩
  have hA1 : 1 ≤ (2 + R') / (R' + 1) % 4294967296 := by
    have h1 : 1 ≤ (2 + R') / (R' + 1) := by
      rw [Nat.le_div_iff_mul_le (by omega)]
      omega
    have h3 : (2 + R') / (R' + 1) ≤ 2 := by
      rw [Nat.div_le_iff_le_mul_add_pred (by omega)]
      omega
    omega
  simp only [LINEARDB3_open, recomputeFingerprintMod, hloop, fseekoEnd, ftello,
    LINEARDB3_HEADER_SIZE, openExisting, fseekoSet, fread, magicString, decode32,
    LINEARDB3.recordSizeBytes, getRecordSizeBytes, rebuildLoop, overwrite]
  simp [hloop]
  generalize hA : (2 + R') / (R' + 1) % 4294967296 = A at hA1
  have hA0 : A ≠ 0 := by omega
  have hfm0 : (2147483648 : Nat) ≠ 0 := by decide
  have hsp : (A + 2 ^ 32 - A) % 2 ^ 32 = 0 := by omega
  have hlt : ∀ h : Nat, h % A < A := fun h => Nat.mod_lt _ (by omega)
  obtain ⟨res, hres, hcode⟩ := getOrPut_rebuild_at_eof (R' + 1) P hash fuel
    { file := [76, 100, 50, 1, 0, 0, 0, 1, 0, 0, 0, 65, 66], filePos := 13,
      hashTableSizeA := A, hashTableSizeB := A, numRecords := 0, keySize := 1, valueSize := 1,
      recordBuffer := [65, 66], maxOverflowDepth := 0, fingerprintMod := 2147483648,
      hashTable := initPageManager P A, overflowBuckets := initPageManager P 2 }
    (.recbuf 1) [65] (adjustedHash (hash [65] % 2 ^ 64) 2147483648 % A)
    (adjustedHash (hash [65] % 2 ^ 64) 2147483648 % 2147483648) zeroBucket (by omega)
    (by simp [Buf.load])
    (by simp only [getBinNumber, hfm0, hA0, if_false, hsp, Nat.not_lt_zero])
    (initPageManager_getBucket P A _ (hlt _)) rfl (by simp)
  simp [rebuildLoop, fread, LINEARDB3.recordSizeBytes, getRecordSizeBytes, overwrite, hres, hcode]

/-! ## A long chain in one bin -/

theorem decode32_encode32 (x : Nat) (h : x < 2 ^ 32) : decode32 (encode32 x) = x := by
  simp only [decode32, encode32, List.getD_cons_zero, List.getD_cons_succ]
  omega

theorem chainKey_length (j : Nat) : (chainKey j).length = 4 := rfl

theorem word_getBinNumber (i : Nat) (db : LINEARDB3) (hA : db.hashTableSizeA = 1)
    (hB : db.hashTableSizeB = 1) (hfm : db.fingerprintMod = 2147483648)
    (hi : i + 1 < 2 ^ 31) :
    getBinNumber db (wordHash (List.take 4 (chainKey i)) % 2 ^ 64) = some (0, i + 1) := by
  have htake : List.take 4 (chainKey i) = encode32 (i + 1) := rfl
  have hh : wordHash (List.take 4 (chainKey i)) % 2 ^ 64 = i + 1 := by
    rw [htake, wordHash, decode32_encode32 _ (by omega)]
    omega
  rw [hh]
  have h1 : (i + 1) % 2147483648 = i + 1 := Nat.mod_eq_of_lt (by omega)
  have hadj : adjustedHash (i + 1) 2147483648 = i + 1 := by
    unfold adjustedHash
    rw [h1]
    simp
  unfold getBinNumber
  simp only [hfm, hA, hB, hadj, h1]
  simp [Nat.mod_one]

theorem chain_getBinNumber (R P j i : Nat) (db : LINEARDB3) (hinv : ChainInv R P j db)
    (hi : i + 1 < 2 ^ 31) :
    getBinNumber db (wordHash (List.take 4 (chainKey i)) % 2 ^ 64) = some (0, i + 1) :=
  word_getBinNumber i db hinv.2.2.1 hinv.2.2.2.1 hinv.2.2.2.2.1 hi

theorem chainInv_getBucketAt (R P j m : Nat) (db : LINEARDB3)
    (hinv : ChainInv R P j db) (hm : m < P) :
    ∃ b, getBucketAt P db (chainRef m) = some b ∧ chainFill R j m b := by
  obtain ⟨_, _, _, _, _, _, _, ⟨hp, hhp, hfill0⟩, _, _, op, hop, hfill, _⟩ := hinv
  by_cases h0 : m = 0
  · subst h0
    refine ⟨hp.buckets 0, ?_, hfill0⟩
    simp [chainRef, getBucketAt, getBucket, hhp, Nat.zero_div, Nat.zero_mod]
  · refine ⟨op.buckets m, ?_, hfill m (by omega) hm⟩
    have hdiv : m / P = 0 := Nat.div_eq_of_lt hm
    have hmod : m % P = m := Nat.mod_eq_of_lt hm
    simp [chainRef, h0, getBucketAt, getBucket, hdiv, hmod, hop]

theorem chainInv_noteOverflowDepth (R P j d : Nat) (db : LINEARDB3) (hinv : ChainInv R P j db) :
    ChainInv R P j (noteOverflowDepth db d) := by
  unfold noteOverflowDepth
  split
  · exact hinv
  · exact hinv

/-- A put that claims an empty slot, from a state that satisfies the file
invariant, with buffers that hold a key and a value: the result in full. -/
theorem consider_claim_eq (P : Nat) (db : LINEARDB3) (key val : List Nat) (fp : Nat)
    (ref : BucketRef) (i : Nat) (b : FingerprintBucket) (db1 : LINEARDB3)
    (hb : getBucketAt P db ref = some b) (h0 : b.fingerprints i = 0)
    (hset : setBucketAt P db ref
      { b with
        fingerprints := fun j => if j = i then fp else b.fingerprints j
        fileIndex := fun j => if j = i then db.numRecords else b.fileIndex j } = some db1)
    (hinv : FileInv db) (hk : db.keySize ≤ key.length) (hk0 : db.keySize ≠ 0)
    (hv : db.valueSize ≤ val.length) (hv0 : db.valueSize ≠ 0) :
    LINEARDB3_considerFingerprintBucket P db (.user key) (.user val) fp true true ref i =
      some ⟨0, .user val,
        { db1 with
          numRecords := db.numRecords + 1
          file := overwrite (overwrite db.file db.file.length (key.take db.keySize))
            (db.file.length + db.keySize) (val.take db.valueSize)
          filePos := db.file.length + db.keySize + db.valueSize }⟩ := by
  obtain ⟨s1, s2, s3, s4, s5⟩ := setBucketAt_fields _ _ _ _ _ hset
  unfold FileInv at hinv
  have hklen : (List.take db.keySize key).length = db.keySize := by
    rw [List.length_take]; omega
  have hvlen : (List.take db.valueSize val).length = db.valueSize := by
    rw [List.length_take]; omega
  unfold LINEARDB3_considerFingerprintBucket
  simp only [hb, h0, if_true, hset, considerHit, Bool.and_self, writeRecord, fseekoEnd, ftello,
    s1, s3, s4, s5, LINEARDB3.recordSizeBytes, Buf.load, hk, hv, fwrite, hklen, hk0, if_false,
    writeValue, hvlen, hv0]
  unfold LINEARDB3.recordSizeBytes at hinv
  simp only [hinv, ne_eq, not_true_eq_false, if_false]

theorem succ_mul_le_of_lt (c m R : Nat) (h : c < m) : c * R + R ≤ m * R := by
  have := Nat.mul_le_mul_right R (Nat.succ_le_of_lt h)
  rwa [Nat.succ_mul] at this

/-- A bucket of the chain that record `j` neither lands in nor links behind
is the same before and after that record goes in. -/
theorem chainFill_succ (R j c : Nat) (b : FingerprintBucket) (h : chainFill R j c b)
    (hout : ∀ t, t < R → c * R + t ≠ j) (hlink : c * R + R ≠ j) :
    chainFill R (j + 1) c b := by
  obtain ⟨hs, ho⟩ := h
  rw [Nat.succ_mul] at ho
  refine ⟨fun t ht => ?_, ?_⟩
  · rw [hs t ht]
    have := hout t ht
    by_cases hlt : c * R + t < j
    · simp only [hlt, if_true, show c * R + t < j + 1 by omega]
    · simp only [hlt, if_false, show ¬ (c * R + t < j + 1) by omega]
  · rw [ho, Nat.succ_mul]
    by_cases hlt : c * R + R < j
    · simp only [hlt, if_true, show c * R + R < j + 1 by omega]
    · simp only [hlt, if_false, show ¬ (c * R + R < j + 1) by omega]

/-- The bucket that record `j` lands in, after its slot is claimed. -/
theorem chainFill_claim (R j m s : Nat) (b : FingerprintBucket) (x : Nat)
    (h : chainFill R j m b) (hs : s < R) (hj : j = m * R + s) :
    chainFill R (j + 1) m
      { b with
        fingerprints := fun t => if t = s then j + 1 else b.fingerprints t
        fileIndex := fun t => if t = s then x else b.fileIndex t } := by
  obtain ⟨hsl, ho⟩ := h
  rw [Nat.succ_mul] at ho
  refine ⟨fun t ht => ?_, ?_⟩
  · by_cases hts : t = s
    · subst hts
      simp only [if_true, show m * R + t < j + 1 by omega]
      omega
    · simp only [hts, if_false]
      rw [hsl t ht]
      by_cases hlt : m * R + t < j
      · simp only [hlt, if_true, show m * R + t < j + 1 by omega]
      · simp only [hlt, if_false, show ¬ (m * R + t < j + 1) by omega]
  · show b.overflowIndex = _
    rw [ho, Nat.succ_mul]
    simp only [show ¬ (m * R + R < j) by omega, if_false,
      show ¬ (m * R + R < j + 1) by omega]

theorem chain_claim (R P j m s : Nat) (db : LINEARDB3) (v : List Nat)
    (hinv : ChainInv R P j db) (hm : m < P) (hs : s < R) (hj : j = m * R + s)
    (hcase : m = 0 ∨ 1 ≤ s) (hv : 1 ≤ v.length) :
    ∃ r, LINEARDB3_considerFingerprintBucket P db (.user (chainKey j)) (.user v) (j + 1)
        true true (chainRef m) s = some r ∧
      r.code = 0 ∧ ChainInv R P (j + 1) r.db := by
  obtain ⟨b, hb, hfill⟩ := chainInv_getBucketAt R P j m db hinv hm
  have hinv0 := hinv
  obtain ⟨hks, hvs, hA, hB, hfm, hn, hlen, ⟨hp, hhp, hfill0⟩, hnp, hnb, op, hop, hfillc, hz⟩ :=
    hinv
  have h0 : b.fingerprints s = 0 := by
    rw [hfill.1 s hs]
    simp only [show ¬ (m * R + s < j) by omega, if_false]
  have hfinv : FileInv db := by
    unfold FileInv LINEARDB3.recordSizeBytes getRecordSizeBytes
    rw [hlen, hn, hks, hvs]
    rfl
  have hout : ∀ c, c ≠ m → ∀ t, t < R → c * R + t ≠ j := by
    intro c hc t ht
    rcases Nat.lt_or_gt_of_ne hc with h | h
    · have := succ_mul_le_of_lt c m R h
      omega
    · have := succ_mul_le_of_lt m c R h
      omega
  have hlink : ∀ c, c * R + R ≠ j := by
    intro c
    rcases Nat.lt_or_ge c m with h | h
    · rcases hcase with h0 | h1
      · omega
      · have := succ_mul_le_of_lt c m R h
        omega
    · have := Nat.mul_le_mul_right R h
      omega
  by_cases hm0 : m = 0
  · subst hm0
    have hbeq : b = hp.buckets 0 := by
      simp only [chainRef, if_true, getBucketAt, Bool.false_eq_true, if_false, getBucket,
        Nat.zero_div, hhp, Nat.zero_mod, Option.some.injEq] at hb
      exact hb.symm
    have hset : setBucketAt P db (chainRef 0)
        { b with
          fingerprints := fun t => if t = s then j + 1 else b.fingerprints t
          fileIndex := fun t => if t = s then db.numRecords else b.fileIndex t } =
        some { db with
          hashTable := { db.hashTable with
            pages := fun p =>
              if p = 0 then
                some { buckets := fun t => if t = 0 then
                  { b with
                    fingerprints := fun t => if t = s then j + 1 else b.fingerprints t
                    fileIndex := fun t => if t = s then db.numRecords else b.fileIndex t }
                  else hp.buckets t }
              else db.hashTable.pages p } } := by
      simp only [chainRef, if_true, setBucketAt, Bool.false_eq_true, if_false, setBucket,
        Nat.zero_div, hhp, Nat.zero_mod]
    refine ⟨_, consider_claim_eq P db _ v (j + 1) _ s b _ hb h0 hset hfinv
      (by rw [hks, chainKey_length]) (by rw [hks]; decide) (by rw [hvs]; exact hv)
      (by rw [hvs]; decide), rfl, ?_⟩
    have hk4 : (List.take 4 (chainKey j)).length = 4 := rfl
    have hv1 : (List.take 1 v).length = 1 := by
      rw [List.length_take]; omega
    refine ⟨hks, hvs, hA, hB, hfm, by simp only [hn], ?_, ⟨_, rfl, ?_⟩, hnp, hnb, op, hop,
      ?_, hz⟩
    · simp only [overwrite_length, hk4, hv1, hlen, hks, hvs]
      omega
    · simp only [if_true]
      exact chainFill_claim R j 0 s b _ hfill hs hj
    · intro c hc1 hcP
      exact chainFill_succ R j c _ (hfillc c hc1 hcP) (hout c (by omega)) (hlink c)
  · have hdiv : m / P = 0 := Nat.div_eq_of_lt hm
    have hmod : m % P = m := Nat.mod_eq_of_lt hm
    have hbeq : b = op.buckets m := by
      simp only [chainRef, hm0, if_false, getBucketAt, if_true, getBucket, hdiv, hop, hmod,
        Option.some.injEq] at hb
      exact hb.symm
    have hset : setBucketAt P db (chainRef m)
        { b with
          fingerprints := fun t => if t = s then j + 1 else b.fingerprints t
          fileIndex := fun t => if t = s then db.numRecords else b.fileIndex t } =
        some { db with
          overflowBuckets := { db.overflowBuckets with
            pages := fun p =>
              if p = 0 then
                some { buckets := fun t => if t = m then
                  { b with
                    fingerprints := fun t => if t = s then j + 1 else b.fingerprints t
                    fileIndex := fun t => if t = s then db.numRecords else b.fileIndex t }
                  else op.buckets t }
              else db.overflowBuckets.pages p } } := by
      simp only [chainRef, hm0, if_false, setBucketAt, if_true, setBucket, hdiv, hop, hmod]
    refine ⟨_, consider_claim_eq P db _ v (j + 1) _ s b _ hb h0 hset hfinv
      (by rw [hks, chainKey_length]) (by rw [hks]; decide) (by rw [hvs]; exact hv)
      (by rw [hvs]; decide), rfl, ?_⟩
    have hk4 : (List.take 4 (chainKey j)).length = 4 := rfl
    have hv1 : (List.take 1 v).length = 1 := by
      rw [List.length_take]; omega
    refine ⟨hks, hvs, hA, hB, hfm, by simp only [hn], ?_, ⟨hp, hhp, ?_⟩, hnp, hnb, _, rfl,
      ?_, ?_⟩
    · simp only [overwrite_length, hk4, hv1, hlen, hks, hvs]
      omega
    · exact chainFill_succ R j 0 _ hfill0 (hout 0 (by omega)) (hlink 0)
    · intro c hc1 hcP
      by_cases hcm : c = m
      · subst hcm
        simp only [if_true]
        exact chainFill_claim R j c s b _ hfill hs hj
      · simp only [hcm, if_false]
        exact chainFill_succ R j c _ (hfillc c hc1 hcP) (hout c hcm) (hlink c)
    · have : (0 : Nat) ≠ m := fun h => hm0 h.symm
      simp only [this, if_false]
      exact hz

theorem considerSlots_skip (P : Nat) (key : Buf) (fp : Nat) (put write : Bool)
    (ref : BucketRef) (db : LINEARDB3) (v : Buf) (b : FingerprintBucket)
    (hb : getBucketAt P db ref = some b) :
    ∀ (n k i : Nat),
      (∀ t, i ≤ t → t < i + n → b.fingerprints t ≠ 0 ∧ b.fingerprints t ≠ fp) →
      considerSlots P key fp put write ref (n + k) i db v =
        considerSlots P key fp put write ref k (i + n) db v := by
  intro n
  induction n with
  | zero => intro k i _; simp
  | succ n ih =>
    intro k i hall
    have hi := hall i (le_refl i) (by omega)
    rw [show n + 1 + k = (n + k) + 1 by omega]
    conv => lhs; unfold considerSlots
    rw [consider_mismatch P db key v fp put write ref i b hb hi.1 hi.2]
    simp only [show ¬ ((2 : Int) < 2) by decide, if_false]
    rw [ih k (i + 1) (fun t ht htk => hall t (by omega) (by omega))]
    rw [show i + 1 + n = i + (n + 1) by omega]

/-- The slots of a full bucket of the chain hold other fingerprints than the
one of record `j` or of any later record. -/
theorem chainFill_full (R j m fp : Nat) (b : FingerprintBucket) (h : chainFill R j m b)
    (hfull : m * R + R ≤ j) (hfp : j < fp) :
    ∀ t, t < R → b.fingerprints t ≠ 0 ∧ b.fingerprints t ≠ fp := by
  intro t ht
  rw [h.1 t ht]
  simp only [show m * R + t < j by omega, if_true]
  omega

/-- Record `j` goes into a bucket of the chain that has room: the slots before
are passed over and the next one is claimed. -/
theorem chain_slots_claim (R P j m s : Nat) (db : LINEARDB3) (v : List Nat)
    (hinv : ChainInv R P j db) (hm : m < P) (hs : s < R) (hj : j = m * R + s)
    (hcase : m = 0 ∨ 1 ≤ s) (hv : 1 ≤ v.length) :
    ∃ r, considerSlots P (.user (chainKey j)) (j + 1) true true (chainRef m) R 0 db (.user v)
        = some r ∧
      r.code = 0 ∧ ChainInv R P (j + 1) r.db := by
  obtain ⟨b, hb, hfill⟩ := chainInv_getBucketAt R P j m db hinv hm
  obtain ⟨r, hr, hcode, hinv2⟩ := chain_claim R P j m s db v hinv hm hs hj hcase hv
  refine ⟨r, ?_, hcode, hinv2⟩
  obtain ⟨k, hk⟩ : ∃ k, R = s + (k + 1) := ⟨R - s - 1, by omega⟩
  have hskip := considerSlots_skip P (.user (chainKey j)) (j + 1) true true (chainRef m) db
    (.user v) b hb s (k + 1) 0 (by
      intro t _ ht
      rw [hfill.1 t (by omega)]
      simp only [show m * R + t < j by omega, if_true]
      omega)
  rw [hk, hskip]
  unfold considerSlots
  simp only [Nat.zero_add, hr, hcode, show ((0 : Int) < 2) by decide, if_true]

theorem chainRef_succ (m : Nat) : chainRef (m + 1) = ⟨true, m + 1⟩ := by
  simp [chainRef]

/-- The walk passes over `n` full buckets of the chain. -/
theorem chain_walk_to (R P j fp : Nat) (key v : Buf) (put write : Bool) (hR : 1 ≤ R)
    (hfp : j < fp) :
    ∀ (n m fuel depth : Nat) (db : LINEARDB3), ChainInv R P j db →
      (m + n) * R + R ≤ j → m + n < P →
      ∃ db2, ChainInv R P j db2 ∧
        walkChain R P key fp put write (fuel + n) depth (chainRef m) db v =
          walkChain R P key fp put write fuel (depth + n) (chainRef (m + n)) db2 v := by
  intro n
  induction n with
  | zero => intro m fuel depth db hinv _ _; exact ⟨db, hinv, rfl⟩
  | succ n ih =>
    intro m fuel depth db hinv hfull hlt
    have hmono : (m + 1) * R ≤ (m + (n + 1)) * R := Nat.mul_le_mul_right R (by omega)
    have hsucc : (m + 1) * R = m * R + R := Nat.succ_mul m R
    obtain ⟨b, hb, hfill⟩ := chainInv_getBucketAt R P j m db hinv (by omega)
    obtain ⟨b2, hb2, hfill2⟩ := chainInv_getBucketAt R P j (m + 1) db hinv (by omega)
    have hlink : b.overflowIndex = m + 1 := by
      rw [hfill.2]
      simp only [show (m + 1) * R < j by omega, if_true]
    rw [chainRef_succ] at hb2
    have hb2' : getBucket P db.overflowBuckets b.overflowIndex = some b2 := by
      rw [hlink]
      simpa [getBucketAt] using hb2
    have hstep := walkChain_step R P key fp put write (fuel + n) depth (chainRef m) db v b b2 hb
      (by omega) hb2' (chainFill_full R j (m + 1) fp b2 hfill2 (by omega) hfp)
    obtain ⟨db2, hinv2, hrest⟩ := ih (m + 1) fuel (depth + 1) (noteOverflowDepth db (depth + 1))
      (chainInv_noteOverflowDepth R P j _ db hinv)
      (by rw [show m + 1 + n = m + (n + 1) by omega]; exact hfull) (by omega)
    refine ⟨db2, hinv2, ?_⟩
    rw [show fuel + (n + 1) = fuel + n + 1 by omega, hstep, hlink, ← chainRef_succ, hrest]
    rw [show m + 1 + n = m + (n + 1) by omega, show depth + 1 + n = depth + (n + 1) by omega]

/-- The end of the walk in put mode, when every step of linking a new overflow
bucket succeeds: the result in full. -/
theorem afterChain_link_eq (P : Nat) (db : LINEARDB3) (key val : List Nat) (fp depth : Nat)
    (ref : BucketRef) (last last2 newBucket : FingerprintBucket) (newIndex : Nat)
    (pm pm4 : PageManager) (db3 : LINEARDB3)
    (hlast : getBucketAt P db ref = some last) (ho : last.overflowIndex = 0)
    (hfe : getFirstEmptyBucketIndex P (noteOverflowDepth db (depth + 1)).overflowBuckets
      = some (newIndex, pm))
    (hlast2 : getBucketAt P { noteOverflowDepth db (depth + 1) with overflowBuckets := pm } ref
      = some last2)
    (hset : setBucketAt P { noteOverflowDepth db (depth + 1) with overflowBuckets := pm } ref
      { last2 with overflowIndex := newIndex } = some db3)
    (hnb : getBucket P db3.overflowBuckets newIndex = some newBucket)
    (hset4 : setBucket P db3.overflowBuckets newIndex
      { newBucket with
        fingerprints := fun j => if j = 0 then fp else newBucket.fingerprints j
        fileIndex := fun j => if j = 0 then db3.numRecords else newBucket.fileIndex j }
      = some pm4)
    (hinv : FileInv db) (hk : db.keySize ≤ key.length) (hk0 : db.keySize ≠ 0)
    (hv : db.valueSize ≤ val.length) (hv0 : db.valueSize ≠ 0) :
    afterChain P (.user key) (.user val) fp true true depth ref db =
      some ⟨0, .user val,
        { db3 with
          overflowBuckets := pm4
          numRecords := db.numRecords + 1
          file := overwrite (overwrite db.file db.file.length (key.take db.keySize))
            (db.file.length + db.keySize) (val.take db.valueSize)
          filePos := db.file.length + db.keySize + db.valueSize }⟩ := by
  obtain ⟨s1, _, s3, s4, s5⟩ := setBucketAt_fields _ _ _ _ _ hset
  obtain ⟨f1, f2, f3, f4, _⟩ := frame_noteOverflowDepth db (depth + 1)
  simp only at s1 s3 s4 s5
  rw [f1] at s1
  rw [f2] at s3
  rw [f3] at s4
  rw [f4] at s5
  unfold FileInv LINEARDB3.recordSizeBytes at hinv
  have hklen : (List.take db.keySize key).length = db.keySize := by
    rw [List.length_take]; omega
  have hvlen : (List.take db.valueSize val).length = db.valueSize := by
    rw [List.length_take]; omega
  have hset4b := hset4
  rw [s3] at hset4b
  unfold afterChain
  simp only [hlast, ho, hset4b, beq_self_eq_true, Bool.and_self, if_true, linkNewBucket, hfe, hlast2,
    hset, hnb, hset4, appendRecord, fseekoEnd, ftello, s1, s3, s4, s5,
    LINEARDB3.recordSizeBytes, Buf.load, hk, hv, fwrite, hklen, hk0, if_false, hvlen, hv0, hinv,
    ne_eq, not_true_eq_false]

/-- The last bucket of the chain after a new bucket is linked behind it. -/
theorem chainFill_link (R j m : Nat) (b : FingerprintBucket) (h : chainFill R j m b)
    (hj : j = m * R + R) : chainFill R (j + 1) m { b with overflowIndex := m + 1 } := by
  obtain ⟨hsl, _⟩ := h
  refine ⟨fun t ht => ?_, ?_⟩
  · show b.fingerprints t = _
    rw [hsl t ht]
    simp only [show m * R + t < j by omega, if_true, show m * R + t < j + 1 by omega]
  · show m + 1 = _
    rw [Nat.succ_mul]
    simp only [show m * R + R < j + 1 by omega, if_true]

/-- The scan of `getFirstEmptyBucketIndex` in the one-bin scenario while the
page has room: it returns the bucket after the last one in use. -/
theorem chain_firstEmpty (R P j m : Nat) (db : LINEARDB3) (hR : 1 ≤ R)
    (hinv : ChainInv R P j db) (hj : j = m * R + R) (hm : m + 1 < P) :
    getFirstEmptyBucketIndex P db.overflowBuckets = some (m + 1, db.overflowBuckets) := by
  obtain ⟨_, _, _, _, _, _, _, _, hnp, _, op, hop, hfillc, hz⟩ := hinv
  have hscan : scanBuckets P op 0 P 0 = some (0 * P + (m + 1)) := by
    apply scanBuckets_found P op 0 (m + 1) P 0 (by omega) (by omega)
    · intro x _ hx hcon
      rcases Nat.eq_zero_or_pos x with hx0 | hx0
      · subst hx0; simp at hcon
      · have hfx := (hfillc x hx0 (by omega)).1 0 (by omega)
        have hle := Nat.mul_le_mul_right R (show x ≤ m by omega)
        rw [hfx] at hcon
        simp only [Nat.add_zero, show x * R < j by omega, if_true] at hcon
        omega
    · have hfx := (hfillc (m + 1) (by omega) hm).1 0 (by omega)
      rw [Nat.succ_mul] at hfx
      refine ⟨?_, by omega⟩
      rw [hfx]
      simp only [Nat.add_zero, show ¬ (m * R + R < j) by omega, if_false]
  unfold getFirstEmptyBucketIndex
  rw [hnp]
  simp [scanPages, hop, hscan]

theorem chain_new_bucket (R P j m depth : Nat) (db : LINEARDB3) (v : List Nat) (hR : 1 ≤ R)
    (hinv : ChainInv R P j db) (hj : j = m * R + R) (hm : m + 1 < P) (hv : 1 ≤ v.length) :
    ∃ r, afterChain P (.user (chainKey j)) (.user v) (j + 1) true true depth (chainRef m) db
        = some r ∧
      r.code = 0 ∧ ChainInv R P (j + 1) r.db := by
  obtain ⟨last, hlast, hfill⟩ := chainInv_getBucketAt R P j m db hinv (by omega)
  have hfe := chain_firstEmpty R P j m (noteOverflowDepth db (depth + 1)) hR
    (chainInv_noteOverflowDepth R P j _ db hinv) hj hm
  have hinv1 := chainInv_noteOverflowDepth R P j (depth + 1) db hinv
  have hnote : ∀ ref, getBucketAt P (noteOverflowDepth db (depth + 1)) ref = getBucketAt P db ref := by
    intro ref
    obtain ⟨_, _, _, _, _, _, _, f8, f9⟩ := frame_noteOverflowDepth db (depth + 1)
    simp only [getBucketAt, f8, f9]
  obtain ⟨hks, hvs, hA, hB, hfm, hn, hlen, ⟨hp, hhp, hfill0⟩, hnp, hnb, op, hop, hfillc, hz⟩ :=
    hinv1
  have hfinv : FileInv db := by
    obtain ⟨k1, k2, _, _, _, k6, k7, _⟩ := hinv
    unfold FileInv LINEARDB3.recordSizeBytes getRecordSizeBytes
    rw [k7, k6, k1, k2]
    rfl
  have hks' : db.keySize = 4 := hinv.1
  have hvs' : db.valueSize = 1 := hinv.2.1
  have hn' : db.numRecords = j := hinv.2.2.2.2.2.1
  have hlen' : db.file.length = LINEARDB3_HEADER_SIZE + j * 5 := hinv.2.2.2.2.2.2.1
  have ho : last.overflowIndex = 0 := by
    rw [hfill.2, Nat.succ_mul]
    simp only [show ¬ (m * R + R < j) by omega, if_false]
  have hout : ∀ c, c ≠ m + 1 → ∀ t, t < R → c * R + t ≠ j := by
    intro c hc t ht
    rcases Nat.lt_or_gt_of_ne hc with h | h
    · have := succ_mul_le_of_lt c (m + 1) R h
      rw [Nat.succ_mul] at this
      omega
    · have := succ_mul_le_of_lt (m + 1) c R h
      rw [Nat.succ_mul] at this
      omega
  have hlinkne : ∀ c, c ≠ m → c * R + R ≠ j := by
    intro c hc
    rcases Nat.lt_or_gt_of_ne hc with h | h
    · have := succ_mul_le_of_lt c m R h
      omega
    · have := succ_mul_le_of_lt m c R h
      omega
  have hdiv1 : (m + 1) / P = 0 := Nat.div_eq_of_lt hm
  have hmod1 : (m + 1) % P = m + 1 := Nat.mod_eq_of_lt hm
  have hk4 : (List.take 4 (chainKey j)).length = 4 := rfl
  have hv1 : (List.take 1 v).length = 1 := by
    rw [List.length_take]; omega
  have hfillnew := hfillc (m + 1) (by omega) hm
  have hjnew : j = (m + 1) * R + 0 := by rw [Nat.succ_mul]; omega
  by_cases hm0 : m = 0
  · subst hm0
    have hlast' : last = hp.buckets 0 := by
      rw [← hnote] at hlast
      simp only [chainRef, if_true, getBucketAt, Bool.false_eq_true, if_false, getBucket,
        Nat.zero_div, hhp, Nat.zero_mod, Option.some.injEq] at hlast
      exact hlast.symm
    have hlast2 : getBucketAt P
        { noteOverflowDepth db (depth + 1) with
          overflowBuckets := (noteOverflowDepth db (depth + 1)).overflowBuckets } (chainRef 0)
        = some last := by
      rw [hlast']
      simp only [chainRef, if_true, getBucketAt, Bool.false_eq_true, if_false, getBucket,
        Nat.zero_div, hhp, Nat.zero_mod]
    have hset : setBucketAt P
        { noteOverflowDepth db (depth + 1) with
          overflowBuckets := (noteOverflowDepth db (depth + 1)).overflowBuckets } (chainRef 0)
        { last with overflowIndex := 0 + 1 } =
        some { noteOverflowDepth db (depth + 1) with
          hashTable := { (noteOverflowDepth db (depth + 1)).hashTable with
            pages := fun p =>
              if p = 0 then
                some { buckets := fun t =>
                  if t = 0 then { last with overflowIndex := 0 + 1 } else hp.buckets t }
              else (noteOverflowDepth db (depth + 1)).hashTable.pages p } } := by
      simp only [chainRef, if_true, setBucketAt, Bool.false_eq_true, if_false, setBucket,
        Nat.zero_div, hhp, Nat.zero_mod]
    have hnbk : getBucket P (noteOverflowDepth db (depth + 1)).overflowBuckets (0 + 1)
        = some (op.buckets (0 + 1)) := by
      simp only [getBucket, hdiv1, hop, hmod1]
    have hset4 : setBucket P (noteOverflowDepth db (depth + 1)).overflowBuckets (0 + 1)
        { op.buckets (0 + 1) with
          fingerprints := fun t => if t = 0 then j + 1 else (op.buckets (0 + 1)).fingerprints t
          fileIndex := fun t =>
            if t = 0 then (noteOverflowDepth db (depth + 1)).numRecords
            else (op.buckets (0 + 1)).fileIndex t } =
        some { (noteOverflowDepth db (depth + 1)).overflowBuckets with
          pages := fun p =>
            if p = 0 then
              some { buckets := fun t =>
                if t = 0 + 1 then
                  { op.buckets (0 + 1) with
                    fingerprints := fun t =>
                      if t = 0 then j + 1 else (op.buckets (0 + 1)).fingerprints t
                    fileIndex := fun t =>
                      if t = 0 then (noteOverflowDepth db (depth + 1)).numRecords
                      else (op.buckets (0 + 1)).fileIndex t }
                else op.buckets t }
            else (noteOverflowDepth db (depth + 1)).overflowBuckets.pages p } := by
      simp only [setBucket, hdiv1, hop, hmod1]
    refine ⟨_, afterChain_link_eq P db _ v (j + 1) depth _ last last _ (0 + 1) _ _ _ hlast ho hfe
      hlast2 hset hnbk hset4 hfinv (by rw [hks', chainKey_length]) (by rw [hks']; decide)
      (by rw [hvs']; exact hv) (by rw [hvs']; decide), rfl, ?_⟩
    refine ⟨hks, hvs, hA, hB, hfm, by simp only [hn'], ?_, ⟨_, rfl, ?_⟩, hnp, hnb, _, rfl, ?_, ?_⟩
    · simp only [overwrite_length, hk4, hv1, hlen', hks', hvs']
      omega
    · simp only [if_true]
      rw [hlast']
      exact chainFill_link R j 0 _ hfill0 hj
    · intro c hc1 hcP
      by_cases hc : c = 0 + 1
      · subst hc
        simp only [if_true]
        exact chainFill_claim R j (0 + 1) 0 _ _ hfillnew (by omega) hjnew
      · simp only [hc, if_false]
        exact chainFill_succ R j c _ (hfillc c hc1 hcP) (hout c hc) (hlinkne c (by omega))
    · simp only [show (0 : Nat) ≠ 0 + 1 by omega, if_false]
      exact hz
  · have hmP : m < P := by omega
    have hdiv : m / P = 0 := Nat.div_eq_of_lt hmP
    have hmod : m % P = m := Nat.mod_eq_of_lt hmP
    have hlast' : last = op.buckets m := by
      rw [← hnote] at hlast
      simp only [chainRef, hm0, if_false, getBucketAt, if_true, getBucket, hdiv, hop, hmod,
        Option.some.injEq] at hlast
      exact hlast.symm
    have hlast2 : getBucketAt P
        { noteOverflowDepth db (depth + 1) with
          overflowBuckets := (noteOverflowDepth db (depth + 1)).overflowBuckets } (chainRef m)
        = some last := by
      rw [hlast']
      simp only [chainRef, hm0, if_false, getBucketAt, if_true, getBucket, hdiv, hop, hmod]
    have hset : setBucketAt P
        { noteOverflowDepth db (depth + 1) with
          overflowBuckets := (noteOverflowDepth db (depth + 1)).overflowBuckets } (chainRef m)
        { last with overflowIndex := m + 1 } =
        some { noteOverflowDepth db (depth + 1) with
          overflowBuckets := { (noteOverflowDepth db (depth + 1)).overflowBuckets with
            pages := fun p =>
              if p = 0 then
                some { buckets := fun t =>
                  if t = m then { last with overflowIndex := m + 1 } else op.buckets t }
              else (noteOverflowDepth db (depth + 1)).overflowBuckets.pages p } } := by
      simp only [chainRef, hm0, if_false, setBucketAt, if_true, setBucket, hdiv, hop, hmod]
    have hnbk : getBucket P
        { (noteOverflowDepth db (depth + 1)).overflowBuckets with
          pages := fun p =>
            if p = 0 then
              some { buckets := fun t =>
                if t = m then { last with overflowIndex := m + 1 } else op.buckets t }
            else (noteOverflowDepth db (depth + 1)).overflowBuckets.pages p } (m + 1)
        = some (op.buckets (m + 1)) := by
      simp only [getBucket, hdiv1, hmod1, if_true, show m + 1 ≠ m by omega, if_false]
    have hset4 : setBucket P
        { (noteOverflowDepth db (depth + 1)).overflowBuckets with
          pages := fun p =>
            if p = 0 then
              some { buckets := fun t =>
                if t = m then { last with overflowIndex := m + 1 } else op.buckets t }
            else (noteOverflowDepth db (depth + 1)).overflowBuckets.pages p } (m + 1)
        { op.buckets (m + 1) with
          fingerprints := fun t => if t = 0 then j + 1 else (op.buckets (m + 1)).fingerprints t
          fileIndex := fun t =>
            if t = 0 then (noteOverflowDepth db (depth + 1)).numRecords
            else (op.buckets (m + 1)).fileIndex t } =
        some { (noteOverflowDepth db (depth + 1)).overflowBuckets with
          pages := fun p =>
            if p = 0 then
              some { buckets := fun t =>
                if t = m + 1 then
                  { op.buckets (m + 1) with
                    fingerprints := fun t =>
                      if t = 0 then j + 1 else (op.buckets (m + 1)).fingerprints t
                    fileIndex := fun t =>
                      if t = 0 then (noteOverflowDepth db (depth + 1)).numRecords
                      else (op.buckets (m + 1)).fileIndex t }
                else if t = m then { last with overflowIndex := m + 1 } else op.buckets t }
            else (noteOverflowDepth db (depth + 1)).overflowBuckets.pages p } := by
      simp only [setBucket, hdiv1, hmod1, if_true]
      congr 2
      funext p
      by_cases hp0 : p = 0
      · simp only [hp0, if_true]
      · simp only [hp0, if_false]
    refine ⟨_, afterChain_link_eq P db _ v (j + 1) depth _ last last _ (m + 1) _ _ _ hlast ho hfe
      hlast2 hset hnbk hset4 hfinv (by rw [hks', chainKey_length]) (by rw [hks']; decide)
      (by rw [hvs']; exact hv) (by rw [hvs']; decide), rfl, ?_⟩
    refine ⟨hks, hvs, hA, hB, hfm, by simp only [hn'], ?_, ⟨hp, hhp, ?_⟩, hnp, hnb, _, rfl, ?_, ?_⟩
    · simp only [overwrite_length, hk4, hv1, hlen', hks', hvs']
      omega
    · exact chainFill_succ R j 0 _ hfill0 (hout 0 (by omega)) (hlinkne 0 (by omega))
    · intro c hc1 hcP
      by_cases hc : c = m + 1
      · subst hc
        simp only [if_true]
        exact chainFill_claim R j (m + 1) 0 _ _ hfillnew (by omega) hjnew
      · by_cases hcm : c = m
        · subst hcm
          simp only [hc, if_false, if_true]
          rw [hlast']
          exact chainFill_link R j c _ (hfillc c hc1 hcP) hj
        · simp only [hc, hcm, if_false]
          exact chainFill_succ R j c _ (hfillc c hc1 hcP) (hout c hc) (hlinkne c hcm)
    · simp only [show (0 : Nat) ≠ m + 1 by omega, show (0 : Nat) ≠ m from fun h => hm0 h.symm,
        if_false]
      exact hz

/-- The last step of the walk when the record goes into a bucket of the chain
that already holds records. -/
theorem chain_walk_claim (R P j m s fuel depth : Nat) (db : LINEARDB3) (v : List Nat)
    (hinv : ChainInv R P j db) (hm : m + 1 < P) (hs : s < R) (hs1 : 1 ≤ s)
    (hj : j = (m + 1) * R + s) (hv : 1 ≤ v.length) :
    ∃ r, walkChain R P (.user (chainKey j)) (j + 1) true true (fuel + 1) depth (chainRef m) db
        (.user v) = some r ∧
      r.code = 0 ∧ ChainInv R P (j + 1) r.db := by
  obtain ⟨b, hb, hfill⟩ := chainInv_getBucketAt R P j m db hinv (by omega)
  have hlink : b.overflowIndex = m + 1 := by
    rw [hfill.2]
    simp only [show (m + 1) * R < j by omega, if_true]
  obtain ⟨r, hr, hcode, hinv2⟩ := chain_slots_claim R P j (m + 1) s (noteOverflowDepth db (depth + 1))
    v (chainInv_noteOverflowDepth R P j _ db hinv) hm hs hj (Or.inr hs1) hv
  rw [chainRef_succ] at hr
  refine ⟨r, ?_, hcode, hinv2⟩
  unfold walkChain
  simp only [hb, hlink, show m + 1 > 0 by omega, if_true, hr, hcode,
    show ((0 : Int) < 2) by decide]

/-- The last step of the walk when every bucket of the chain is full and the
page has room. -/
theorem chain_walk_new (R P j m fuel depth : Nat) (db : LINEARDB3) (v : List Nat) (hR : 1 ≤ R)
    (hinv : ChainInv R P j db) (hm : m + 1 < P) (hj : j = m * R + R) (hv : 1 ≤ v.length) :
    ∃ r, walkChain R P (.user (chainKey j)) (j + 1) true true (fuel + 1) depth (chainRef m) db
        (.user v) = some r ∧
      r.code = 0 ∧ ChainInv R P (j + 1) r.db := by
  obtain ⟨b, hb, hfill⟩ := chainInv_getBucketAt R P j m db hinv (by omega)
  have hlink : b.overflowIndex = 0 := by
    rw [hfill.2, Nat.succ_mul]
    simp only [show ¬ (m * R + R < j) by omega, if_false]
  obtain ⟨r, hr, hcode, hinv2⟩ := chain_new_bucket R P j m depth db v hR hinv hj hm hv
  refine ⟨r, ?_, hcode, hinv2⟩
  unfold walkChain
  simp only [hb, hlink, show ¬ (0 > 0) by omega, if_false, hr]

/-- One put of the one-bin scenario: while the overflow page has room, the put
of record `j` returns 0 and leaves the state of `j + 1` records. -/
theorem chain_put (R P j fuel : Nat) (db : LINEARDB3) (v : List Nat) (hR : 1 ≤ R)
    (hinv : ChainInv R P j db) (hj : j < R * P) (hfuel : P ≤ fuel) (hv : 1 ≤ v.length)
    (hsmall : j + 1 < 2 ^ 31) :
    ∃ r, LINEARDB3_put R P wordHash fuel db (chainKey j) v = some r ∧
      r.code = 0 ∧ ChainInv R P (j + 1) r.db := by
  have hks : db.keySize = 4 := hinv.1
  have hbin := chain_getBinNumber R P j j db hinv hsmall
  have hdm : j = j / R * R + j % R := by
    rw [Nat.mul_comm]; exact (Nat.div_add_mod j R).symm
  have hmodlt : j % R < R := Nat.mod_lt j (by omega)
  have hdivlt : j / R < P := Nat.div_lt_of_lt_mul hj
  unfold LINEARDB3_put LINEARDB3_getOrPut
  simp only [Buf.load, hks, chainKey_length, le_refl, if_true, hbin]
  rw [show (⟨false, 0⟩ : BucketRef) = chainRef 0 from rfl]
  rcases Nat.eq_zero_or_pos (j / R) with hq | hq
  · obtain ⟨r, hr, hcode, hinv2⟩ := chain_slots_claim R P j 0 (j % R) db v hinv (by omega)
      hmodlt (by rw [hq] at hdm; exact hdm) (Or.inl rfl) hv
    refine ⟨r, ?_, hcode, hinv2⟩
    simp only [hr, hcode, show ((0 : Int) < 2) by decide, if_true]
  · obtain ⟨m, hmq⟩ : ∃ m, j / R = m + 1 := ⟨j / R - 1, by omega⟩
    rw [hmq] at hdm hdivlt
    have hsucc : (m + 1) * R = m * R + R := Nat.succ_mul m R
    have hle0 : 0 * R + R ≤ m * R + R := by
      have := Nat.zero_le (m * R)
      omega
    obtain ⟨b0, hb0, hfill0⟩ := chainInv_getBucketAt R P j 0 db hinv (by omega)
    have hprim := considerSlots_mismatch P (.user (chainKey j)) (j + 1) true true (chainRef 0) db
      (.user v) b0 hb0 R 0 (by
        intro t _ ht
        exact chainFill_full R j 0 (j + 1) b0 hfill0 (by omega) (by omega) t (by omega))
    simp only [hprim, show ¬ ((2 : Int) < 2) by decide, if_false]
    obtain ⟨db2, hinv2, hwalk⟩ := chain_walk_to R P j (j + 1) (.user (chainKey j)) (.user v)
      true true hR (by omega) m 0 (fuel - m) 0 db hinv
      (by rw [Nat.zero_add]; omega) (by omega)
    rw [show fuel = fuel - m + m by omega, hwalk, Nat.zero_add]
    obtain ⟨f, hf⟩ : ∃ f, fuel - m = f + 1 := ⟨fuel - m - 1, by omega⟩
    rw [hf]
    rcases Nat.eq_zero_or_pos (j % R) with hs | hs
    · exact chain_walk_new R P j m f _ db2 v hR hinv2 hdivlt (by omega) hv
    · exact chain_walk_claim R P j m (j % R) f _ db2 v hinv2 hdivlt hmodlt hs hdm hv

theorem chainFill_zero (R c : Nat) : chainFill R 0 c zeroBucket := by
  refine ⟨fun s _ => ?_, ?_⟩
  · simp [zeroBucket]
  · simp [zeroBucket]

theorem chain_open (R P fuel : Nat) (hP : 3 ≤ P) (hfuel : 32 ≤ fuel) :
    ∃ db, openOk R P wordHash fuel [] 1 4 1 = some db ∧ ChainInv R P 0 db := by
  have hloop := recomputeLoop_one fuel hfuel
  have hdiv1 : 1 / P = 0 := Nat.div_eq_of_lt (by omega)
  have hdiv2 : 2 / P = 0 := Nat.div_eq_of_lt (by omega)
  simp only [openOk, LINEARDB3_open, recomputeFingerprintMod, hloop, fseekoEnd, ftello,
    List.length_nil, LINEARDB3_HEADER_SIZE, Nat.lt_add_one, Nat.ofNat_pos, if_true, writeHeader,
    fseekoSet, fwrite, magicString, encode32, List.length_cons, Nat.add_eq_zero, one_ne_zero,
    and_false, if_false, ne_eq, not_true_eq_false, Option.some.injEq, exists_eq_left',
    ChainInv, overwrite, List.take_nil, List.drop_nil, zero_mul, add_zero, initPageManager,
    hdiv1, hdiv2]
  simp only [List.append_nil, List.nil_append, List.length_cons, List.length_nil,
    Nat.zero_lt_one, if_true, zeroPage, true_and]
  exact ⟨by decide, chainFill_zero R 0, fun c _ _ => chainFill_zero R c, rfl⟩

theorem chain_putAll (R P fuel : Nat) (hR : 1 ≤ R) (hfuel : P ≤ fuel) :
    ∀ (n j : Nat) (db : LINEARDB3), ChainInv R P j db → j + n ≤ R * P → j + n < 2 ^ 31 →
      ∃ db2, putAll R P wordHash fuel db (chainPuts j n) = some db2 ∧
        ChainInv R P (j + n) db2 := by
  intro n
  induction n with
  | zero => intro j db hinv _ _; exact ⟨db, rfl, hinv⟩
  | succ n ih =>
    intro j db hinv hle hlt
    obtain ⟨r, hr, hcode, hinv2⟩ := chain_put R P j fuel db [j % 256] hR hinv (by omega) hfuel
      (by simp) (by omega)
    obtain ⟨db2, hdb2, hinv3⟩ := ih (j + 1) r.db hinv2 (by omega) (by omega)
    refine ⟨db2, ?_, ?_⟩
    · simp only [chainPuts, putAll, hr, hcode, if_true, hdb2]
    · rw [show j + (n + 1) = j + 1 + n by omega]
      exact hinv3

/-- The scan of `getFirstEmptyBucketIndex` in the one-bin scenario once the
page is full: no bucket is empty, `numBuckets` is still 2, and the call hands
out bucket 2. -/
theorem chain_firstEmpty_full (R P j m : Nat) (db : LINEARDB3) (hR : 1 ≤ R)
    (hinv : ChainInv R P j db) (hj : j = m * R + R) (hP : P = m + 1) (hm : 2 ≤ m) :
    getFirstEmptyBucketIndex P db.overflowBuckets =
      some (2, { db.overflowBuckets with numBuckets := 3 }) := by
  obtain ⟨_, _, _, _, _, _, _, _, hnp, hnb, op, hop, hfillc, hz⟩ := hinv
  have hscan : scanBuckets P op 0 P 0 = none := by
    apply scanBuckets_none P op 0 P 0
    intro x _ hx hcon
    rcases Nat.eq_zero_or_pos x with hx0 | hx0
    · subst hx0; simp at hcon
    · have hfx := (hfillc x hx0 (by omega)).1 0 (by omega)
      have hle := Nat.mul_le_mul_right R (show x ≤ m by omega)
      rw [hfx] at hcon
      simp only [Nat.add_zero, show x * R < j by omega, if_true] at hcon
      omega
  have hdiv2 : 2 / P = 0 := Nat.div_eq_of_lt (by omega)
  unfold getFirstEmptyBucketIndex
  rw [hnp]
  simp only [scanPages, hop, hscan, addBucket, hnp, hnb, Nat.one_mul,
    show ¬ (P = 2) by omega, if_false, getBucket, hdiv2]

theorem chain_cycle_bucket (R P j m depth : Nat) (db : LINEARDB3) (v : List Nat) (hR : 1 ≤ R)
    (hinv : ChainInv R P j db) (hj : j = m * R + R) (hP : P = m + 1) (hm : 2 ≤ m)
    (hv : 1 ≤ v.length) :
    ∃ r, afterChain P (.user (chainKey j)) (.user v) (j + 1) true true depth (chainRef m) db
        = some r ∧
      r.code = 0 ∧ CycleInv R P j r.db := by
  obtain ⟨last, hlast, hfill⟩ := chainInv_getBucketAt R P j m db hinv (by omega)
  have hfe := chain_firstEmpty_full R P j m (noteOverflowDepth db (depth + 1)) hR
    (chainInv_noteOverflowDepth R P j _ db hinv) hj hP hm
  have hinv1 := chainInv_noteOverflowDepth R P j (depth + 1) db hinv
  have hnote : ∀ ref, getBucketAt P (noteOverflowDepth db (depth + 1)) ref = getBucketAt P db ref := by
    intro ref
    obtain ⟨_, _, _, _, _, _, _, f8, f9⟩ := frame_noteOverflowDepth db (depth + 1)
    simp only [getBucketAt, f8, f9]
  obtain ⟨hks, hvs, hA, hB, hfm, hn, hlen, ⟨hp, hhp, hfill0⟩, hnp, hnb, op, hop, hfillc, hz⟩ :=
    hinv1
  have hfinv : FileInv db := by
    obtain ⟨k1, k2, _, _, _, k6, k7, _⟩ := hinv
    unfold FileInv LINEARDB3.recordSizeBytes getRecordSizeBytes
    rw [k7, k6, k1, k2]
    rfl
  have hks' : db.keySize = 4 := hinv.1
  have hvs' : db.valueSize = 1 := hinv.2.1
  have ho : last.overflowIndex = 0 := by
    rw [hfill.2, Nat.succ_mul]
    simp only [show ¬ (m * R + R < j) by omega, if_false]
  have hm0 : ¬ m = 0 := by omega
  have hmP : m < P := by omega
  have hdiv : m / P = 0 := Nat.div_eq_of_lt hmP
  have hmod : m % P = m := Nat.mod_eq_of_lt hmP
  have hdiv2 : 2 / P = 0 := Nat.div_eq_of_lt (by omega)
  have hmod2 : 2 % P = 2 := Nat.mod_eq_of_lt (by omega)
  have hlast' : last = op.buckets m := by
    rw [← hnote] at hlast
    simp only [chainRef, hm0, if_false, getBucketAt, if_true, getBucket, hdiv, hop, hmod,
      Option.some.injEq] at hlast
    exact hlast.symm
  have hlast2 : getBucketAt P
      { noteOverflowDepth db (depth + 1) with
        overflowBuckets :=
          { (noteOverflowDepth db (depth + 1)).overflowBuckets with numBuckets := 3 } }
      (chainRef m) = some last := by
    rw [hlast']
    simp only [chainRef, hm0, if_false, getBucketAt, if_true, getBucket, hdiv, hop, hmod]
  have hset : setBucketAt P
      { noteOverflowDepth db (depth + 1) with
        overflowBuckets :=
          { (noteOverflowDepth db (depth + 1)).overflowBuckets with numBuckets := 3 } }
      (chainRef m) { last with overflowIndex := 2 } =
      some { noteOverflowDepth db (depth + 1) with
        overflowBuckets := { (noteOverflowDepth db (depth + 1)).overflowBuckets with
          numBuckets := 3
          pages := fun p =>
            if p = 0 then
              some { buckets := fun t =>
                if t = m then { last with overflowIndex := 2 } else op.buckets t }
            else (noteOverflowDepth db (depth + 1)).overflowBuckets.pages p } } := by
    simp only [chainRef, hm0, if_false, setBucketAt, if_true, setBucket, hdiv, hop, hmod]
  have hnbk : getBucket P
      { (noteOverflowDepth db (depth + 1)).overflowBuckets with
        numBuckets := 3
        pages := fun p =>
          if p = 0 then
            some { buckets := fun t =>
              if t = m then { last with overflowIndex := 2 } else op.buckets t }
          else (noteOverflowDepth db (depth + 1)).overflowBuckets.pages p } 2
      = some (if 2 = m then { last with overflowIndex := 2 } else op.buckets 2) := by
    simp only [getBucket, hdiv2, hmod2, if_true]
  refine ⟨_, afterChain_link_eq P db _ v (j + 1) depth _ last last _ 2 _
    { (noteOverflowDepth db (depth + 1)).overflowBuckets with
        numBuckets := 3
        pages := fun p =>
          if p = 0 then
            some { buckets := fun t =>
              if t = 2 then
                { (if 2 = m then { last with overflowIndex := 2 } else op.buckets 2) with
                  fingerprints := fun t =>
                    if t = 0 then j + 1
                    else (if 2 = m then { last with overflowIndex := 2 }
                      else op.buckets 2).fingerprints t
                  fileIndex := fun t =>
                    if t = 0 then (noteOverflowDepth db (depth + 1)).numRecords
                    else (if 2 = m then { last with overflowIndex := 2 }
                      else op.buckets 2).fileIndex t }
              else if t = m then { last with overflowIndex := 2 } else op.buckets t }
          else (noteOverflowDepth db (depth + 1)).overflowBuckets.pages p }
    _ hlast ho hfe hlast2 hset hnbk ?_ hfinv (by rw [hks', chainKey_length])
    (by rw [hks']; decide) (by rw [hvs']; exact hv) (by rw [hvs']; decide), rfl, ?_⟩
  · simp only [setBucket, hdiv2, hmod2, if_true]
    congr 2
    funext p
    by_cases hp0 : p = 0
    · simp only [hp0, if_true]
    · simp only [hp0, if_false]
  · refine ⟨hks, hA, hB, hfm, ⟨hp, hhp, hfill0⟩, _, rfl, ?_⟩
    intro c hc1 hcP
    have hfc := hfillc c hc1 hcP
    have hlec := Nat.mul_le_mul_right R (show c ≤ m by omega)
    have hfp : ∀ s, s < R → (op.buckets c).fingerprints s = c * R + s + 1 := by
      intro s hs
      rw [hfc.1 s hs]
      simp only [show c * R + s < j by omega, if_true]
    by_cases hc2 : c = 2
    · subst hc2
      simp only [if_true]
      refine ⟨fun s hs => ?_, ?_⟩
      · by_cases hs0 : s = 0
        · simp only [hs0, and_self, if_true]
        · simp only [hs0, and_false, if_false]
          by_cases h2m : 2 = m
          · rw [if_pos h2m]
            show last.fingerprints s = _
            rw [hlast', ← h2m]
            exact hfp s hs
          · rw [if_neg h2m]
            exact hfp s hs
      · by_cases h2m : 2 = m
        · rw [if_pos h2m]
          simp only [show ¬ (2 + 1 < P) by omega, if_false]
        · rw [if_neg h2m]
          show (op.buckets 2).overflowIndex = _
          rw [hfc.2]
          have := succ_mul_le_of_lt (2 + 1) (m + 1) R (by omega)
          rw [Nat.succ_mul m R] at this
          simp only [show (2 + 1) * R < j by omega, if_true, show 2 + 1 < P by omega]
    · simp only [hc2, if_false, false_and]
      by_cases hcm : c = m
      · subst hcm
        simp only [if_true]
        refine ⟨fun s hs => ?_, ?_⟩
        · rw [hlast']
          exact hfp s hs
        · simp only [show ¬ (c + 1 < P) by omega, if_false]
      · simp only [hcm, if_false]
        refine ⟨hfp, ?_⟩
        rw [hfc.2]
        have := succ_mul_le_of_lt (c + 1) (m + 1) R (by omega)
        rw [Nat.succ_mul m R] at this
        simp only [show (c + 1) * R < j by omega, if_true, show c + 1 < P by omega]

/-- The put that follows the puts filling the first overflow page returns 0
and leaves the chain with a cycle. -/
theorem chain_put_cycle (R P j m fuel : Nat) (db : LINEARDB3) (v : List Nat) (hR : 1 ≤ R)
    (hinv : ChainInv R P j db) (hj : j = m * R + R) (hP : P = m + 1) (hm : 2 ≤ m)
    (hfuel : P ≤ fuel) (hv : 1 ≤ v.length) (hsmall : j + 1 < 2 ^ 31) :
    ∃ r, LINEARDB3_put R P wordHash fuel db (chainKey j) v = some r ∧
      r.code = 0 ∧ CycleInv R P j r.db := by
  have hks : db.keySize = 4 := hinv.1
  have hbin := chain_getBinNumber R P j j db hinv hsmall
  unfold LINEARDB3_put LINEARDB3_getOrPut
  simp only [Buf.load, hks, chainKey_length, le_refl, if_true, hbin]
  rw [show (⟨false, 0⟩ : BucketRef) = chainRef 0 from rfl]
  have hle0 : 0 * R + R ≤ m * R + R := by
    have := Nat.zero_le (m * R)
    omega
  obtain ⟨b0, hb0, hfill0⟩ := chainInv_getBucketAt R P j 0 db hinv (by omega)
  have hprim := considerSlots_mismatch P (.user (chainKey j)) (j + 1) true true (chainRef 0) db
    (.user v) b0 hb0 R 0 (by
      intro t _ ht
      exact chainFill_full R j 0 (j + 1) b0 hfill0 (by omega) (by omega) t (by omega))
  simp only [hprim, show ¬ ((2 : Int) < 2) by decide, if_false]
  obtain ⟨db2, hinv2, hwalk⟩ := chain_walk_to R P j (j + 1) (.user (chainKey j)) (.user v)
    true true hR (by omega) m 0 (fuel - m) 0 db hinv
    (by rw [Nat.zero_add]; omega) (by omega)
  rw [show fuel = fuel - m + m by omega, hwalk, Nat.zero_add]
  obtain ⟨f, hf⟩ : ∃ f, fuel - m = f + 1 := ⟨fuel - m - 1, by omega⟩
  rw [hf]
  obtain ⟨b, hb, hfill⟩ := chainInv_getBucketAt R P j m db2 hinv2 (by omega)
  have hlink : b.overflowIndex = 0 := by
    rw [hfill.2, Nat.succ_mul]
    simp only [show ¬ (m * R + R < j) by omega, if_false]
  obtain ⟨r, hr, hcode, hinv3⟩ := chain_cycle_bucket R P j m m db2 v hR hinv2 hj hP hm hv
  refine ⟨r, ?_, hcode, hinv3⟩
  unfold walkChain
  simp only [hb, hlink, show ¬ (0 > 0) by omega, if_false, hr]

/-- In the state with the cycle, `LINEARDB3_getOrPut` does not return for a key
of bin 0 whose fingerprint is the one that was overwritten (`2 * R + 1`) or one
that was never stored: every bucket on the way is full, none holds the
fingerprint, and the chain never ends. -/
theorem cycle_getOrPut_diverges (R P j m fp : Nat) (db : LINEARDB3) (key : List Nat)
    (hR : 1 ≤ R) (hinv : CycleInv R P j db) (hj : j = m * R + R) (hP : P = m + 1) (hm : 2 ≤ m)
    (hkey : 4 ≤ key.length)
    (hbin : getBinNumber db (wordHash (List.take 4 key) % 2 ^ 64) = some (0, fp))
    (hfp : fp = 2 * R + 1 ∨ j + 1 < fp) (fuel : Nat) (v : Buf) (put write : Bool) :
    LINEARDB3_getOrPut R P wordHash fuel db (.user key) v put write = none := by
  obtain ⟨hks, hA, hB, hfm, ⟨hp, hhp, hfill0⟩, op, hop, hall⟩ := hinv
  have h2R : 2 * R ≤ m * R := Nat.mul_le_mul_right R hm
  have hb0 : getBucketAt P db ⟨false, 0⟩ = some (hp.buckets 0) := by
    simp only [getBucketAt, Bool.false_eq_true, if_false, getBucket, Nat.zero_div, hhp,
      Nat.zero_mod]
  have full0 : ∀ t, t < R → (hp.buckets 0).fingerprints t ≠ 0 ∧ (hp.buckets 0).fingerprints t ≠ fp := by
    intro t ht
    rw [hfill0.1 t ht]
    simp only [Nat.zero_mul, Nat.zero_add, show t < j by omega, if_true]
    omega
  have hlink0 : (hp.buckets 0).overflowIndex = 1 := by
    rw [hfill0.2]
    simp only [Nat.zero_add, Nat.one_mul, show R < j by omega, if_true]
  have hget : ∀ c, c < P → getBucket P db.overflowBuckets c = some (op.buckets c) := by
    intro c hc
    simp only [getBucket, Nat.div_eq_of_lt hc, hop, Nat.mod_eq_of_lt hc]
  have hfull : ∀ c, 1 ≤ c → c < P → ∀ t, t < R →
      (op.buckets c).fingerprints t ≠ 0 ∧ (op.buckets c).fingerprints t ≠ fp := by
    intro c hc1 hcP t ht
    rw [(hall c hc1 hcP).1 t ht]
    by_cases hc2 : c = 2 ∧ t = 0
    · simp only [hc2, and_self, if_true]
      omega
    · simp only [hc2, if_false]
      have hcm := Nat.mul_le_mul_right R (show c ≤ m by omega)
      refine ⟨by omega, ?_⟩
      rcases hfp with hfp | hfp
      · rcases Nat.lt_or_ge c 2 with h | h
        · have : c = 1 := by omega
          subst this
          omega
        · rcases Nat.eq_or_lt_of_le h with h | h
          · have ht0 : t ≠ 0 := fun h0 => hc2 ⟨h.symm, h0⟩
            rw [← h]
            omega
          · have := Nat.mul_le_mul_right R (show 3 ≤ c by omega)
            omega
      · omega
  have htrap : Trapped R P fp db.overflowBuckets (fun c => 1 ≤ c ∧ c < P) := by
    intro c hc
    refine ⟨op.buckets c, hget c hc.2, hfull c hc.1 hc.2, ?_, ?_⟩
    · rw [(hall c hc.1 hc.2).2]
      split <;> omega
    · rw [(hall c hc.1 hc.2).2]
      split <;> omega
  unfold LINEARDB3_getOrPut
  simp only [Buf.load, hks, hkey, if_true, hbin]
  rw [considerSlots_mismatch P _ fp put write _ db _ (hp.buckets 0) hb0 R 0
    (fun t _ ht => full0 t (by omega))]
  simp only [show ¬ ((2 : Int) < 2) by decide, if_false]
  cases fuel with
  | zero => rfl
  | succ fuel =>
    rw [walkChain_step R P _ fp put write fuel 0 _ db _ (hp.buckets 0) (op.buckets 1) hb0
      (by omega) (by rw [hlink0]; exact hget 1 (by omega)) (hfull 1 (by omega) (by omega))]
    rw [hlink0]
    exact walkChain_trapped R P _ fp put write db.overflowBuckets _ htrap fuel _ 1 _ _
      ⟨by omega, by omega⟩ (noteOverflowDepth_overflowBuckets _ _)

/-- The one-bin scenario with `R * P + 1` puts: every put returns 0, and the
state reached has the cycle. -/
theorem chainScenario_cycle (R P fuel : Nat) (hR : 1 ≤ R) (hP : 3 ≤ P)
    (hfuel : 32 ≤ fuel) (hfuelP : P ≤ fuel) (hsmall : R * P + 1 < 2 ^ 31) :
    ∃ db, chainScenario R P fuel (R * P + 1) = some db ∧ CycleInv R P (R * P) db := by
  obtain ⟨db0, hopen, hinv0⟩ := chain_open R P fuel hP hfuel
  obtain ⟨db1, hputs, hinv1⟩ := chain_putAll R P fuel hR hfuelP (R * P) 0 db0 hinv0
    (by omega) (by omega)
  rw [Nat.zero_add] at hinv1
  obtain ⟨m, hm⟩ : ∃ m, P = m + 1 := ⟨P - 1, by omega⟩
  have hj : R * P = m * R + R := by rw [hm, Nat.mul_succ, Nat.mul_comm]
  obtain ⟨r, hr, hcode, hinv2⟩ := chain_put_cycle R P (R * P) m fuel db1 [R * P % 256] hR hinv1
    hj hm (by omega) hfuelP (by simp) hsmall
  refine ⟨r.db, ?_, hinv2⟩
  have happ : ∀ (n j : Nat) (d d2 : LINEARDB3),
      putAll R P wordHash fuel d (chainPuts j n) = some d2 →
      putAll R P wordHash fuel d (chainPuts j (n + 1)) =
        putAll R P wordHash fuel d2 (chainPuts (j + n) 1) := by
    intro n
    induction n with
    | zero =>
      intro j d d2 h
      simp only [chainPuts, putAll, Option.some.injEq] at h
      rw [h]; rfl
    | succ n ih =>
      intro j d d2 h
      simp only [chainPuts, putAll] at h ⊢
      cases hput : LINEARDB3_put R P wordHash fuel d (chainKey j) [j % 256] with
      | none => simp only [hput] at h; exact absurd h (by simp)
      | some r1 =>
        simp only [hput] at h ⊢
        by_cases hc : r1.code = 0
        · simp only [hc, if_true] at h ⊢
          have := ih (j + 1) r1.db d2 h
          simp only [chainPuts, putAll] at this
          rw [this, show j + 1 + n = j + (n + 1) by omega]
        · simp only [hc, if_false] at h
          exact absurd h (by simp)
  unfold chainScenario
  simp only [hopen]
  rw [happ (R * P) 0 db0 db1 hputs, Nat.zero_add]
  simp only [chainPuts, putAll, hr, hcode, if_true]

theorem chainPuts_mem : ∀ (n j i : Nat), i < n →
    (chainKey (j + i), [(j + i) % 256]) ∈ chainPuts j n := by
  intro n
  induction n with
  | zero => intro j i h; omega
  | succ n ih =>
    intro j i h
    rcases Nat.eq_zero_or_pos i with hi | hi
    · subst hi
      simp only [chainPuts, Nat.add_zero, List.mem_cons, true_or]
    · have := ih (j + 1) (i - 1) (by omega)
      rw [show j + 1 + (i - 1) = j + i by omega] at this
      simp only [chainPuts, List.mem_cons]
      exact Or.inr this

theorem chainPuts_keys : ∀ (n j : Nat) (kv : List Nat × List Nat), kv ∈ chainPuts j n →
    ∃ i, j ≤ i ∧ i < j + n ∧ kv.1 = chainKey i := by
  intro n
  induction n with
  | zero => intro j kv h; simp [chainPuts] at h
  | succ n ih =>
    intro j kv h
    simp only [chainPuts, List.mem_cons] at h
    rcases h with h | h
    · exact ⟨j, le_refl j, by omega, by rw [h]⟩
    · obtain ⟨i, h1, h2, h3⟩ := ih (j + 1) kv h
      exact ⟨i, by omega, by omega, h3⟩

theorem chainKey_inj (i x : Nat) (hi : i + 1 < 2 ^ 32) (hx : x + 1 < 2 ^ 32)
    (h : chainKey i = chainKey x) : i = x := by
  have := congrArg decode32 h
  unfold chainKey at this
  rw [decode32_encode32 _ hi, decode32_encode32 _ hx] at this
  omega

/-- C1 fails on the code, whatever the two compile-time constants are.  For
`RECORDS_PER_BUCKET = R >= 1` and `BUCKETS_PER_PAGE = P >= 3`: after a fresh
open of a new file with one primary bucket, `R * P + 1` puts of distinct keys
all return 0, the key `chainKey (2 * R)` is among them, and `LINEARDB3_get` of
that key does not return, with any fuel.  The last put found the overflow page
full, and `getFirstEmptyBucketIndex` handed out overflow bucket 2 again, whose
slot 0 indexed that key; the chain now runs in a circle. -/
theorem roundtrip_lost_after_page_fills (R P fuel : Nat) (hR : 1 ≤ R) (hP : 3 ≤ P)
    (hfuel : 32 ≤ fuel) (hfuelP : P ≤ fuel) (hsmall : R * P + 1 < 2 ^ 31) :
    ∃ db, chainScenario R P fuel (R * P + 1) = some db ∧
      (chainKey (2 * R), [2 * R % 256]) ∈ chainPuts 0 (R * P + 1) ∧
      ∀ (fuel2 : Nat) (out : List Nat),
        LINEARDB3_get R P wordHash fuel2 db (chainKey (2 * R)) out = none := by
  obtain ⟨db, hdb, hinv⟩ := chainScenario_cycle R P fuel hR hP hfuel hfuelP hsmall
  obtain ⟨m, hm⟩ : ∃ m, P = m + 1 := ⟨P - 1, by omega⟩
  have hj : R * P = m * R + R := by rw [hm, Nat.mul_succ, Nat.mul_comm]
  have h3 := Nat.mul_le_mul_left R hP
  refine ⟨db, hdb, ?_, fun fuel2 out => ?_⟩
  · have := chainPuts_mem (R * P + 1) 0 (2 * R) (by omega)
    rwa [Nat.zero_add] at this
  · have hbin := word_getBinNumber (2 * R) db hinv.2.1 hinv.2.2.1 hinv.2.2.2.1 (by omega)
    exact cycle_getOrPut_diverges R P (R * P) m (2 * R + 1) db (chainKey (2 * R)) hR hinv hj hm
      (by omega) (by rw [chainKey_length]) hbin (Or.inl rfl) fuel2 _ false false

/-- C4 fails on the code, whatever the two compile-time constants are.  For
`RECORDS_PER_BUCKET = R >= 1` and `BUCKETS_PER_PAGE = P >= 3`: after a fresh
open of a new file with one primary bucket and `R * P + 1` puts that all
return 0, `LINEARDB3_get` of a key `chainKey x` that was never put does not
return 1: it does not return at all, with any fuel, because the chain of bin 0
runs in a circle.  The defect is the one of `getFirstEmptyBucketIndex` shown
for C6. -/
theorem get_absent_key_diverges (R P fuel x : Nat) (hR : 1 ≤ R) (hP : 3 ≤ P)
    (hfuel : 32 ≤ fuel) (hfuelP : P ≤ fuel) (hx : R * P + 1 ≤ x) (hsmall : x + 1 < 2 ^ 31) :
    ∃ db, chainScenario R P fuel (R * P + 1) = some db ∧
      (∀ kv, kv ∈ chainPuts 0 (R * P + 1) → kv.1 ≠ chainKey x) ∧
      ∀ (fuel2 : Nat) (out : List Nat),
        LINEARDB3_get R P wordHash fuel2 db (chainKey x) out = none := by
  obtain ⟨db, hdb, hinv⟩ := chainScenario_cycle R P fuel hR hP hfuel hfuelP (by omega)
  obtain ⟨m, hm⟩ : ∃ m, P = m + 1 := ⟨P - 1, by omega⟩
  have hj : R * P = m * R + R := by rw [hm, Nat.mul_succ, Nat.mul_comm]
  refine ⟨db, hdb, fun kv hkv heq => ?_, fun fuel2 out => ?_⟩
  · obtain ⟨i, _, hi, hk⟩ := chainPuts_keys _ _ kv hkv
    rw [hk] at heq
    have := chainKey_inj i x (by omega) (by omega) heq
    omega
  · have hbin := word_getBinNumber x db hinv.2.1 hinv.2.2.1 hinv.2.2.2.1 hsmall
    exact cycle_getOrPut_diverges R P (R * P) m (x + 1) db (chainKey x) hR hinv hj hm
      (by omega) (by rw [chainKey_length]) hbin (Or.inr (by omega)) fuel2 _ false false

/-- C5 fails on the code, whatever the two compile-time constants are.  For
`RECORDS_PER_BUCKET = R >= 1` and `BUCKETS_PER_PAGE = P >= 3`: after a fresh
open of a new file with one primary bucket and `R * P + 1` puts that all
return 0, primary bucket 0 links to overflow bucket 1, every overflow bucket
`1 .. P - 1` links to another one of them (so following `overflowIndex` never
reaches 0), overflow bucket 2 is linked from the two different buckets 1 and
`P - 1`, and a `LINEARDB3_put` of one more key does not return, with any fuel.
The defect is the one of `getFirstEmptyBucketIndex` shown for C6. -/
theorem overflow_chain_has_cycle (R P fuel : Nat) (hR : 1 ≤ R) (hP : 3 ≤ P)
    (hfuel : 32 ≤ fuel) (hfuelP : P ≤ fuel) (hsmall : R * P + 2 < 2 ^ 31) :
    ∃ db, chainScenario R P fuel (R * P + 1) = some db ∧
      (∃ b0, getBucket P db.hashTable 0 = some b0 ∧ b0.overflowIndex = 1) ∧
      (∀ c, 1 ≤ c → c < P → ∃ b, getBucket P db.overflowBuckets c = some b ∧
        1 ≤ b.overflowIndex ∧ b.overflowIndex < P) ∧
      (∃ b1 bl, getBucket P db.overflowBuckets 1 = some b1 ∧
        getBucket P db.overflowBuckets (P - 1) = some bl ∧ 1 ≠ P - 1 ∧
        b1.overflowIndex = 2 ∧ bl.overflowIndex = 2) ∧
      ∀ (fuel2 : Nat), LINEARDB3_put R P wordHash fuel2 db (chainKey (R * P + 1)) [0] = none := by
  obtain ⟨db, hdb, hinv⟩ := chainScenario_cycle R P fuel hR hP hfuel hfuelP (by omega)
  obtain ⟨m, hm⟩ : ∃ m, P = m + 1 := ⟨P - 1, by omega⟩
  have hj : R * P = m * R + R := by rw [hm, Nat.mul_succ, Nat.mul_comm]
  have h3 := Nat.mul_le_mul_left R hP
  have hinv' := hinv
  obtain ⟨hks, hA, hB, hfm, ⟨hp, hhp, hfill0⟩, op, hop, hall⟩ := hinv'
  have hget : ∀ c, c < P → getBucket P db.overflowBuckets c = some (op.buckets c) := by
    intro c hc
    simp only [getBucket, Nat.div_eq_of_lt hc, hop, Nat.mod_eq_of_lt hc]
  refine ⟨db, hdb, ⟨hp.buckets 0, ?_, ?_⟩, fun c hc1 hcP => ⟨op.buckets c, hget c hcP, ?_, ?_⟩,
    ⟨op.buckets 1, op.buckets (P - 1), hget 1 (by omega), hget (P - 1) (by omega), by omega,
      ?_, ?_⟩, fun fuel2 => ?_⟩
  · simp only [getBucket, Nat.zero_div, hhp, Nat.zero_mod]
  · rw [hfill0.2]
    simp only [Nat.zero_add, Nat.one_mul, show R < R * P by omega, if_true]
  · rw [(hall c hc1 hcP).2]
    split <;> omega
  · rw [(hall c hc1 hcP).2]
    split <;> omega
  · rw [(hall 1 (by omega) (by omega)).2]
    simp only [show 1 + 1 < P by omega, if_true]
  · rw [(hall (P - 1) (by omega) (by omega)).2]
    simp only [show ¬ (P - 1 + 1 < P) by omega, if_false]
  · have hbin := word_getBinNumber (R * P + 1) db hA hB hfm hsmall
    exact cycle_getOrPut_diverges R P (R * P) m (R * P + 1 + 1) db (chainKey (R * P + 1)) hR
      hinv hj hm (by omega) (by rw [chainKey_length]) hbin (Or.inr (by omega)) fuel2 _ true true

/-! ## Witnesses -/

/-- Witness for C2: eight records per bucket, pages of 4096 buckets. -/
theorem open_one_record_fails_witness :
    1 ≤ 8 ∧ 32 ≤ 32 ∧
    (LINEARDB3_open 8 4096 firstByteHash 32 [76, 100, 50, 1, 0, 0, 0, 1, 0, 0, 0, 65, 66]
      1 1 1).map Prod.fst = some 1 :=
  ⟨by decide, by decide, open_one_record_fails 8 4096 firstByteHash 32 (by decide) (by decide)⟩

/-- Witness for C1: eight records per bucket, pages of 4096 buckets. -/
theorem roundtrip_lost_after_page_fills_witness :
    1 ≤ 8 ∧ 3 ≤ 4096 ∧ 32 ≤ 4096 ∧ 4096 ≤ 4096 ∧ 8 * 4096 + 1 < 2 ^ 31 ∧
    ∃ db, chainScenario 8 4096 4096 (8 * 4096 + 1) = some db ∧
      (chainKey (2 * 8), [2 * 8 % 256]) ∈ chainPuts 0 (8 * 4096 + 1) ∧
      ∀ (fuel2 : Nat) (out : List Nat),
        LINEARDB3_get 8 4096 wordHash fuel2 db (chainKey (2 * 8)) out = none :=
  ⟨by decide, by decide, by decide, by decide, by decide,
    roundtrip_lost_after_page_fills 8 4096 4096 (by decide) (by decide) (by decide) (by decide)
      (by decide)⟩

/-- Witness for C4: eight records per bucket, pages of 4096 buckets, and the
key 40001, which is not among the 32769 keys put. -/
theorem get_absent_key_diverges_witness :
    1 ≤ 8 ∧ 3 ≤ 4096 ∧ 32 ≤ 4096 ∧ 4096 ≤ 4096 ∧ 8 * 4096 + 1 ≤ 40000 ∧ 40000 + 1 < 2 ^ 31 ∧
    ∃ db, chainScenario 8 4096 4096 (8 * 4096 + 1) = some db ∧
      (∀ kv, kv ∈ chainPuts 0 (8 * 4096 + 1) → kv.1 ≠ chainKey 40000) ∧
      ∀ (fuel2 : Nat) (out : List Nat),
        LINEARDB3_get 8 4096 wordHash fuel2 db (chainKey 40000) out = none :=
  ⟨by decide, by decide, by decide, by decide, by decide, by decide,
    get_absent_key_diverges 8 4096 4096 40000 (by decide) (by decide) (by decide) (by decide)
      (by decide) (by decide)⟩

/-- Witness for C5: eight records per bucket, pages of 4096 buckets. -/
theorem overflow_chain_has_cycle_witness :
    1 ≤ 8 ∧ 3 ≤ 4096 ∧ 32 ≤ 4096 ∧ 4096 ≤ 4096 ∧ 8 * 4096 + 2 < 2 ^ 31 ∧
    ∃ db, chainScenario 8 4096 4096 (8 * 4096 + 1) = some db ∧
      (∃ b0, getBucket 4096 db.hashTable 0 = some b0 ∧ b0.overflowIndex = 1) ∧
      (∀ c, 1 ≤ c → c < 4096 → ∃ b, getBucket 4096 db.overflowBuckets c = some b ∧
        1 ≤ b.overflowIndex ∧ b.overflowIndex < 4096) ∧
      (∃ b1 bl, getBucket 4096 db.overflowBuckets 1 = some b1 ∧
        getBucket 4096 db.overflowBuckets (4096 - 1) = some bl ∧ 1 ≠ 4096 - 1 ∧
        b1.overflowIndex = 2 ∧ bl.overflowIndex = 2) ∧
      ∀ (fuel2 : Nat),
        LINEARDB3_put 8 4096 wordHash fuel2 db (chainKey (8 * 4096 + 1)) [0] = none :=
  ⟨by decide, by decide, by decide, by decide, by decide,
    overflow_chain_has_cycle 8 4096 4096 (by decide) (by decide) (by decide) (by decide)
      (by decide)⟩

theorem two_pow_dvd_lt (c k : Nat) (hc1 : 1 ≤ c) (hc32 : c < 2 ^ 32) (hdvd : 2 ^ k ∣ c) :
    k ≤ 31 := by
  by_contra hcon
  have h1 : 2 ^ 32 ≤ 2 ^ k := Nat.pow_le_pow_right (by decide) (by omega)
  have h2 : 2 ^ k ≤ c := Nat.le_of_dvd (by omega) hdvd
  omega

theorem shrinkLoop_spec (c m : Nat) (hc1 : 1 ≤ c) (hc32 : c < 2 ^ 32)
    (hex : ¬ (c = 2 ^ 31 ∧ m ≤ 1)) :
    ∀ (fuel k : Nat), 32 ≤ k + fuel → 2 ^ k ∣ c → (k = 0 ∨ m ≤ c / 2 ^ k) →
      ∃ k2, k ≤ k2 ∧ shrinkLoop c m fuel (2 ^ k) = some (2 ^ k2) ∧ 2 ^ k2 ∣ c ∧
        (k2 = 0 ∨ m ≤ c / 2 ^ k2) ∧ ¬ (2 ^ (k2 + 1) ∣ c ∧ m ≤ c / 2 ^ (k2 + 1)) := by
  intro fuel
  induction fuel with
  | zero =>
    intro k hk hdvd _
    have := two_pow_dvd_lt c k hc1 hc32 hdvd
    omega
  | succ fuel ih =>
    intro k hk hdvd hq
    have hk31 := two_pow_dvd_lt c k hc1 hc32 hdvd
    have hk30 : k ≤ 30 := by
      by_contra hcon
      have hk : k = 31 := by omega
      subst hk
      obtain ⟨q, hq2⟩ := hdvd
      have hq1 : q = 1 := by
        rcases Nat.lt_or_ge q 2 with h | h
        · rcases Nat.eq_zero_or_pos q with h0 | h0
          · subst h0; omega
          · omega
        · have := Nat.mul_le_mul_left (2 ^ 31) h
          omega
      subst hq1
      rcases hq with h | h
      · omega
      · apply hex
        refine ⟨by omega, ?_⟩
        rw [hq2] at h
        simpa using h
    have hlt : 2 ^ (k + 1) < 2 ^ 32 := Nat.pow_lt_pow_right (by decide) (by omega)
    have hnd : 2 ^ k * 2 % 2 ^ 32 = 2 ^ (k + 1) := by
      rw [← Nat.pow_succ]
      exact Nat.mod_eq_of_lt hlt
    have hne : 2 ^ (k + 1) ≠ 0 := (Nat.two_pow_pos (k + 1)).ne'
    unfold shrinkLoop
    simp only [hnd, hne, if_false]
    by_cases hcond : c % 2 ^ (k + 1) = 0 ∧ c / 2 ^ (k + 1) ≥ m
    · obtain ⟨k2, h1, h2, h3, h4, h5⟩ := ih (k + 1) (by omega)
        (Nat.dvd_of_mod_eq_zero hcond.1) (Or.inr hcond.2)
      refine ⟨k2, by omega, ?_, h3, h4, h5⟩
      rw [if_pos hcond]
      exact h2
    · refine ⟨k, le_refl k, ?_, hdvd, hq, ?_⟩
      · rw [if_neg hcond]
      · intro hcon
        exact hcond ⟨Nat.mod_eq_zero_of_dvd hcon.1, hcon.2⟩

theorem shrinkCurSize_eq (db : LINEARDB3) (hA32 : db.hashTableSizeA < 2 ^ 32)
    (hwrap : db.hashTableSizeA ≠ db.hashTableSizeB → 2 * db.hashTableSizeA < 2 ^ 32) :
    shrinkCurSize db =
      if db.hashTableSizeA = db.hashTableSizeB then db.hashTableSizeA
      else 2 * db.hashTableSizeA := by
  unfold shrinkCurSize
  by_cases h : db.hashTableSizeA = db.hashTableSizeB
  · simp only [h, ne_eq, not_true_eq_false, if_false, if_true]
  · have := hwrap h
    simp only [h, ne_eq, not_false_eq_true, if_true, if_false]
    omega

theorem shrinkCurSize_lt (db : LINEARDB3) (hA32 : db.hashTableSizeA < 2 ^ 32) :
    shrinkCurSize db < 2 ^ 32 := by
  unfold shrinkCurSize
  split
  · exact Nat.mod_lt _ (by decide)
  · exact hA32

/-- What `LINEARDB3_getShrinkSize` returns when it enters its loop: `curSize`
divided by the largest power of two that the loop accepts. -/
theorem getShrinkSize_loop (fuel : Nat) (db : LINEARDB3) (newN : Nat) (hfuel : 33 ≤ fuel)
    (hA32 : db.hashTableSizeA < 2 ^ 32) (hlt : newN < shrinkCurSize db)
    (hex : ¬ (shrinkCurSize db = 2 ^ 31 ∧ newN = 0)) :
    ∃ k, LINEARDB3_getShrinkSize fuel db newN = some (shrinkCurSize db / 2 ^ k) ∧
      2 ^ k ∣ shrinkCurSize db ∧
      (k = 0 ∨ 2 * newN % 2 ^ 32 ≤ shrinkCurSize db / 2 ^ k) ∧
      ∀ j, k < j → ¬ (2 ^ j ∣ shrinkCurSize db ∧ 2 * newN % 2 ^ 32 ≤ shrinkCurSize db / 2 ^ j) := by
  have hc32 := shrinkCurSize_lt db hA32
  have hex2 : ¬ (shrinkCurSize db = 2 ^ 31 ∧ 2 * newN % 2 ^ 32 ≤ 1) := by
    intro hcon
    apply hex
    refine ⟨hcon.1, ?_⟩
    have h1 := hcon.1
    have h2 := hcon.2
    omega
  obtain ⟨k, _, hloop, hdvd, hq, hstop⟩ := shrinkLoop_spec (shrinkCurSize db) (2 * newN % 2 ^ 32)
    (by omega) hc32 hex2 fuel 0 (by omega) (by simp) (Or.inl rfl)
  refine ⟨k, ?_, hdvd, hq, fun j hj hcon => hstop ⟨?_, ?_⟩⟩
  · unfold LINEARDB3_getShrinkSize
    simp only [ge_iff_le, show ¬ (shrinkCurSize db ≤ newN) by omega, if_false]
    rw [pow_zero] at hloop
    rw [hloop]
  · exact Nat.dvd_trans (Nat.pow_dvd_pow 2 (by omega)) hcon.1
  · exact Nat.le_trans hcon.2
      (Nat.div_le_div_left (Nat.pow_le_pow_right (by decide) (by omega)) (Nat.two_pow_pos _))

theorem getShrinkSize_le (fuel : Nat) (db : LINEARDB3) (newN r : Nat)
    (h : LINEARDB3_getShrinkSize fuel db newN = some r) : r ≤ shrinkCurSize db := by
  unfold LINEARDB3_getShrinkSize at h
  simp only at h
  split at h
  · simp only [Option.some.injEq] at h
    omega
  · split at h
    · simp at h
    · simp only [Option.some.injEq] at h
      rw [← h]
      exact Nat.div_le_self _ _

/-- C11, as amended: `LINEARDB3_getShrinkSize( newN )` is at least `2 * newN`,
that is `newN / maxLoad`, exactly when `2 * newN` is at most `curSize`.  For
such a `newN` the call returns, unless `curSize` is `2^31` and `newN` is 0; for
a larger `newN` whatever it returns is below `2 * newN`, because the result
never exceeds `curSize`. -/
theorem getShrinkSize_accommodates (fuel : Nat) (db : LINEARDB3) (newN : Nat)
    (hfuel : 33 ≤ fuel) (hA32 : db.hashTableSizeA < 2 ^ 32) :
    (2 * newN ≤ shrinkCurSize db → ¬ (shrinkCurSize db = 2 ^ 31 ∧ newN = 0) →
      ∃ r, LINEARDB3_getShrinkSize fuel db newN = some r ∧ 2 * newN ≤ r) ∧
    (shrinkCurSize db < 2 * newN →
      ∀ r, LINEARDB3_getShrinkSize fuel db newN = some r → r < 2 * newN) := by
  refine ⟨fun hle hex => ?_, fun hlt r hr => ?_⟩
  · rcases Nat.lt_or_ge newN (shrinkCurSize db) with hlt | hge
    · have hc32 := shrinkCurSize_lt db hA32
      obtain ⟨k, hk, _, hq, _⟩ := getShrinkSize_loop fuel db newN hfuel hA32 hlt hex
      refine ⟨_, hk, ?_⟩
      have hm : 2 * newN % 2 ^ 32 = 2 * newN := Nat.mod_eq_of_lt (by omega)
      rcases hq with hq | hq
      · subst hq
        simpa using hle
      · omega
    · refine ⟨shrinkCurSize db, ?_, hle⟩
      unfold LINEARDB3_getShrinkSize
      simp only [ge_iff_le, hge, if_true]
  · have := getShrinkSize_le fuel db newN r hr
    omega

/-- C11 fails as stated: in the state after a fresh open with one bucket and
one put, `numRecords` is 1 and `LINEARDB3_getShrinkSize( 1 )` is 1, which is
less than `1 / maxLoad = 2`. -/
theorem getShrinkSize_too_small :
    onePut.numRecords = 1 ∧ LINEARDB3_getShrinkSize 40 onePut 1 = some 1 ∧
      ¬ (2 * 1 ≤ 1) := by
  decide

/-- Witness for C11: a table of 8 buckets and 2 records to keep. -/
theorem getShrinkSize_accommodates_witness :
    33 ≤ 40 ∧ (8 : Nat) < 2 ^ 32 ∧
    ∃ r, LINEARDB3_getShrinkSize 40
        { onePut with hashTableSizeA := 8, hashTableSizeB := 8 } 2 = some r ∧ 2 * 2 ≤ r :=
  ⟨by decide, by decide,
    (getShrinkSize_accommodates 40 { onePut with hashTableSizeA := 8, hashTableSizeB := 8 } 2
      (by decide) (by decide)).1 (by decide) (by decide)⟩

/-- With `curSize = 2^31` and `minSize = 0` the loop of
`LINEARDB3_getShrinkSize` doubles `divisor` up to `2^31`; the next `newDivisor`
is `2^32` in 32 bits, which is 0, and `curSize % newDivisor` divides by zero. -/
theorem shrinkLoop_divides_by_zero :
    ∀ (fuel k : Nat), k ≤ 31 → shrinkLoop (2 ^ 31) 0 fuel (2 ^ k) = none := by
  intro fuel
  induction fuel with
  | zero => intro k _; rfl
  | succ fuel ih =>
    intro k hk
    unfold shrinkLoop
    rcases Nat.eq_or_lt_of_le hk with h31 | hlt
    · subst h31
      simp
    · have hlt2 : 2 ^ (k + 1) < 2 ^ 32 := Nat.pow_lt_pow_right (by decide) (by omega)
      have hnd : 2 ^ k * 2 % 2 ^ 32 = 2 ^ (k + 1) := by
        rw [← Nat.pow_succ]
        exact Nat.mod_eq_of_lt hlt2
      have hne : 2 ^ (k + 1) ≠ 0 := (Nat.two_pow_pos (k + 1)).ne'
      have hmod : 2 ^ 31 % 2 ^ (k + 1) = 0 :=
        Nat.mod_eq_zero_of_dvd (Nat.pow_dvd_pow 2 (by omega))
      simp only [hnd, hne, if_false, hmod, ge_iff_le, Nat.zero_le, and_self, if_true]
      exact ih (k + 1) (by omega)

/-- C12, as amended: when `2 * hashTableSizeA` fits in 32 bits (or the table is
not being split), `LINEARDB3_getShrinkSize( newN )` returns a divisor of
`curSize` that is at most `curSize`, where `curSize` is `hashTableSizeA` when
`hashTableSizeA == hashTableSizeB` and `2 * hashTableSizeA` otherwise; the one
exception is `curSize = 2^31` with `newN = 0`. -/
theorem getShrinkSize_divides (fuel : Nat) (db : LINEARDB3) (newN cur : Nat)
    (hfuel : 33 ≤ fuel) (hA32 : db.hashTableSizeA < 2 ^ 32)
    (hwrap : db.hashTableSizeA ≠ db.hashTableSizeB → 2 * db.hashTableSizeA < 2 ^ 32)
    (hcur : cur = if db.hashTableSizeA = db.hashTableSizeB then db.hashTableSizeA
      else 2 * db.hashTableSizeA)
    (hex : ¬ (cur = 2 ^ 31 ∧ newN = 0)) :
    ∃ r, LINEARDB3_getShrinkSize fuel db newN = some r ∧ r ∣ cur ∧ r ≤ cur := by
  have hc := shrinkCurSize_eq db hA32 hwrap
  rw [← hcur] at hc
  rw [← hc] at hex ⊢
  rcases Nat.lt_or_ge newN (shrinkCurSize db) with hlt | hge
  · obtain ⟨k, hk, hdvd, _, _⟩ := getShrinkSize_loop fuel db newN hfuel hA32 hlt hex
    exact ⟨_, hk, Nat.div_dvd_of_dvd hdvd, Nat.div_le_self _ _⟩
  · refine ⟨shrinkCurSize db, ?_, dvd_refl _, le_refl _⟩
    unfold LINEARDB3_getShrinkSize
    simp only [ge_iff_le, hge, if_true]

/-- C12 fails as stated, at the 32-bit limit.  With `hashTableSizeA = 2^31`
and `hashTableSizeB = 2^31 + 1`, `curSize *= 2` wraps to 0 and the result is 0,
which does not divide `2 * 2^31`.  With `hashTableSizeA = 2^30` and
`hashTableSizeB = 2^30 + 1`, `curSize` is `2^31`, and for `newN = 0` the call
does not return: `divisor` reaches `2^31`, `newDivisor` wraps to 0, and
`curSize % newDivisor` divides by zero. -/
theorem getShrinkSize_wraps :
    (LINEARDB3_getShrinkSize 40
        { onePut with hashTableSizeA := 2147483648, hashTableSizeB := 2147483649 } 1 = some 0 ∧
      ¬ (0 ∣ 2 * 2147483648)) ∧
    ∀ fuel, LINEARDB3_getShrinkSize fuel
        { onePut with hashTableSizeA := 1073741824, hashTableSizeB := 1073741825 } 0 = none := by
  refine ⟨⟨by decide, by decide⟩, fun fuel => ?_⟩
  have h := shrinkLoop_divides_by_zero fuel 0 (by decide)
  rw [pow_zero] at h
  have h2 : shrinkLoop 2147483648 0 fuel 1 = none := h
  simp [LINEARDB3_getShrinkSize, shrinkCurSize, h2]

/-- Witness for C12: a table that is being split, of 4 buckets with 6 in use,
and 1 record to keep: `curSize` is 8. -/
theorem getShrinkSize_divides_witness :
    33 ≤ 40 ∧ (4 : Nat) < 2 ^ 32 ∧ 2 * 4 < 2 ^ 32 ∧ ¬ ((8 : Nat) = 2 ^ 31 ∧ 1 = 0) ∧
    ∃ r, LINEARDB3_getShrinkSize 40
        { onePut with hashTableSizeA := 4, hashTableSizeB := 6 } 1 = some r ∧ r ∣ 8 ∧ r ≤ 8 :=
  ⟨by decide, by decide, by decide, by decide,
    getShrinkSize_divides 40 { onePut with hashTableSizeA := 4, hashTableSizeB := 6 } 1 8
      (by decide) (by decide) (fun _ => by decide) (by decide) (by decide)⟩

/-- C18, as amended: when `2 * hashTableSizeA` fits in 32 bits (or the table is
not being split), with `curSize` being `hashTableSizeA` when
`hashTableSizeA == hashTableSizeB` and `2 * hashTableSizeA` otherwise: for
`newN < curSize` with `2 * newN < 2^32`, except for `curSize = 2^31` with
`newN = 0`, `LINEARDB3_getShrinkSize( newN )` returns `curSize / 2^k`, where
`2^k` is the largest power of two that divides `curSize` with
`curSize / 2^k ≥ 2 * newN`, and `k = 0` when no power of two from 2 on does;
for `newN ≥ curSize` it returns `curSize`. -/
theorem getShrinkSize_largest_quotient (fuel : Nat) (db : LINEARDB3) (newN cur : Nat)
    (hfuel : 33 ≤ fuel) (hA32 : db.hashTableSizeA < 2 ^ 32)
    (hwrap : db.hashTableSizeA ≠ db.hashTableSizeB → 2 * db.hashTableSizeA < 2 ^ 32)
    (hcur : cur = if db.hashTableSizeA = db.hashTableSizeB then db.hashTableSizeA
      else 2 * db.hashTableSizeA) :
    (newN < cur → 2 * newN < 2 ^ 32 → ¬ (cur = 2 ^ 31 ∧ newN = 0) →
      ∃ k, LINEARDB3_getShrinkSize fuel db newN = some (cur / 2 ^ k) ∧
        (k = 0 ∨ (2 ^ k ∣ cur ∧ 2 * newN ≤ cur / 2 ^ k)) ∧
        ∀ j, k < j → ¬ (2 ^ j ∣ cur ∧ 2 * newN ≤ cur / 2 ^ j)) ∧
    (cur ≤ newN → LINEARDB3_getShrinkSize fuel db newN = some cur) := by
  have hc := shrinkCurSize_eq db hA32 hwrap
  rw [← hcur] at hc
  rw [← hc]
  refine ⟨fun hlt hmin hex => ?_, fun hge => ?_⟩
  · have hm : 2 * newN % 2 ^ 32 = 2 * newN := Nat.mod_eq_of_lt hmin
    obtain ⟨k, hk, hdvd, hq, hmax⟩ := getShrinkSize_loop fuel db newN hfuel hA32 hlt hex
    rw [hm] at hq hmax
    refine ⟨k, hk, ?_, hmax⟩
    rcases hq with hq | hq
    · exact Or.inl hq
    · exact Or.inr ⟨hdvd, hq⟩
  · unfold LINEARDB3_getShrinkSize
    simp only [ge_iff_le, hge, if_true]

/-- C18 fails as stated, at the 32-bit limit.  With `curSize = 2^31` and
`newN = 0` the call does not return: `divisor` reaches `2^31`, `newDivisor`
wraps to 0, and `curSize % newDivisor` divides by zero.  With
`curSize = 3 * 2^30` and `newN = 2^31`, `minSize` wraps to 0 and the call
returns 3, although no power of two `d` from 2 on has
`curSize / d ≥ 2 * newN`, so that the claim asks for `curSize` itself. -/
theorem getShrinkSize_overflows :
    (∀ fuel, LINEARDB3_getShrinkSize fuel
        { onePut with hashTableSizeA := 2147483648, hashTableSizeB := 2147483648 } 0 = none) ∧
    LINEARDB3_getShrinkSize 40
        { onePut with hashTableSizeA := 3221225472, hashTableSizeB := 3221225472 } 2147483648
      = some 3 ∧
    (∀ j, 1 ≤ j → ¬ (2 ^ j ∣ 3221225472 ∧ 2 * 2147483648 ≤ 3221225472 / 2 ^ j)) ∧
    (3 : Nat) ≠ 3221225472 / 2 ^ 0 := by
  refine ⟨fun fuel => ?_, by decide, fun j _ hcon => ?_, by decide⟩
  · have h := shrinkLoop_divides_by_zero fuel 0 (by decide)
    rw [pow_zero] at h
    have h2 : shrinkLoop 2147483648 0 fuel 1 = none := h
    simp [LINEARDB3_getShrinkSize, shrinkCurSize, h2]
  · have := Nat.div_le_self 3221225472 (2 ^ j)
    omega

/-- Witness for C18: a table of 8 buckets and 1 record to keep; the result is
`8 / 2^2`. -/
theorem getShrinkSize_largest_quotient_witness :
    33 ≤ 40 ∧ (8 : Nat) < 2 ^ 32 ∧ 1 < 8 ∧ 2 * 1 < 2 ^ 32 ∧ ¬ ((8 : Nat) = 2 ^ 31 ∧ 1 = 0) ∧
    ∃ k, LINEARDB3_getShrinkSize 40
        { onePut with hashTableSizeA := 8, hashTableSizeB := 8 } 1 = some (8 / 2 ^ k) ∧
      (k = 0 ∨ (2 ^ k ∣ 8 ∧ 2 * 1 ≤ 8 / 2 ^ k)) ∧
      ∀ j, k < j → ¬ (2 ^ j ∣ 8 ∧ 2 * 1 ≤ 8 / 2 ^ j) :=
  ⟨by decide, by decide, by decide, by decide, by decide,
    (getShrinkSize_largest_quotient 40 { onePut with hashTableSizeA := 8, hashTableSizeB := 8 }
      1 8 (by decide) (by decide) (fun h => absurd rfl h) (by decide)).1
      (by decide) (by decide) (by decide)⟩

/-! ## The fingerprint modulus and the bin, continued -/

/-- What the loop of `recomputeFingerprintMod` returns: the start value times
a power of two, the last one below `2^32`. -/
theorem recomputeLoop_form : ∀ (fuel m r : Nat), 1 ≤ m → m < 2 ^ 32 →
    recomputeLoop fuel m = some r → ∃ k, r = m * 2 ^ k ∧ r < 2 ^ 32 ∧ 2 ^ 32 ≤ r * 2 := by
  intro fuel
  induction fuel with
  | zero => intro m r _ _ h; simp [recomputeLoop] at h
  | succ fuel ih =>
    intro m r h1 h2 h
    simp only [recomputeLoop] at h
    split at h
    · simp only [Option.some.injEq] at h
      subst h
      exact ⟨0, by simp, h2, by omega⟩
    · have hd : m * 2 % 2 ^ 32 = m * 2 := by omega
      rw [hd] at h
      obtain ⟨k, hk, hlt, hge⟩ := ih (m * 2) r (by omega) (by omega) h
      refine ⟨k + 1, ?_, hlt, hge⟩
      rw [hk, Nat.pow_succ]
      ring

/-- C14: for `1 ≤ hashTableSizeA < 2^32`, `recomputeFingerprintMod` returns
(33 units of fuel are enough for its loop) and sets `fingerprintMod` to
`hashTableSizeA * 2^k` for the largest `k` with `hashTableSizeA * 2^k < 2^32`,
changing no other field; in particular `2^31 ≤ fingerprintMod < 2^32`. -/
theorem recomputeFingerprintMod_largest (fuel : Nat) (db : LINEARDB3) (hfuel : 33 ≤ fuel)
    (hA : 1 ≤ db.hashTableSizeA) (hA32 : db.hashTableSizeA < 2 ^ 32) :
    ∃ k, recomputeFingerprintMod fuel db
        = some { db with fingerprintMod := db.hashTableSizeA * 2 ^ k } ∧
      db.hashTableSizeA * 2 ^ k < 2 ^ 32 ∧
      (∀ j, db.hashTableSizeA * 2 ^ j < 2 ^ 32 → j ≤ k) ∧
      2 ^ 31 ≤ db.hashTableSizeA * 2 ^ k := by
  obtain ⟨r, hr⟩ := recomputeLoop_terminates db.hashTableSizeA fuel hfuel
  obtain ⟨k, hk, hlt, hge⟩ := recomputeLoop_form fuel _ r hA hA32 hr
  refine ⟨k, ?_, by omega, fun j hj => ?_, by omega⟩
  · unfold recomputeFingerprintMod
    rw [hr, hk]
  · by_contra hcon
    have h1 : 2 ^ (k + 1) ≤ 2 ^ j := Nat.pow_le_pow_right (by decide) (by omega)
    have h2 := Nat.mul_le_mul_left db.hashTableSizeA h1
    rw [Nat.pow_succ, ← Nat.mul_assoc, ← hk] at h2
    omega

/-- Witness for C14: a table of 3 buckets, whose `fingerprintMod` becomes
`3 * 2^30`. -/
theorem recomputeFingerprintMod_largest_witness :
    33 ≤ 33 ∧ 1 ≤ 3 ∧ (3 : Nat) < 2 ^ 32 ∧
    ∃ k, recomputeFingerprintMod 33 { onePut with hashTableSizeA := 3 }
        = some { onePut with hashTableSizeA := 3, fingerprintMod := 3 * 2 ^ k } ∧
      3 * 2 ^ k < 2 ^ 32 ∧ (∀ j, 3 * 2 ^ j < 2 ^ 32 → j ≤ k) ∧ 2 ^ 31 ≤ 3 * 2 ^ k :=
  ⟨by decide, by decide, by decide,
    recomputeFingerprintMod_largest 33 { onePut with hashTableSizeA := 3 } (by decide)
      (by decide) (by decide)⟩

theorem getBinNumber_value (db : LINEARDB3) (hashVal : Nat)
    (hfm : 0 < db.fingerprintMod) (hA : 1 ≤ db.hashTableSizeA)
    (hAB : db.hashTableSizeA ≤ db.hashTableSizeB)
    (hB : db.hashTableSizeB ≤ 2 * db.hashTableSizeA)
    (h32 : 2 * db.hashTableSizeA < 2 ^ 32) :
    getBinNumber db hashVal =
      some
        (if adjustedHash hashVal db.fingerprintMod % db.hashTableSizeA
              < db.hashTableSizeB - db.hashTableSizeA then
            adjustedHash hashVal db.fingerprintMod % (db.hashTableSizeA * 2)
          else adjustedHash hashVal db.fingerprintMod % db.hashTableSizeA,
         adjustedHash hashVal db.fingerprintMod % db.fingerprintMod) := by
  have hA0 : db.hashTableSizeA ≠ 0 := by omega
  have hfm0 : db.fingerprintMod ≠ 0 := by omega
  have hsp : (db.hashTableSizeB + 2 ^ 32 - db.hashTableSizeA) % 2 ^ 32
      = db.hashTableSizeB - db.hashTableSizeA := by omega
  have hd : db.hashTableSizeA * 2 % 2 ^ 32 = db.hashTableSizeA * 2 := by omega
  have hd0 : db.hashTableSizeA * 2 ≠ 0 := by omega
  unfold getBinNumber
  simp only [hfm0, hA0, if_false, hsp, hd, hd0]
  split <;> rfl

/-- C17: with a non-zero `fingerprintMod`, `1 ≤ A ≤ B ≤ 2A` and `2A < 2^32`,
`getBinNumber` returns, for the adjusted hash value `h`, a bin that is either
`h mod A` or `h mod A + A`, and that is strictly less than `hashTableSizeB`. -/
theorem getBinNumber_in_table (db : LINEARDB3) (hashVal : Nat)
    (hfm : 0 < db.fingerprintMod) (hA : 1 ≤ db.hashTableSizeA)
    (hAB : db.hashTableSizeA ≤ db.hashTableSizeB)
    (hB : db.hashTableSizeB ≤ 2 * db.hashTableSizeA)
    (h32 : 2 * db.hashTableSizeA < 2 ^ 32) :
    ∃ bin fp, getBinNumber db hashVal = some (bin, fp) ∧
      (bin = adjustedHash hashVal db.fingerprintMod % db.hashTableSizeA ∨
        bin = adjustedHash hashVal db.fingerprintMod % db.hashTableSizeA
          + db.hashTableSizeA) ∧
      bin < db.hashTableSizeB := by
  refine ⟨_, _, getBinNumber_value db hashVal hfm hA hAB hB h32, ?_⟩
  have hlt : adjustedHash hashVal db.fingerprintMod % db.hashTableSizeA < db.hashTableSizeA :=
    Nat.mod_lt _ (by omega)
  split
  · rename_i hsplit
    have hmm : adjustedHash hashVal db.fingerprintMod % (db.hashTableSizeA * 2)
        = adjustedHash hashVal db.fingerprintMod % db.hashTableSizeA
          + db.hashTableSizeA * (adjustedHash hashVal db.fingerprintMod / db.hashTableSizeA % 2) :=
      Nat.mod_mul
    rcases Nat.mod_two_eq_zero_or_one
      (adjustedHash hashVal db.fingerprintMod / db.hashTableSizeA) with h | h
    · rw [h, Nat.mul_zero, Nat.add_zero] at hmm
      rw [hmm]
      exact ⟨Or.inl rfl, by omega⟩
    · rw [h, Nat.mul_one] at hmm
      rw [hmm]
      exact ⟨Or.inr rfl, by omega⟩
  · exact ⟨Or.inl rfl, by omega⟩

/-- Witness for C17: a table with `A = 4`, `B = 6` and the hash value 13, which
falls before the split point and lands in bin `13 mod 4 + 4`. -/
theorem getBinNumber_in_table_witness :
    ∃ bin fp, getBinNumber
        { onePut with hashTableSizeA := 4, hashTableSizeB := 6, fingerprintMod := 2147483648 } 13
        = some (bin, fp) ∧
      (bin = adjustedHash 13 2147483648 % 4 ∨ bin = adjustedHash 13 2147483648 % 4 + 4) ∧
      bin < 6 :=
  getBinNumber_in_table
    { onePut with hashTableSizeA := 4, hashTableSizeB := 6, fingerprintMod := 2147483648 } 13
    (by decide) (by decide) (by decide) (by decide) (by decide)

/-! ## Page managers: handles stay valid -/

theorem initPageManager_wellFormed (P n : Nat) (hP : 1 ≤ P) :
    PMWellFormed P (initPageManager P n) := by
  have h1 := Nat.div_add_mod n P
  have h2 := Nat.mod_lt n (show P > 0 by omega)
  refine ⟨hP, ?_, ?_, ?_, fun i => ?_⟩
  · show 1 ≤ 2 * (1 + n / P)
    generalize n / P = q
    omega
  · show 1 + n / P ≤ 2 * (1 + n / P)
    generalize n / P = q
    omega
  · show n ≤ (1 + n / P) * P
    rw [Nat.add_mul, Nat.one_mul, Nat.mul_comm]
    omega
  · show (if i < 1 + n / P then some zeroPage else none).isSome = true ↔ i < 1 + n / P
    by_cases h : i < 1 + n / P
    · simp only [h, if_true, Option.isSome_some]
    · simp only [h, if_false, Option.isSome_none, Bool.false_eq_true]

theorem getBucket_wellFormed (P : Nat) (pm : PageManager) (hwf : PMWellFormed P pm) (i : Nat) :
    (∃ b, getBucket P pm i = some b) ↔ i < pm.numPages * P := by
  obtain ⟨hP, _, _, _, hpages⟩ := hwf
  have hdiv : i / P < pm.numPages ↔ i < pm.numPages * P := Nat.div_lt_iff_lt_mul (by omega)
  rw [← hdiv, ← hpages]
  unfold getBucket
  cases h : pm.pages (i / P) with
  | none => simp [h]
  | some page => simp [h]

/-- One call of `addBucket` on a well-formed page manager: it returns the
bucket at the old `numBuckets`, counts one bucket more, and every bucket that
was there is still found at its index, unchanged. -/
theorem addBucket_wellFormed (P : Nat) (pm : PageManager) (hwf : PMWellFormed P pm) :
    ∃ pm2, addBucket P pm = some (pm.numBuckets, pm2) ∧ PMWellFormed P pm2 ∧
      pm2.numBuckets = pm.numBuckets + 1 ∧ pm.numPages ≤ pm2.numPages ∧
      (∃ b, getBucket P pm2 pm.numBuckets = some b) ∧
      ∀ i, i < pm.numPages * P →
        ∃ b, getBucket P pm i = some b ∧ getBucket P pm2 i = some b := by
  obtain ⟨hP, harea, hnp, hnb, hpages⟩ := hwf
  have hP0 : 0 < P := by omega
  have hold : ∀ i, i < pm.numPages * P → ∃ page, pm.pages (i / P) = some page := fun i hi =>
    Option.isSome_iff_exists.mp ((hpages (i / P)).mpr ((Nat.div_lt_iff_lt_mul hP0).mpr hi))
  have hold2 : ∀ i, i < pm.numPages * P → i / P < pm.numPages := fun i hi =>
    (Nat.div_lt_iff_lt_mul hP0).mpr hi
  by_cases hfull : pm.numPages * P = pm.numBuckets
  · have hq : pm.numBuckets / P = pm.numPages := by
      rw [← hfull]; exact Nat.mul_div_cancel _ hP0
    by_cases hroom : pm.numPages = pm.pageAreaSize
    · refine ⟨PageManager.mk (pm.numPages + 1) (2 * pm.pageAreaSize)
          (fun i =>
            if i = pm.numPages then some zeroPage
            else if i < pm.pageAreaSize then pm.pages i else none)
          (pm.numBuckets + 1), ?_, ⟨hP, ?_, ?_, ?_, fun i => ?_⟩, rfl, ?_, ?_,
        fun i hi => ?_⟩
      · simp only [addBucket, if_pos hfull, if_pos hroom, getBucket, hq, if_true]
      · show 1 ≤ 2 * pm.pageAreaSize
        omega
      · show pm.numPages + 1 ≤ 2 * pm.pageAreaSize
        omega
      · show pm.numBuckets + 1 ≤ (pm.numPages + 1) * P
        rw [Nat.add_mul, Nat.one_mul, hfull]
        omega
      · show (if i = pm.numPages then some zeroPage
            else if i < pm.pageAreaSize then pm.pages i else none).isSome = true
          ↔ i < pm.numPages + 1
        by_cases hi : i = pm.numPages
        · simp only [hi, if_true, Option.isSome_some, true_iff]; omega
        · simp only [hi, if_false]
          by_cases hlt : i < pm.pageAreaSize
          · simp only [hlt, if_true, hpages]; omega
          · simp only [hlt, if_false, Option.isSome_none, Bool.false_eq_true, false_iff]; omega
      · show pm.numPages ≤ pm.numPages + 1
        omega
      · simp only [getBucket, hq, if_true]
        exact ⟨_, rfl⟩
      · obtain ⟨page, hpage⟩ := hold i hi
        have h1 := hold2 i hi
        refine ⟨page.buckets (i % P), by simp only [getBucket, hpage], ?_⟩
        simp only [getBucket, show ¬ (i / P = pm.numPages) by omega, if_false,
          show i / P < pm.pageAreaSize by omega, if_true, hpage]
    · refine ⟨PageManager.mk (pm.numPages + 1) pm.pageAreaSize
          (fun i => if i = pm.numPages then some zeroPage else pm.pages i)
          (pm.numBuckets + 1), ?_, ⟨hP, harea, ?_, ?_, fun i => ?_⟩, rfl, ?_, ?_,
        fun i hi => ?_⟩
      · simp only [addBucket, if_pos hfull, if_neg hroom, getBucket, hq, if_true]
      · show pm.numPages + 1 ≤ pm.pageAreaSize
        omega
      · show pm.numBuckets + 1 ≤ (pm.numPages + 1) * P
        rw [Nat.add_mul, Nat.one_mul, hfull]
        omega
      · show (if i = pm.numPages then some zeroPage else pm.pages i).isSome = true
          ↔ i < pm.numPages + 1
        by_cases hi : i = pm.numPages
        · simp only [hi, if_true, Option.isSome_some, true_iff]; omega
        · simp only [hi, if_false, hpages]; omega
      · show pm.numPages ≤ pm.numPages + 1
        omega
      · simp only [getBucket, hq, if_true]
        exact ⟨_, rfl⟩
      · obtain ⟨page, hpage⟩ := hold i hi
        have h1 := hold2 i hi
        refine ⟨page.buckets (i % P), by simp only [getBucket, hpage], ?_⟩
        simp only [getBucket, show ¬ (i / P = pm.numPages) by omega, if_false, hpage]
  · have hlt : pm.numBuckets < pm.numPages * P := by omega
    obtain ⟨page, hpage⟩ := hold _ hlt
    refine ⟨{ pm with numBuckets := pm.numBuckets + 1 }, ?_, ⟨hP, harea, hnp, ?_, hpages⟩, rfl,
      le_refl _, ?_, fun i hi => ?_⟩
    · simp only [addBucket, if_neg hfull, getBucket, hpage]
    · show pm.numBuckets + 1 ≤ pm.numPages * P
      omega
    · simp only [getBucket, hpage]
      exact ⟨_, rfl⟩
    · obtain ⟨pg, hpg⟩ := hold i hi
      refine ⟨pg.buckets (i % P), by simp only [getBucket, hpg], ?_⟩
      simp only [getBucket, hpg]

/-- C15: `initPageManager` leaves a well-formed page manager, and on every
well-formed page manager `addBucket` returns the bucket at the index
`numBuckets` had, leaves a well-formed page manager with `numBuckets` one
larger, and every index below the old `numPages * BUCKETS_PER_PAGE` still
resolves to the bucket it resolved to, with the same content, whether or not
the page-pointer array was doubled and copied. -/
theorem addBucket_keeps_handles (P : Nat) (hP : 1 ≤ P) :
    (∀ n, PMWellFormed P (initPageManager P n)) ∧
    ∀ pm, PMWellFormed P pm →
      ∃ pm2, addBucket P pm = some (pm.numBuckets, pm2) ∧ PMWellFormed P pm2 ∧
        pm2.numBuckets = pm.numBuckets + 1 ∧
        (∃ b, getBucket P pm2 pm.numBuckets = some b) ∧
        ∀ i, i < pm.numPages * P →
          ∃ b, getBucket P pm i = some b ∧ getBucket P pm2 i = some b := by
  refine ⟨fun n => initPageManager_wellFormed P n hP, fun pm hwf => ?_⟩
  obtain ⟨pm2, h1, h2, h3, _, h5, h6⟩ := addBucket_wellFormed P pm hwf
  exact ⟨pm2, h1, h2, h3, h5, h6⟩

/-- Witness for C15: pages of one bucket and a page manager whose two pages
are full and fill the page-pointer array, so that `addBucket` doubles the
array. -/
theorem addBucket_keeps_handles_witness :
    1 ≤ 1 ∧
    ∃ pm2, addBucket 1 (PageManager.mk 2 2 (fun i => if i < 2 then some zeroPage else none) 2)
        = some (2, pm2) ∧
      PMWellFormed 1 pm2 ∧ pm2.numBuckets = 2 + 1 ∧
      (∃ b, getBucket 1 pm2 2 = some b) ∧
      ∀ i, i < 2 * 1 →
        ∃ b, getBucket 1 (PageManager.mk 2 2 (fun i => if i < 2 then some zeroPage else none) 2) i
            = some b ∧
          getBucket 1 pm2 i = some b :=
  ⟨by decide,
    (addBucket_keeps_handles 1 (by decide)).2
      (PageManager.mk 2 2 (fun i => if i < 2 then some zeroPage else none) 2)
      ⟨by decide, by decide, by decide, by decide, fun i => by
        show (if i < 2 then some zeroPage else none).isSome = true ↔ i < 2
        by_cases h : i < 2
        · simp only [h, if_true, Option.isSome_some]
        · simp only [h, if_false, Option.isSome_none, Bool.false_eq_true]⟩⟩

/-! ## Opening an existing file: the header checks and the table size -/

theorem fread_at_start (db : LINEARDB3) (n : Nat) (hn : n ≠ 0)
    (hlen : db.filePos + n ≤ db.file.length) :
    fread db n = (1, (db.file.drop db.filePos).take n,
      { db with filePos := db.filePos + n }) := by
  have hl : ((db.file.drop db.filePos).take n).length = n := by
    rw [List.length_take, List.length_drop]
    omega
  unfold fread
  simp only [hn, if_false, hl, if_true]

/-- The header checks of `LINEARDB3_open` on an existing file (lines 429-506):
what the call returns when one of them fails. -/
theorem openExisting_rejects (R P : Nat) (hash : List Nat → Nat) (fuel : Nat) (db : LINEARDB3)
    (ks vs : Nat) (hfuel : 33 ≤ fuel) (hlen : 11 ≤ db.file.length)
    (hks : db.keySize = ks) (hvs : db.valueSize = vs)
    (hbad : db.file.take 3 ≠ magicString ∨
      decode32 ((db.file.drop 3).take 4) ≠ ks ∨
      decode32 ((db.file.drop 7).take 4) ≠ vs ∨
      (1 ≤ ks + vs ∧ ks + vs < 2 ^ 32 ∧ (db.file.length - 11) % (ks + vs) ≠ 0)) :
    ∃ db2, openExisting R P hash fuel db ks vs = some (1, db2) ∧
      db2.numRecords = db.numRecords ∧ db2.hashTable = db.hashTable ∧
      db2.overflowBuckets = db.overflowBuckets ∧ db2.file = db.file := by
  have h1 : fread (fseekoSet db 0) 3 = (1, db.file.take 3, { db with filePos := 3 }) := by
    rw [fread_at_start _ 3 (by decide) (by simp only [fseekoSet]; omega)]
    simp [fseekoSet]
  have h2 : fread { db with filePos := 3 } 4
      = (1, (db.file.drop 3).take 4, { db with filePos := 7 }) := by
    rw [fread_at_start _ 4 (by decide) (by simp only; omega)]
  have h3 : fread { db with filePos := 7 } 4
      = (1, (db.file.drop 7).take 4, { db with filePos := 11 }) := by
    rw [fread_at_start _ 4 (by decide) (by simp only; omega)]
  unfold openExisting
  simp only [h1, ne_eq, not_true_eq_false, if_false]
  by_cases hm : List.take 3 db.file = magicString
  · simp only [hm, not_true_eq_false, if_false, h2]
    by_cases hk : decode32 (List.take 4 (List.drop 3 db.file)) = ks
    · simp only [hk, not_true_eq_false, if_false, h3]
      by_cases hv : decode32 (List.take 4 (List.drop 7 db.file)) = vs
      · simp only [hv, not_true_eq_false, if_false]
        have h4 : 1 ≤ ks + vs ∧ ks + vs < 2 ^ 32 ∧ (db.file.length - 11) % (ks + vs) ≠ 0 := by
          rcases hbad with h | h | h | h
          · exact absurd hm h
          · exact absurd hk h
          · exact absurd hv h
          · exact h
        obtain ⟨r, hr⟩ := recomputeLoop_terminates db.hashTableSizeA fuel hfuel
        have hrs : getRecordSizeBytes db.keySize db.valueSize = ks + vs := by
          rw [hks, hvs]; exact Nat.mod_eq_of_lt h4.2.1
        simp only [recomputeFingerprintMod, fseekoEnd, hr, LINEARDB3.recordSizeBytes, ftello,
          LINEARDB3_HEADER_SIZE, hrs, show ¬ (ks + vs = 0) by omega, if_false]
        have hne : ¬ ((ks + vs) * ((db.file.length - 11) / (ks + vs)) + 11 = db.file.length) := by
          intro hcon
          have := Nat.div_add_mod (db.file.length - 11) (ks + vs)
          omega
        simp only [hne, not_false_eq_true, if_true]
        exact ⟨_, rfl, rfl, rfl, rfl, rfl⟩
      · simp only [hv, not_false_eq_true, if_true]
        exact ⟨_, rfl, rfl, rfl, rfl, rfl⟩
    · simp only [hk, not_false_eq_true, if_true]
      exact ⟨_, rfl, rfl, rfl, rfl, rfl⟩
  · simp only [hm, not_false_eq_true, if_true]
    exact ⟨_, rfl, rfl, rfl, rfl, rfl⟩

/-- C13, as amended: on an existing file of at least 11 bytes,
`LINEARDB3_open` returns 1 when the first three bytes are not `"Ld2"`, when
the key size or the value size stored in the header differs from the requested
one, or when `keySize + valueSize` is at least 1 and below `2^32` and
`fileSize - 11` is not a multiple of it; in each case no record is counted,
the two page managers are as `new PageManager` left them, and the file is
unchanged. -/
theorem open_rejects_mismatch (R P : Nat) (hash : List Nat → Nat) (fuel : Nat)
    (file : List Nat) (start ks vs : Nat) (hfuel : 33 ≤ fuel) (hlen : 11 ≤ file.length)
    (hbad : file.take 3 ≠ magicString ∨
      decode32 ((file.drop 3).take 4) ≠ ks ∨
      decode32 ((file.drop 7).take 4) ≠ vs ∨
      (1 ≤ ks + vs ∧ ks + vs < 2 ^ 32 ∧ (file.length - 11) % (ks + vs) ≠ 0)) :
    ∃ db, LINEARDB3_open R P hash fuel file start ks vs = some (1, db) ∧
      db.numRecords = 0 ∧ db.hashTable = uninitPageManager ∧
      db.overflowBuckets = uninitPageManager ∧ db.file = file := by
  obtain ⟨r, hr⟩ := recomputeLoop_terminates start fuel hfuel
  unfold LINEARDB3_open
  simp only [recomputeFingerprintMod, hr, fseekoEnd, ftello, LINEARDB3_HEADER_SIZE,
    show ¬ (file.length < 11) by omega, if_false]
  exact openExisting_rejects R P hash fuel _ ks vs hfuel hlen rfl rfl hbad

/-- C13 fails as stated when the record size that the code computes is 0.  On
a file of 12 bytes whose header is `"Ld2"` with key size 0 and value size 0,
opened with these sizes, `fileSize - 11 = 1` is not a multiple of
`keySize + valueSize = 0`, and `LINEARDB3_open` does not return 1: it divides
by `recordSizeBytes`, which is 0.  The same happens on a file of 12 bytes
whose header holds the key size 4294967295 and the value size 1, opened with
these sizes: 1 is not a multiple of `keySize + valueSize = 2^32`, but
`getRecordSizeBytes` returns the `int` sum, which is 0. -/
theorem open_divides_by_zero_record_size :
    (12 - 11) % (0 + 0) ≠ 0 ∧
    (∀ fuel, LINEARDB3_open 8 4096 firstByteHash fuel [76, 100, 50, 0, 0, 0, 0, 0, 0, 0, 0, 7]
      1 0 0 = none) ∧
    (12 - 11) % (4294967295 + 1) ≠ 0 ∧
    ∀ fuel, LINEARDB3_open 8 4096 firstByteHash fuel
      [76, 100, 50, 255, 255, 255, 255, 1, 0, 0, 0, 7] 1 4294967295 1 = none := by
  refine ⟨by decide, fun fuel => ?_, by decide, fun fuel => ?_⟩
  · unfold LINEARDB3_open
    cases hr : recomputeLoop fuel 1 with
    | none => simp [recomputeFingerprintMod, hr]
    | some r =>
      simp [recomputeFingerprintMod, hr, fseekoEnd, ftello, LINEARDB3_HEADER_SIZE, openExisting,
        fseekoSet, fread, magicString, decode32, LINEARDB3.recordSizeBytes, getRecordSizeBytes]
  · unfold LINEARDB3_open
    cases hr : recomputeLoop fuel 1 with
    | none => simp [recomputeFingerprintMod, hr]
    | some r =>
      simp [recomputeFingerprintMod, hr, fseekoEnd, ftello, LINEARDB3_HEADER_SIZE, openExisting,
        fseekoSet, fread, magicString, decode32, LINEARDB3.recordSizeBytes, getRecordSizeBytes]

/-- Witness for C13: a file of 12 bytes with the header of one-byte keys and
one-byte values and half a record. -/
theorem open_rejects_mismatch_witness :
    33 ≤ 33 ∧ 11 ≤ [76, 100, 50, 1, 0, 0, 0, 1, 0, 0, 0, 65].length ∧
    (1 ≤ 1 + 1 ∧ 1 + 1 < 2 ^ 32 ∧
      ([76, 100, 50, 1, 0, 0, 0, 1, 0, 0, 0, 65].length - 11) % (1 + 1) ≠ 0) ∧
    ∃ db, LINEARDB3_open 8 4096 firstByteHash 33 [76, 100, 50, 1, 0, 0, 0, 1, 0, 0, 0, 65]
        1 1 1 = some (1, db) ∧
      db.numRecords = 0 ∧ db.hashTable = uninitPageManager ∧
      db.overflowBuckets = uninitPageManager ∧
      db.file = [76, 100, 50, 1, 0, 0, 0, 1, 0, 0, 0, 65] :=
  ⟨by decide, by decide, by decide,
    open_rejects_mismatch 8 4096 firstByteHash 33 [76, 100, 50, 1, 0, 0, 0, 1, 0, 0, 0, 65]
      1 1 1 (by decide) (by decide) (Or.inr (Or.inr (Or.inr (by decide))))⟩

/-- The branch of `LINEARDB3_open` for an existing file whose header matches
and whose length is a whole number of records (lines 429-549): the table is
sized for the records in the file, after `fingerprintMod` was recomputed for
the size the table had before, and the rebuild loop runs. -/
theorem openExisting_accepts (R P : Nat) (hash : List Nat → Nat) (fuel : Nat) (db : LINEARDB3)
    (ks vs r : Nat) (hlen : 11 ≤ db.file.length)
    (hks : db.keySize = ks) (hvs : db.valueSize = vs)
    (hm : db.file.take 3 = magicString)
    (hk : decode32 ((db.file.drop 3).take 4) = ks)
    (hv : decode32 ((db.file.drop 7).take 4) = vs)
    (hr : recomputeLoop fuel db.hashTableSizeA = some r)
    (hrs : 1 ≤ getRecordSizeBytes ks vs)
    (hmul : (db.file.length - 11) % getRecordSizeBytes ks vs = 0) :
    openExisting R P hash fuel db ks vs =
      rebuildLoop R P hash fuel ((db.file.length - 11) / getRecordSizeBytes ks vs)
        { db with
          filePos := 11
          fingerprintMod := r
          hashTableSizeA :=
            (2 * ((db.file.length - 11) / getRecordSizeBytes ks vs) % 2 ^ 32 + R - 1) / R % 2 ^ 32
          hashTableSizeB :=
            (2 * ((db.file.length - 11) / getRecordSizeBytes ks vs) % 2 ^ 32 + R - 1) / R % 2 ^ 32
          hashTable := initPageManager P
            ((2 * ((db.file.length - 11) / getRecordSizeBytes ks vs) % 2 ^ 32 + R - 1) / R
              % 2 ^ 32)
          overflowBuckets := initPageManager P 2 } := by
  have h1 : fread (fseekoSet db 0) 3 = (1, db.file.take 3, { db with filePos := 3 }) := by
    rw [fread_at_start _ 3 (by decide) (by simp only [fseekoSet]; omega)]
    simp [fseekoSet]
  have h2 : fread { db with filePos := 3 } 4
      = (1, (db.file.drop 3).take 4, { db with filePos := 7 }) := by
    rw [fread_at_start _ 4 (by decide) (by simp only; omega)]
  have h3 : fread { db with filePos := 7 } 4
      = (1, (db.file.drop 7).take 4, { db with filePos := 11 }) := by
    rw [fread_at_start _ 4 (by decide) (by simp only; omega)]
  have hrsb : getRecordSizeBytes db.keySize db.valueSize = getRecordSizeBytes ks vs := by
    rw [hks, hvs]
  have heq : getRecordSizeBytes ks vs * ((db.file.length - 11) / getRecordSizeBytes ks vs) + 11
      = db.file.length := by
    have := Nat.div_add_mod (db.file.length - 11) (getRecordSizeBytes ks vs)
    omega
  unfold openExisting
  simp only [h1, ne_eq, not_true_eq_false, if_false, hm, h2, hk, h3, hv, recomputeFingerprintMod,
    fseekoEnd, hr, LINEARDB3.recordSizeBytes, ftello, LINEARDB3_HEADER_SIZE, hrsb,
    show ¬ (getRecordSizeBytes ks vs = 0) by omega, heq]
  rfl

/-- C16 fails on the code.  On a file that holds the header and no record
(the file a fresh open and a close leave), opened with a start size between 1
and `2^32 - 1` and sizes that give a record size of at least 1,
`LINEARDB3_open` returns 0 with `hashTableSizeA` and
`hashTableSizeB` set to the size computed from the file, which is 0, while
`fingerprintMod` is the value recomputed for the start size, at least `2^31`:
`recomputeFingerprintMod` is called before the table size is assigned, not
after.  The value recomputed for the final `hashTableSizeA` would be 0. -/
theorem open_existing_keeps_start_modulus (R P : Nat) (hash : List Nat → Nat)
    (fuel start ks vs : Nat) (hfuel : 33 ≤ fuel) (hR : 1 ≤ R)
    (hstart : 1 ≤ start) (hstart32 : start < 2 ^ 32)
    (hks : ks < 2 ^ 32) (hvs : vs < 2 ^ 32) (hrs : 1 ≤ getRecordSizeBytes ks vs) :
    ∃ db, LINEARDB3_open R P hash fuel (magicString ++ encode32 ks ++ encode32 vs) start ks vs
        = some (0, db) ∧
      db.hashTableSizeA = 0 ∧ db.hashTableSizeB = 0 ∧
      recomputeLoop fuel start = some db.fingerprintMod ∧ 2 ^ 31 ≤ db.fingerprintMod ∧
      recomputeLoop fuel db.hashTableSizeA = some 0 := by
  obtain ⟨r, hr⟩ := recomputeLoop_terminates start fuel hfuel
  have hrange := recomputeLoop_range fuel start r hstart hstart32 hr
  have hfile : (magicString ++ encode32 ks ++ encode32 vs).length = 11 := rfl
  have hR0 : (R - 1) / R = 0 := Nat.div_eq_of_lt (by omega)
  obtain ⟨f, hf⟩ : ∃ f, fuel = f + 1 := ⟨fuel - 1, by omega⟩
  unfold LINEARDB3_open
  simp only [recomputeFingerprintMod, hr, fseekoEnd, ftello, LINEARDB3_HEADER_SIZE, hfile,
    Nat.lt_irrefl, if_false]
  rw [openExisting_accepts R P hash fuel _ ks vs r]
  · simp only [hfile, Nat.sub_self, Nat.zero_div, Nat.mul_zero, Nat.zero_mod, Nat.zero_add, hR0,
      rebuildLoop]
    refine ⟨_, rfl, rfl, rfl, rfl, hrange.1, ?_⟩
    rw [hf]
    rfl
  · simp only [hfile]; decide
  · rfl
  · rfl
  · rfl
  · exact decode32_encode32 ks hks
  · exact decode32_encode32 vs hvs
  · exact hr
  · exact hrs
  · simp only [hfile]; simp

/-- Witness for C16: eight records per bucket, pages of 4096 buckets, a start
size of 3 and the 11-byte file of one-byte keys and one-byte values. -/
theorem open_existing_keeps_start_modulus_witness :
    33 ≤ 33 ∧ 1 ≤ 8 ∧ 1 ≤ 3 ∧ (3 : Nat) < 2 ^ 32 ∧ (1 : Nat) < 2 ^ 32 ∧
    1 ≤ getRecordSizeBytes 1 1 ∧
    ∃ db, LINEARDB3_open 8 4096 firstByteHash 33 (magicString ++ encode32 1 ++ encode32 1) 3 1 1
        = some (0, db) ∧
      db.hashTableSizeA = 0 ∧ db.hashTableSizeB = 0 ∧
      recomputeLoop 33 3 = some db.fingerprintMod ∧ 2 ^ 31 ≤ db.fingerprintMod ∧
      recomputeLoop 33 db.hashTableSizeA = some 0 :=
  ⟨by decide, by decide, by decide, by decide, by decide, by decide,
    open_existing_keeps_start_modulus 8 4096 firstByteHash 33 3 1 1 (by decide) (by decide)
      (by decide) (by decide) (by decide) (by decide) (by decide)⟩

/-- A second input for C16, with records in the file: the header of one-byte
keys and values and the records (1, 10), (2, 1), (3, 30), opened with a start
size of 3, eight records per bucket and the first key byte as the hash.
`LINEARDB3_open` returns 0 with `hashTableSizeA = hashTableSizeB = 1` and
`fingerprintMod = 3 * 2^30`, the value for the start size; the value
recomputed for a table of 1 bucket is `2^31`. -/
theorem reopen_keeps_start_modulus :
    (LINEARDB3_open 8 4096 firstByteHash 40
        [76, 100, 50, 1, 0, 0, 0, 1, 0, 0, 0, 1, 10, 2, 1, 3, 30] 3 1 1).map
      (fun r => (r.1, r.2.hashTableSizeA, r.2.hashTableSizeB, r.2.fingerprintMod))
      = some (0, 1, 1, 3221225472) ∧
    recomputeLoop 40 1 = some 2147483648 := by
  decide

/-! ## The append offset check -/

theorem scanBuckets_range (P : Nat) (page : BucketPage) (p : Nat) :
    ∀ (k b idx : Nat), scanBuckets P page p k b = some idx →
      ∃ x, idx = p * P + x ∧ b ≤ x ∧ x < b + k := by
  intro k
  induction k with
  | zero => intro b idx h; simp [scanBuckets] at h
  | succ k ih =>
    intro b idx h
    simp only [scanBuckets] at h
    split at h
    · simp only [Option.some.injEq] at h
      exact ⟨b, h.symm, le_refl b, by omega⟩
    · obtain ⟨x, h1, h2, h3⟩ := ih (b + 1) idx h
      exact ⟨x, h1, by omega, by omega⟩

theorem scanPages_wellFormed (P : Nat) (pm : PageManager) (hwf : PMWellFormed P pm) :
    ∀ (k p : Nat), p + k ≤ pm.numPages →
      (∃ idx, scanPages P pm k p = some (some idx) ∧ idx < pm.numPages * P) ∨
        scanPages P pm k p = some none := by
  intro k
  induction k with
  | zero => intro p _; exact Or.inr rfl
  | succ k ih =>
    intro p hp
    obtain ⟨page, hpage⟩ := Option.isSome_iff_exists.mp ((hwf.2.2.2.2 p).mpr (by omega))
    simp only [scanPages, hpage]
    cases hs : scanBuckets P page p P 0 with
    | some idx =>
      obtain ⟨x, h1, _, h3⟩ := scanBuckets_range P page p P 0 idx hs
      refine Or.inl ⟨idx, rfl, ?_⟩
      have := Nat.mul_le_mul_right P (show p + 1 ≤ pm.numPages by omega)
      rw [Nat.add_mul, Nat.one_mul] at this
      omega
    | none => exact ih (p + 1) (by omega)

/-- On a well-formed page manager `getFirstEmptyBucketIndex` returns, the
index it returns is the index of a bucket, and every bucket that was there is
still found at its index. -/
theorem getFirstEmptyBucketIndex_total (P : Nat) (pm : PageManager) (hwf : PMWellFormed P pm) :
    ∃ idx pm2, getFirstEmptyBucketIndex P pm = some (idx, pm2) ∧ PMWellFormed P pm2 ∧
      (∃ b, getBucket P pm2 idx = some b) ∧
      ∀ i b, getBucket P pm i = some b → getBucket P pm2 i = some b := by
  unfold getFirstEmptyBucketIndex
  rcases scanPages_wellFormed P pm hwf pm.numPages 0 (by omega) with ⟨idx, hs, hlt⟩ | hs
  · rw [hs]
    exact ⟨idx, pm, rfl, hwf, (getBucket_wellFormed P pm hwf idx).mpr hlt, fun _ _ h => h⟩
  · rw [hs]
    obtain ⟨pm2, hadd, hwf2, _, _, hnew, hkeep⟩ := addBucket_wellFormed P pm hwf
    simp only [hadd]
    refine ⟨_, _, rfl, hwf2, hnew, fun i b hb => ?_⟩
    obtain ⟨b2, h1, h2⟩ := hkeep i ((getBucket_wellFormed P pm hwf i).mp ⟨b, hb⟩)
    rw [hb] at h1
    rw [h2, ← h1]

theorem getBucket_setBucket (P : Nat) (pm pm2 : PageManager) (i j : Nat)
    (c b : FingerprintBucket) (hset : setBucket P pm i c = some pm2)
    (hb : getBucket P pm j = some b) : ∃ b2, getBucket P pm2 j = some b2 := by
  unfold setBucket at hset
  unfold getBucket at hb ⊢
  cases hp : pm.pages (i / P) with
  | none => simp [hp] at hset
  | some page =>
    simp only [hp, Option.some.injEq] at hset
    subst hset
    by_cases hji : j / P = i / P
    · simp only [hji, if_true]
      exact ⟨_, rfl⟩
    · simp only [hji, if_false]
      cases hq : pm.pages (j / P) with
      | none => simp [hq] at hb
      | some pg => exact ⟨_, rfl⟩

/-- On a handle whose overflow page manager is well formed, the steps of
`LINEARDB3_getOrPut` that link a new overflow bucket behind an existing bucket
all go through. -/
theorem linkNewBucket_total (P fp : Nat) (ref : BucketRef) (db : LINEARDB3)
    (last : FingerprintBucket) (hwf : PMWellFormed P db.overflowBuckets)
    (hlast : getBucketAt P db ref = some last) :
    ∃ idx db4, linkNewBucket P fp ref db = some (idx, db4) := by
  obtain ⟨newIndex, pm2, hfe, _, ⟨nb, hnb⟩, hkeep⟩ :=
    getFirstEmptyBucketIndex_total P db.overflowBuckets hwf
  unfold linkNewBucket
  simp only [hfe]
  by_cases hov : ref.isOverflow = true
  · simp only [getBucketAt, hov, if_true] at hlast
    have hlast2 := hkeep _ _ hlast
    obtain ⟨pm3, hset⟩ := setBucket_of_getBucket P pm2 ref.index last
      { last with overflowIndex := newIndex } hlast2
    obtain ⟨nb2, hnb2⟩ := getBucket_setBucket P pm2 pm3 ref.index newIndex _ nb hset hnb
    simp only [getBucketAt, hov, if_true, hlast2, setBucketAt, hset, hnb2]
    obtain ⟨pm4, hset4⟩ := setBucket_of_getBucket P pm3 newIndex nb2
      { nb2 with
        fingerprints := fun j => if j = 0 then fp else nb2.fingerprints j
        fileIndex := fun j => if j = 0 then db.numRecords else nb2.fileIndex j } hnb2
    simp only [hset4]
    exact ⟨_, _, rfl⟩
  · simp only [getBucketAt, hov, Bool.false_eq_true, if_false] at hlast
    obtain ⟨ht, hset⟩ := setBucket_of_getBucket P db.hashTable ref.index last
      { last with overflowIndex := newIndex } hlast
    simp only [getBucketAt, hov, Bool.false_eq_true, if_false, hlast, setBucketAt, hset, hnb]
    obtain ⟨pm4, hset4⟩ := setBucket_of_getBucket P pm2 newIndex nb
      { nb with
        fingerprints := fun j => if j = 0 then fp else nb.fingerprints j
        fileIndex := fun j => if j = 0 then db.numRecords else nb.fileIndex j } hnb
    simp only [hset4]
    exact ⟨_, _, rfl⟩

theorem Frame.notFileInv {a b : LINEARDB3} (h : Frame a b) (hi : ¬ FileInv a) : ¬ FileInv b := by
  obtain ⟨h1, h2, h3, h4, _⟩ := h
  unfold FileInv LINEARDB3.recordSizeBytes at hi ⊢
  rw [h1, h2, h3, h4]
  exact hi

theorem setBucketAt_of_getBucketAt (P : Nat) (db : LINEARDB3) (ref : BucketRef)
    (b c : FingerprintBucket) (h : getBucketAt P db ref = some b) :
    ∃ db1, setBucketAt P db ref c = some db1 := by
  unfold getBucketAt at h
  unfold setBucketAt
  by_cases hov : ref.isOverflow = true
  · simp only [hov, if_true] at h ⊢
    obtain ⟨pm, hpm⟩ := setBucket_of_getBucket P _ _ b c h
    simp only [hpm]
    exact ⟨_, rfl⟩
  · simp only [hov, Bool.false_eq_true, if_false] at h ⊢
    obtain ⟨pm, hpm⟩ := setBucket_of_getBucket P _ _ b c h
    simp only [hpm]
    exact ⟨_, rfl⟩

/-- A put on an empty slot of a state whose file length is not
`11 + numRecords * recordSize`: the check of the end of the file against the
offset of the new record fails before anything is written. -/
theorem consider_put_empty_rejects (P : Nat) (db : LINEARDB3) (key val : Buf) (fp : Nat)
    (ref : BucketRef) (i : Nat) (b : FingerprintBucket)
    (hb : getBucketAt P db ref = some b) (h0 : b.fingerprints i = 0) (hlen : ¬ FileInv db) :
    ∃ rp, LINEARDB3_considerFingerprintBucket P db key val fp true true ref i = some rp ∧
      rp.code = -1 ∧ rp.db.file = db.file := by
  obtain ⟨db1, hset⟩ := setBucketAt_of_getBucketAt P db ref b
    { b with
      fingerprints := fun j => if j = i then fp else b.fingerprints j
      fileIndex := fun j => if j = i then db.numRecords else b.fileIndex j } hb
  obtain ⟨s1, _, s3, s4, s5⟩ := setBucketAt_fields _ _ _ _ _ hset
  unfold FileInv LINEARDB3.recordSizeBytes at hlen
  have hne : ¬ (db1.file.length
      = LINEARDB3_HEADER_SIZE + db.numRecords * getRecordSizeBytes db1.keySize db1.valueSize) := by
    rw [s1, s4, s5]
    exact hlen
  unfold LINEARDB3_considerFingerprintBucket
  simp only [hb, h0, if_true, hset, considerHit, Bool.and_self, writeRecord, fseekoEnd, ftello,
    LINEARDB3.recordSizeBytes, ne_eq, hne, not_false_eq_true]
  exact ⟨_, rfl, rfl, s1⟩

/-- What a get does on one slot, and what a put does on the same slot of the
same state when the get returned 2. -/
theorem consider_get_cases (P : Nat) (db : LINEARDB3) (key val : List Nat) (gv : Buf) (fp : Nat)
    (ref : BucketRef) (i : Nat) (rg : Ret)
    (hg : LINEARDB3_considerFingerprintBucket P db (.user key) gv fp false false ref i
      = some rg) :
    (rg.code = -1 ∨ rg.code = 0 ∨ rg.code = 1 ∨ rg.code = 2) ∧
    (rg.code = 2 →
      rg.value = gv ∧
      LINEARDB3_considerFingerprintBucket P db (.user key) (.user val) fp true true ref i
        = some ⟨2, .user val, rg.db⟩) ∧
    (rg.code = 1 → ∃ b, getBucketAt P db ref = some b ∧ b.fingerprints i = 0) := by
  cases hb : getBucketAt P db ref with
  | none => simp [LINEARDB3_considerFingerprintBucket, hb] at hg
  | some b =>
    by_cases h0 : b.fingerprints i = 0
    · rw [consider_empty_get P db _ gv fp false ref i b hb h0] at hg
      simp only [Option.some.injEq] at hg
      subst hg
      exact ⟨Or.inr (Or.inr (Or.inl rfl)), fun h => by simp at h, fun _ => ⟨b, rfl, h0⟩⟩
    · by_cases heq : b.fingerprints i = fp
      · rw [consider_candidate P db _ gv fp false false ref i b hb h0 heq] at hg
        have hput := consider_candidate P db (.user key) (.user val) fp true true ref i b hb h0 heq
        unfold considerHit at hg hput
        simp only [Bool.false_eq_true, if_false, Bool.and_self, if_true] at hg hput
        cases hrb : readBackKey db (.user key)
            (LINEARDB3_HEADER_SIZE + b.fileIndex i * db.recordSizeBytes) with
        | none => simp [hrb] at hg
        | some p =>
          obtain ⟨c, d⟩ := p
          cases c with
          | some c =>
            simp only [hrb, Option.some.injEq] at hg hput
            subst hg
            rcases readBackKey_code _ _ _ _ _ hrb with hc | hc
            · subst hc
              exact ⟨Or.inl rfl, fun h => by simp at h, fun h => by simp at h⟩
            · subst hc
              exact ⟨Or.inr (Or.inr (Or.inr rfl)), fun _ => ⟨rfl, hput⟩, fun h => by simp at h⟩
          | none =>
            simp only [hrb] at hg
            rcases readValue_code _ _ _ hg with hc | hc
            · rw [hc]
              exact ⟨Or.inl rfl, fun h => by simp at h, fun h => by simp at h⟩
            · rw [hc]
              exact ⟨Or.inr (Or.inl rfl), fun h => by simp at h, fun h => by simp at h⟩
      · rw [consider_mismatch P db _ gv fp false false ref i b hb h0 heq] at hg
        simp only [Option.some.injEq] at hg
        subst hg
        exact ⟨Or.inr (Or.inr (Or.inr rfl)),
          fun _ => ⟨rfl, consider_mismatch P db _ _ fp true true ref i b hb h0 heq⟩,
          fun h => by simp at h⟩

theorem considerSlots_rejects (P : Nat) (key val : List Nat) (fp : Nat) (ref : BucketRef) :
    ∀ (k i : Nat) (db : LINEARDB3) (gv : Buf) (rg : Ret), ¬ FileInv db →
      considerSlots P (.user key) fp false false ref k i db gv = some rg →
      (rg.code = -1 ∨ rg.code = 0 ∨ rg.code = 1 ∨ rg.code = 2) ∧
      (rg.code = 2 →
        rg.value = gv ∧
        considerSlots P (.user key) fp true true ref k i db (.user val)
          = some ⟨2, .user val, rg.db⟩) ∧
      (rg.code = 1 → ∃ rp,
        considerSlots P (.user key) fp true true ref k i db (.user val) = some rp ∧
        rp.code = -1 ∧ rp.db.file = db.file) := by
  intro k
  induction k with
  | zero =>
    intro i db gv rg _ hg
    simp only [considerSlots, Option.some.injEq] at hg
    subst hg
    exact ⟨Or.inr (Or.inr (Or.inr rfl)), fun _ => ⟨rfl, rfl⟩, fun h => by simp at h⟩
  | succ k ih =>
    intro i db gv rg hlen hg
    simp only [considerSlots] at hg ⊢
    cases h1 : LINEARDB3_considerFingerprintBucket P db (.user key) gv fp false false ref i with
    | none => simp [h1] at hg
    | some r1 =>
      simp only [h1] at hg
      obtain ⟨hrange, h2, hempty⟩ := consider_get_cases P db key val gv fp ref i r1 h1
      have hf1 := consider_get_frame P db _ gv fp false ref i r1 h1
      by_cases hlt : r1.code < 2
      · simp only [hlt, if_true, Option.some.injEq] at hg
        subst hg
        refine ⟨hrange, fun h => by omega, fun hc => ?_⟩
        obtain ⟨b, hb, h0⟩ := hempty hc
        obtain ⟨rp, hrp, hcode, hfile⟩ :=
          consider_put_empty_rejects P db (.user key) (.user val) fp ref i b hb h0 hlen
        refine ⟨rp, ?_, hcode, hfile⟩
        simp only [hrp, hcode, show ((-1 : Int) < 2) by decide, if_true]
      · have hc2 : r1.code = 2 := by omega
        obtain ⟨hv, hp⟩ := h2 hc2
        simp only [hlt, if_false] at hg
        obtain ⟨hr, h2b, h1b⟩ := ih (i + 1) r1.db r1.value rg (hf1.notFileInv hlen) hg
        simp only [hp, show ¬ ((2 : Int) < 2) by decide, if_false]
        refine ⟨hr, fun hc => ?_, fun hc => ?_⟩
        · obtain ⟨e1, e2⟩ := h2b hc
          exact ⟨by rw [e1, hv], e2⟩
        · obtain ⟨rp, e1, e2, e3⟩ := h1b hc
          exact ⟨rp, e1, e2, by rw [e3, hf1.1]⟩

/-- The end of the walk in put mode on a state whose file length is not
`11 + numRecords * recordSize`: a new overflow bucket is linked, and the check
of the end of the file against the offset of the new record fails before
anything is written. -/
theorem afterChain_put_rejects (P : Nat) (key val : Buf) (fp depth : Nat) (ref : BucketRef)
    (db : LINEARDB3) (last : FingerprintBucket) (hlen : ¬ FileInv db)
    (hwf : PMWellFormed P db.overflowBuckets)
    (hlast : getBucketAt P db ref = some last) (ho : last.overflowIndex = 0) :
    ∃ rp, afterChain P key val fp true true depth ref db = some rp ∧
      rp.code = -1 ∧ rp.db.file = db.file := by
  obtain ⟨f1, f2, f3, f4, _, _, _, f8, f9⟩ := frame_noteOverflowDepth db (depth + 1)
  have hlast1 : getBucketAt P (noteOverflowDepth db (depth + 1)) ref = some last := by
    simp only [getBucketAt, f8, f9] at hlast ⊢
    exact hlast
  obtain ⟨idx, db4, hlink⟩ := linkNewBucket_total P fp ref (noteOverflowDepth db (depth + 1)) last
    (by rw [f9]; exact hwf) hlast1
  obtain ⟨l1, l2, _, l4, l5⟩ := linkNewBucket_fields P fp ref _ idx db4 hlink
  unfold FileInv LINEARDB3.recordSizeBytes at hlen
  have hne : ¬ (db4.file.length
      = LINEARDB3_HEADER_SIZE + idx * getRecordSizeBytes db4.keySize db4.valueSize) := by
    rw [l1, l2, l4, l5, f1, f2, f3, f4]
    exact hlen
  unfold afterChain
  simp only [hlast, ho, beq_self_eq_true, Bool.and_self, if_true, hlink, appendRecord, fseekoEnd,
    ftello, LINEARDB3.recordSizeBytes, ne_eq, hne, not_false_eq_true]
  exact ⟨_, rfl, rfl, by rw [l2, f1]⟩

theorem walkChain_rejects (R P : Nat) (key val : List Nat) (fp : Nat) :
    ∀ (fuel depth : Nat) (ref : BucketRef) (db : LINEARDB3) (gv : Buf) (rg : Ret),
      ¬ FileInv db → PMWellFormed P db.overflowBuckets →
      walkChain R P (.user key) fp false false fuel depth ref db gv = some rg →
      rg.code = 1 →
      ∃ rp, walkChain R P (.user key) fp true true fuel depth ref db (.user val) = some rp ∧
        rp.code = -1 ∧ rp.db.file = db.file := by
  intro fuel
  induction fuel with
  | zero => intro depth ref db gv rg _ _ hg; simp [walkChain] at hg
  | succ fuel ih =>
    intro depth ref db gv rg hlen hwf hg hcode
    simp only [walkChain] at hg ⊢
    cases hb : getBucketAt P db ref with
    | none => simp [hb] at hg
    | some b =>
      simp only [hb] at hg ⊢
      by_cases hov : b.overflowIndex > 0
      · simp only [hov, if_true] at hg ⊢
        have hfn := frame_noteOverflowDepth db (depth + 1)
        cases hs : considerSlots P (.user key) fp false false ⟨true, b.overflowIndex⟩ R 0
            (noteOverflowDepth db (depth + 1)) gv with
        | none => simp [hs] at hg
        | some r1 =>
          simp only [hs] at hg
          obtain ⟨hrange, h2, h1⟩ := considerSlots_rejects P key val fp _ R 0 _ gv r1
            (hfn.notFileInv hlen) hs
          have hf1 := considerSlots_get_frame P _ fp false _ R 0 _ gv r1 hs
          by_cases hlt : r1.code < 2
          · simp only [hlt, if_true, Option.some.injEq] at hg
            subst hg
            obtain ⟨rp, e1, e2, e3⟩ := h1 hcode
            refine ⟨rp, ?_, e2, by rw [e3, hfn.1]⟩
            simp only [e1, e2, show ((-1 : Int) < 2) by decide, if_true]
          · have hc2 : r1.code = 2 := by omega
            obtain ⟨hv, hp⟩ := h2 hc2
            simp only [hlt, if_false] at hg
            simp only [hp, show ¬ ((2 : Int) < 2) by decide, if_false]
            have hfr := hfn.trans hf1
            obtain ⟨rp, e1, e2, e3⟩ := ih (depth + 1) ⟨true, b.overflowIndex⟩ r1.db r1.value rg
              (hfr.notFileInv hlen) (by rw [hfr.2.2.2.2.2.2.2.2]; exact hwf) hg hcode
            exact ⟨rp, e1, e2, by rw [e3, hfr.1]⟩
      · simp only [hov, if_false]
        exact afterChain_put_rejects P _ _ fp depth ref db b hlen hwf hb (by omega)

/-- C19, as far as it holds: in a state whose file length differs from
`11 + numRecords * recordSize` (and whose overflow page manager is well
formed), a `LINEARDB3_put` of a key for which `LINEARDB3_get` returns 1 returns
-1 and leaves every byte of the file as it was, whether the get ended on an
empty slot or at the end of the chain, where the put links a new overflow
bucket.  Where the walk of the chain does not end, neither call returns. -/
theorem put_rejects_wrong_length (R P : Nat) (hash : List Nat → Nat) (fuel : Nat)
    (db : LINEARDB3) (key val out : List Nat) (rg : Ret)
    (hlen : db.file.length ≠ LINEARDB3_HEADER_SIZE + db.numRecords * db.recordSizeBytes)
    (hwf : PMWellFormed P db.overflowBuckets)
    (hget : LINEARDB3_get R P hash fuel db key out = some rg) (hcode : rg.code = 1) :
    ∃ rp, LINEARDB3_put R P hash fuel db key val = some rp ∧ rp.code = -1 ∧
      rp.db.file = db.file := by
  have hlen2 : ¬ FileInv db := hlen
  unfold LINEARDB3_get LINEARDB3_getOrPut at hget
  unfold LINEARDB3_put LINEARDB3_getOrPut
  cases hk : (Buf.user key).load db db.keySize with
  | none => simp [hk] at hget
  | some k =>
    simp only [hk] at hget ⊢
    cases hb : getBinNumber db (hash k % 2 ^ 64) with
    | none => simp only [hb] at hget; exact absurd hget (by simp)
    | some p =>
      obtain ⟨bin, fp⟩ := p
      simp only [hb] at hget ⊢
      cases hs : considerSlots P (.user key) fp false false ⟨false, bin⟩ R 0 db (.user out) with
      | none => simp [hs] at hget
      | some r1 =>
        simp only [hs] at hget
        obtain ⟨hrange, h2, h1⟩ := considerSlots_rejects P key val fp _ R 0 _ _ r1 hlen2 hs
        have hf1 := considerSlots_get_frame P _ fp false _ R 0 _ _ r1 hs
        by_cases hlt : r1.code < 2
        · simp only [hlt, if_true, Option.some.injEq] at hget
          subst hget
          obtain ⟨rp, e1, e2, e3⟩ := h1 hcode
          refine ⟨rp, ?_, e2, e3⟩
          simp only [e1, e2, show ((-1 : Int) < 2) by decide, if_true]
        · have hc2 : r1.code = 2 := by omega
          obtain ⟨hv, hp⟩ := h2 hc2
          simp only [hlt, if_false] at hget
          simp only [hp, show ¬ ((2 : Int) < 2) by decide, if_false]
          obtain ⟨rp, e1, e2, e3⟩ := walkChain_rejects R P key val fp fuel 0 ⟨false, bin⟩ r1.db
            r1.value rg (hf1.notFileInv hlen2) (by rw [hf1.2.2.2.2.2.2.2.2]; exact hwf) hget hcode
          exact ⟨rp, e1, e2, by rw [e3, hf1.1]⟩

/-- Witness for C19: the state `onePut` with one byte more at the end of the
file, and a put of the key 2, which is not in the index; the get ends at the
end of the chain of bin 0. -/
theorem put_rejects_wrong_length_witness :
    ({ onePut with file := onePut.file ++ [0] } : LINEARDB3).file.length
      ≠ LINEARDB3_HEADER_SIZE
        + ({ onePut with file := onePut.file ++ [0] } : LINEARDB3).numRecords
          * ({ onePut with file := onePut.file ++ [0] } : LINEARDB3).recordSizeBytes ∧
    (LINEARDB3_get 1 3 firstByteHash 5 { onePut with file := onePut.file ++ [0] } [2] [0]).map
      Ret.code = some 1 ∧
    ∃ rp, LINEARDB3_put 1 3 firstByteHash 5 { onePut with file := onePut.file ++ [0] } [2] [20]
        = some rp ∧
      rp.code = -1 ∧ rp.db.file = onePut.file ++ [0] := by
  have hsome : (LINEARDB3_get 1 3 firstByteHash 5 { onePut with file := onePut.file ++ [0] }
      [2] [0]).isSome = true := by decide
  obtain ⟨rg, hrg⟩ := Option.isSome_iff_exists.mp hsome
  have hmap : (LINEARDB3_get 1 3 firstByteHash 5 { onePut with file := onePut.file ++ [0] }
      [2] [0]).map Ret.code = some 1 := by decide
  have hcode : rg.code = 1 := by
    rw [hrg] at hmap
    simpa using hmap
  have hwf : PMWellFormed 3
      ({ onePut with file := onePut.file ++ [0] } : LINEARDB3).overflowBuckets :=
    initPageManager_wellFormed 3 2 (by decide)
  exact ⟨by decide, hmap,
    put_rejects_wrong_length 1 3 firstByteHash 5 { onePut with file := onePut.file ++ [0] }
      [2] [20] [0] rg (by decide) hwf hrg hcode⟩

/-- C19 fails on the code, in a state that the defect of
`getFirstEmptyBucketIndex` leaves behind.  Take the state of `fourPuts` (one
record per bucket, three buckets per page, puts of the keys 1, 2, 3 and 4 that
each returned 0) with one stray byte appended to the file: the file length is
20, while `11 + numRecords * recordSize` is 19, and the key 5 was never put.
`LINEARDB3_put` of the key 5 does not return -1: it does not return at all,
with any fuel, because the chain of bin 0 ends in the self-linked overflow
bucket 2 and the walk never reaches the offset check; `LINEARDB3_get` of that
key does not return either. -/
theorem put_diverges_on_wrong_length :
    ∃ db, fourPuts = some db ∧
      ({ db with file := db.file ++ [0] } : LINEARDB3).file.length = 20 ∧
      LINEARDB3_HEADER_SIZE + db.numRecords * db.recordSizeBytes = 19 ∧
      ∀ (fuel : Nat) (val out : List Nat),
        LINEARDB3_put 1 3 firstByteHash fuel { db with file := db.file ++ [0] } [5] val
          = none ∧
        LINEARDB3_get 1 3 firstByteHash fuel { db with file := db.file ++ [0] } [5] out
          = none := by
  have hsome : fourPuts.isSome = true := by decide
  obtain ⟨db, hdb⟩ := Option.isSome_iff_exists.mp hsome
  have hfacts : fourPuts.map (fun d => (d.file.length, d.numRecords, d.recordSizeBytes))
      = some (19, 4, 2) := by decide
  rw [hdb] at hfacts
  simp only [Option.map_some', Option.some.injEq, Prod.mk.injEq] at hfacts
  obtain ⟨hlen, hn, hrs⟩ := hfacts
  have hsum := fourPuts_summary
  rw [hdb] at hsum
  simp only [Option.map_some', Option.some.injEq] at hsum
  have hsum2 : chainSummary ({ db with file := db.file ++ [0] } : LINEARDB3) =
      ((2147483648, 1, 1, 1), [some (1, 1), some (2, 2), some (4, 2)]) := hsum
  have hfields := hsum
  simp only [chainSummary, Prod.mk.injEq] at hfields
  obtain ⟨⟨hfm, hA, hB, _⟩, _⟩ := hfields
  have hbin : getBinNumber ({ db with file := db.file ++ [0] } : LINEARDB3)
      (firstByteHash [5] % 2 ^ 64) = some (0, 5) := by
    simp [getBinNumber, hfm, hA, hB, adjustedHash, firstByteHash]
  refine ⟨db, hdb, ?_, ?_, fun fuel val out => ⟨?_, ?_⟩⟩
  · simp only [List.length_append, hlen, List.length_singleton]
  · rw [hn, hrs]
    rfl
  · exact chainSummary_getOrPut_diverges _ hsum2 5 5 hbin (by decide) (by decide) (by decide)
      fuel _ true true
  · exact chainSummary_getOrPut_diverges _ hsum2 5 5 hbin (by decide) (by decide) (by decide)
      fuel _ false false

/-! ## A slot in the chain of another bin -/

theorem twoBins_summary :
    twoBins.map (fun db =>
      [slotSummary (getBucket 3 db.hashTable 0), slotSummary (getBucket 3 db.overflowBuckets 1),
        slotSummary (getBucket 3 db.overflowBuckets 2)])
      = some [some (2, 0, 1), some (4, 1, 2), some (3, 4, 0)] ∧
    twoBins.map (fun db => (db.numRecords, recordKey db 4)) = some (5, [3]) ∧
    twoBins.map (fun db => getBinNumber db (firstByteHash [3] % 2 ^ 64)) = some (some (1, 3)) ∧
    twoBins.map (fun db => (LINEARDB3_get 1 3 firstByteHash 8 db [6] [0]).map Ret.code)
      = some (some 1) :=
  ⟨by decide, by decide, by decide, by decide⟩

/-- C20 fails on the code.  With one record per bucket and three buckets per
page, after a fresh open with two primary buckets and successful puts of the
keys 2, 4, 6 (bin 0) and 1, 3 (bin 1): the overflow chain of bin 0 runs from
primary bucket 0 to overflow bucket 1 to overflow bucket 2, and slot 0 of
overflow bucket 2 is occupied by file index 4, whose record has the key 3,
which `getBinNumber` maps to bin 1, not to bin 0.  The last put made
`getFirstEmptyBucketIndex` hand out overflow bucket 2 again, for bin 1, while
it was in use in the chain of bin 0; the key 6 that it held is no longer found.
The defect is the one of `getFirstEmptyBucketIndex` shown for C6. -/
theorem slot_in_foreign_chain :
    ∃ db, twoBins = some db ∧
      ∃ p0 o1 o2, getBucket 3 db.hashTable 0 = some p0 ∧
        getBucket 3 db.overflowBuckets 1 = some o1 ∧
        getBucket 3 db.overflowBuckets 2 = some o2 ∧
        p0.overflowIndex = 1 ∧ o1.overflowIndex = 2 ∧
        o2.fingerprints 0 = 3 ∧ o2.fileIndex 0 = 4 ∧ 4 < db.numRecords ∧
        recordKey db 4 = [3] ∧
        getBinNumber db (firstByteHash [3] % 2 ^ 64) = some (1, 3) ∧
        (LINEARDB3_get 1 3 firstByteHash 8 db [6] [0]).map Ret.code = some 1 := by
  obtain ⟨h1, h2, h3, h4⟩ := twoBins_summary
  cases hdb : twoBins with
  | none => rw [hdb] at h2; simp at h2
  | some db =>
    rw [hdb] at h1 h2 h3 h4
    simp only [Option.map_some', Option.some.injEq, Prod.mk.injEq, slotSummary,
      Option.map_eq_some', Prod.exists, List.cons.injEq, and_true] at h1 h2 h3 h4
    obtain ⟨⟨p0, hp0, _, _, hp0o⟩, ⟨o1, ho1, _, _, ho1o⟩, ⟨o2, ho2, ho2f, ho2i, _⟩⟩ := h1
    obtain ⟨hn, hkey⟩ := h2
    exact ⟨db, rfl, p0, o1, o2, hp0, ho1, ho2, hp0o, ho1o, ho2f, ho2i, by omega, hkey, h3,
      by simpa using h4⟩

/-! ## The fingerprint determines the bin -/

theorem mod_mod_mul_pow (h A k : Nat) (hk : 1 ≤ k) :
    h % (A * 2 ^ k) % A = h % A ∧ h % (A * 2 ^ k) % (2 * A) = h % (2 * A) := by
  obtain ⟨j, rfl⟩ : ∃ j, k = j + 1 := ⟨k - 1, by omega⟩
  constructor
  · exact Nat.mod_mod_of_dvd _ (Dvd.intro _ rfl)
  · exact Nat.mod_mod_of_dvd _ ⟨2 ^ j, by ring⟩

theorem adjustedHash_of_mod_ne_zero (x fm : Nat) (h : x % fm ≠ 0) : adjustedHash x fm = x := by
  unfold adjustedHash
  rw [if_neg h]

/-- C24: for a table with `1 ≤ A ≤ B ≤ 2A` and `2A < 2^32`, `recomputeFingerprintMod`
returns, and with the `fingerprintMod` it sets, `getBinNumber` returns for every
hash value a bin and a fingerprint `f` such that `f mod A = h mod A` and
`f mod 2A = h mod 2A` for the adjusted hash `h`; the bin is the one that the
bin-selection rule gives on `f` in place of `h`, and `getBinNumber` on `f`
itself returns the same bin and the same fingerprint. -/
theorem fingerprint_determines_bin (fuel : Nat) (db0 : LINEARDB3) (hashVal : Nat)
    (hfuel : 33 ≤ fuel) (hA : 1 ≤ db0.hashTableSizeA)
    (h32 : 2 * db0.hashTableSizeA < 2 ^ 32)
    (hAB : db0.hashTableSizeA ≤ db0.hashTableSizeB)
    (hB : db0.hashTableSizeB ≤ 2 * db0.hashTableSizeA) :
    ∃ db bin f, recomputeFingerprintMod fuel db0 = some db ∧
      getBinNumber db hashVal = some (bin, f) ∧
      f % db.hashTableSizeA = adjustedHash hashVal db.fingerprintMod % db.hashTableSizeA ∧
      f % (2 * db.hashTableSizeA)
        = adjustedHash hashVal db.fingerprintMod % (2 * db.hashTableSizeA) ∧
      bin = (if f % db.hashTableSizeA ≥ db.hashTableSizeB - db.hashTableSizeA then
              f % db.hashTableSizeA
            else f % (2 * db.hashTableSizeA)) ∧
      getBinNumber db f = some (bin, f) := by
  obtain ⟨r, hr⟩ := recomputeLoop_terminates db0.hashTableSizeA fuel hfuel
  obtain ⟨k, hk, hlt, hge⟩ := recomputeLoop_form fuel _ r hA (by omega) hr
  have hk1 : 1 ≤ k := by
    rcases Nat.eq_zero_or_pos k with h0 | h0
    · subst h0
      simp only [pow_zero, Nat.mul_one] at hk
      omega
    · exact h0
  have hdb : recomputeFingerprintMod fuel db0 = some { db0 with fingerprintMod := r } := by
    unfold recomputeFingerprintMod
    rw [hr]
  have hfm : (2 : Nat) ≤ r := by omega
  obtain ⟨hmA, hm2A⟩ := mod_mod_mul_pow (adjustedHash hashVal r) db0.hashTableSizeA k hk1
  rw [← hk] at hmA hm2A
  have hf0 := adjustedHash_mod_ne_zero hashVal r hfm
  have hflt : adjustedHash hashVal r % r < r := Nat.mod_lt _ (by omega)
  have hadj : adjustedHash (adjustedHash hashVal r % r) r = adjustedHash hashVal r % r := by
    apply adjustedHash_of_mod_ne_zero
    rw [Nat.mod_mod]
    exact hf0
  have hv := getBinNumber_value { db0 with fingerprintMod := r } hashVal
    (show 0 < r by omega) hA hAB hB h32
  have hv2 := getBinNumber_value { db0 with fingerprintMod := r }
    (adjustedHash hashVal r % r) (show 0 < r by omega) hA hAB hB h32
  simp only [hadj, Nat.mod_mod, hmA] at hv2
  rw [show db0.hashTableSizeA * 2 = 2 * db0.hashTableSizeA from Nat.mul_comm _ _] at hv hv2
  simp only [hm2A] at hv2
  refine ⟨_, _, _, hdb, hv, hmA, hm2A, ?_, ?_⟩
  · simp only [hmA, hm2A, ge_iff_le]
    split
    · rw [if_neg (by omega)]
    · rw [if_pos (by omega)]
  · exact hv2

/-- Witness for C24: a table with `A = 3`, `B = 4` and the hash value
`2^32 + 1`; the modulus becomes `3 * 2^30`, the fingerprint is `2^30 + 1` and
the bin is 2. -/
theorem fingerprint_determines_bin_witness :
    ∃ db bin f,
      recomputeFingerprintMod 33 { onePut with hashTableSizeA := 3, hashTableSizeB := 4 }
        = some db ∧
      getBinNumber db 4294967297 = some (bin, f) ∧
      f % db.hashTableSizeA = adjustedHash 4294967297 db.fingerprintMod % db.hashTableSizeA ∧
      f % (2 * db.hashTableSizeA)
        = adjustedHash 4294967297 db.fingerprintMod % (2 * db.hashTableSizeA) ∧
      bin = (if f % db.hashTableSizeA ≥ db.hashTableSizeB - db.hashTableSizeA then
              f % db.hashTableSizeA
            else f % (2 * db.hashTableSizeA)) ∧
      getBinNumber db f = some (bin, f) :=
  fingerprint_determines_bin 33 { onePut with hashTableSizeA := 3, hashTableSizeB := 4 }
    4294967297 (by decide) (by decide) (by decide) (by decide) (by decide)

/-! ## Page managers: the bounds invariant -/

theorem addBuckets_wellFormed (P : Nat) : ∀ (k : Nat) (pm : PageManager),
    PMWellFormed P pm → 1 ≤ pm.numPages →
    ∃ pm2, addBuckets P k pm = some pm2 ∧ PMWellFormed P pm2 ∧ 1 ≤ pm2.numPages ∧
      pm2.numBuckets = pm.numBuckets + k := by
  intro k
  induction k with
  | zero => intro pm hwf h1; exact ⟨pm, rfl, hwf, h1, rfl⟩
  | succ k ih =>
    intro pm hwf h1
    obtain ⟨pm1, hadd, hwf1, hnb, hnp, _, _⟩ := addBucket_wellFormed P pm hwf
    obtain ⟨pm2, hk, hwf2, h12, hnb2⟩ := ih pm1 hwf1 (by omega)
    refine ⟨pm2, ?_, hwf2, h12, by omega⟩
    simp only [addBuckets, hadd]
    exact hk

/-- C22: with pages of at least one bucket, `initPageManager` on any starting
count followed by any number `k` of `addBucket` calls runs through (no call
dereferences a `NULL` page) and leaves a page manager with
`numBuckets ≤ numPages * BUCKETS_PER_PAGE` and `1 ≤ numPages ≤ pageAreaSize`,
in which `pages[p]` is an allocated page for every `p < numPages`, and in
which `getBucket` finds a bucket of an allocated page for every index below
`numBuckets`; `numBuckets` is the starting count plus `k`. -/
theorem pageManager_bounds (P n k : Nat) (hP : 1 ≤ P) :
    ∃ pm, addBuckets P k (initPageManager P n) = some pm ∧
      pm.numBuckets = n + k ∧
      pm.numBuckets ≤ pm.numPages * P ∧
      1 ≤ pm.numPages ∧ pm.numPages ≤ pm.pageAreaSize ∧
      (∀ p, p < pm.numPages → ∃ page, pm.pages p = some page) ∧
      ∀ i, i < pm.numBuckets → ∃ b, getBucket P pm i = some b := by
  have hinit := initPageManager_wellFormed P n hP
  have h1 : 1 ≤ (initPageManager P n).numPages := Nat.le_add_right 1 (n / P)
  obtain ⟨pm, hk, hwf, hnp, hnb⟩ := addBuckets_wellFormed P k (initPageManager P n) hinit h1
  refine ⟨pm, hk, hnb, hwf.2.2.2.1, hnp, hwf.2.2.1, fun p hp => ?_, fun i hi => ?_⟩
  · exact Option.isSome_iff_exists.mp ((hwf.2.2.2.2 p).mpr hp)
  · exact (getBucket_wellFormed P pm hwf i).mpr (Nat.lt_of_lt_of_le hi hwf.2.2.2.1)

/-- Witness for C22: pages of two buckets, three starting buckets (two pages in
an array of four) and six calls of `addBucket`, which fill the array and double
it. -/
theorem pageManager_bounds_witness :
    1 ≤ 2 ∧
    ∃ pm, addBuckets 2 6 (initPageManager 2 3) = some pm ∧
      pm.numBuckets = 3 + 6 ∧
      pm.numBuckets ≤ pm.numPages * 2 ∧
      1 ≤ pm.numPages ∧ pm.numPages ≤ pm.pageAreaSize ∧
      (∀ p, p < pm.numPages → ∃ page, pm.pages p = some page) ∧
      ∀ i, i < pm.numBuckets → ∃ b, getBucket 2 pm i = some b :=
  ⟨by decide, pageManager_bounds 2 3 6 (by decide)⟩

/-! ## A get is read-only -/

/-- C23: whatever `LINEARDB3_get` returns, it leaves `numRecords`,
`hashTableSizeA`, `hashTableSizeB`, `fingerprintMod`, the key and value sizes,
both page managers (hence their bucket counts and, at every index, the
bucket's fingerprints, file indices and overflow link) and every byte of the
file as they were.  The fields left out, which it may change, are
`maxOverflowDepth`, the file position and the record buffer; the out-buffer is
part of the result. -/
theorem get_read_only (R P : Nat) (hash : List Nat → Nat) (fuel : Nat) (db : LINEARDB3)
    (key outValue : List Nat) (r : Ret)
    (h : LINEARDB3_get R P hash fuel db key outValue = some r) :
    r.db.numRecords = db.numRecords ∧
    r.db.hashTableSizeA = db.hashTableSizeA ∧ r.db.hashTableSizeB = db.hashTableSizeB ∧
    r.db.fingerprintMod = db.fingerprintMod ∧
    r.db.keySize = db.keySize ∧ r.db.valueSize = db.valueSize ∧
    getNumBuckets r.db.hashTable = getNumBuckets db.hashTable ∧
    getNumBuckets r.db.overflowBuckets = getNumBuckets db.overflowBuckets ∧
    (∀ i, getBucket P r.db.hashTable i = getBucket P db.hashTable i) ∧
    (∀ i, getBucket P r.db.overflowBuckets i = getBucket P db.overflowBuckets i) ∧
    r.db.hashTable = db.hashTable ∧ r.db.overflowBuckets = db.overflowBuckets ∧
    r.db.file = db.file := by
  obtain ⟨f1, f2, f3, f4, f5, f6, f7, f8, f9⟩ :=
    getOrPut_get_frame R P hash fuel db (.user key) (.user outValue) false r h
  refine ⟨f2, f5, f6, f7, f3, f4, ?_, ?_, fun i => ?_, fun i => ?_, f8, f9, f1⟩
  · rw [f8]
  · rw [f9]
  · rw [f8]
  · rw [f9]

/-- Witness for C23: in the state `onePut`, a get of the stored key 1, which
seeks to the record, reads the key into the record buffer and the value into
the out-buffer, and returns 0. -/
theorem get_read_only_witness :
    ∃ r, LINEARDB3_get 1 3 firstByteHash 5 onePut [1] [0] = some r ∧
      r.code = 0 ∧ onePut.recordBuffer = [0, 0] ∧ r.db.recordBuffer = [1, 0] ∧
      r.db.numRecords = onePut.numRecords ∧
      r.db.hashTableSizeA = onePut.hashTableSizeA ∧
      r.db.hashTableSizeB = onePut.hashTableSizeB ∧
      r.db.fingerprintMod = onePut.fingerprintMod ∧
      r.db.keySize = onePut.keySize ∧ r.db.valueSize = onePut.valueSize ∧
      getNumBuckets r.db.hashTable = getNumBuckets onePut.hashTable ∧
      getNumBuckets r.db.overflowBuckets = getNumBuckets onePut.overflowBuckets ∧
      (∀ i, getBucket 3 r.db.hashTable i = getBucket 3 onePut.hashTable i) ∧
      (∀ i, getBucket 3 r.db.overflowBuckets i = getBucket 3 onePut.overflowBuckets i) ∧
      r.db.hashTable = onePut.hashTable ∧ r.db.overflowBuckets = onePut.overflowBuckets ∧
      r.db.file = onePut.file := by
  have hsome : (LINEARDB3_get 1 3 firstByteHash 5 onePut [1] [0]).map
      (fun r => (r.code, r.db.recordBuffer)) = some (0, [1, 0]) := by decide
  obtain ⟨r, hr, hr0⟩ := Option.map_eq_some'.mp hsome
  simp only [Prod.mk.injEq] at hr0
  exact ⟨r, hr, hr0.1, by decide, hr0.2,
    get_read_only 1 3 firstByteHash 5 onePut [1] [0] r hr⟩

/-! ## The moduli after a successful open -/

theorem SameModuli.unchanged (db : LINEARDB3) : SameModuli db db :=
  ⟨rfl, rfl, rfl⟩

theorem SameModuli.andThen {a b c : LINEARDB3} (h1 : SameModuli a b) (h2 : SameModuli b c) :
    SameModuli a c := by
  obtain ⟨a1, a2, a3⟩ := h1
  obtain ⟨b1, b2, b3⟩ := h2
  exact ⟨b1.trans a1, b2.trans a2, b3.trans a3⟩

theorem Frame.sameModuli {a b : LINEARDB3} (h : Frame a b) : SameModuli a b :=
  ⟨h.2.2.2.2.1, h.2.2.2.2.2.1, h.2.2.2.2.2.2.1⟩

theorem sameModuli_fwrite (db : LINEARDB3) (data : List Nat) :
    SameModuli db (fwrite db data).2 := by
  unfold fwrite
  split
  · exact SameModuli.unchanged db
  · exact ⟨rfl, rfl, rfl⟩

theorem sameModuli_fseekoEnd (db : LINEARDB3) : SameModuli db (fseekoEnd db) :=
  ⟨rfl, rfl, rfl⟩

theorem sameModuli_setBucketAt (P : Nat) (db : LINEARDB3) (ref : BucketRef)
    (b : FingerprintBucket) (db1 : LINEARDB3) (h : setBucketAt P db ref b = some db1) :
    SameModuli db db1 := by
  unfold setBucketAt at h
  split at h
  · split at h
    · simp at h
    · simp only [Option.some.injEq] at h
      subst h
      exact ⟨rfl, rfl, rfl⟩
  · split at h
    · simp at h
    · simp only [Option.some.injEq] at h
      subst h
      exact ⟨rfl, rfl, rfl⟩

theorem writeValue_sameModuli (db : LINEARDB3) (v : Buf) (r : Ret)
    (h : writeValue db v = some r) : SameModuli db r.db := by
  unfold writeValue at h
  split at h
  · simp at h
  · simp only at h
    split at h
    · simp only [Option.some.injEq] at h
      rw [← h]
      exact sameModuli_fwrite _ _
    · simp only [Option.some.injEq] at h
      rw [← h]
      exact sameModuli_fwrite _ _

theorem writeRecord_sameModuli (db : LINEARDB3) (key v : Buf) (emptyRec : Bool) (pos : Nat)
    (r : Ret) (h : writeRecord db key v emptyRec pos = some r) : SameModuli db r.db := by
  unfold writeRecord at h
  split at h
  · simp only at h
    split at h
    · simp only [Option.some.injEq] at h
      rw [← h]
      exact sameModuli_fseekoEnd db
    · split at h
      · simp at h
      · split at h
        · simp only [Option.some.injEq] at h
          rw [← h]
          exact (sameModuli_fseekoEnd db).andThen (sameModuli_fwrite _ _)
        · exact ((sameModuli_fseekoEnd db).andThen (sameModuli_fwrite _ _)).andThen
            (writeValue_sameModuli _ _ _ h)
  · exact writeValue_sameModuli _ _ _ h

theorem considerHit_sameModuli (db : LINEARDB3) (key v : Buf) (put write emptyRec : Bool)
    (pos : Nat) (r : Ret) (h : considerHit db key v put write emptyRec pos = some r) :
    SameModuli db r.db := by
  unfold considerHit at h
  cases emptyRec with
  | true =>
    rw [if_pos rfl] at h
    simp only at h
    split at h
    · exact writeRecord_sameModuli _ _ _ _ _ _ h
    · exact (readValue_frame _ _ _ h).sameModuli
  | false =>
    simp only [Bool.false_eq_true, if_false] at h
    cases hk : readBackKey db key pos with
    | none => simp [hk] at h
    | some p =>
      obtain ⟨c, d⟩ := p
      have hf := (readBackKey_frame db key pos c d hk).sameModuli
      cases c with
      | some code =>
        simp only [hk, Option.some.injEq] at h
        rw [← h]
        exact hf
      | none =>
        simp only [hk] at h
        split at h
        · exact hf.andThen (writeRecord_sameModuli _ _ _ _ _ _ h)
        · exact hf.andThen (readValue_frame _ _ _ h).sameModuli

theorem consider_sameModuli (P : Nat) (db : LINEARDB3) (key v : Buf) (fp : Nat)
    (put write : Bool) (ref : BucketRef) (i : Nat) (r : Ret)
    (h : LINEARDB3_considerFingerprintBucket P db key v fp put write ref i = some r) :
    SameModuli db r.db := by
  unfold LINEARDB3_considerFingerprintBucket at h
  simp only at h
  split at h
  · simp at h
  · split at h
    · split at h
      · split at h
        · simp at h
        · rename_i db1 hs
          have h1 := sameModuli_setBucketAt _ _ _ _ _ hs
          have h2 := considerHit_sameModuli _ _ _ _ _ _ _ _ h
          exact ⟨h2.1.trans h1.1, h2.2.1.trans h1.2.1, h2.2.2.trans h1.2.2⟩
      · simp only [Option.some.injEq] at h
        rw [← h]
        exact SameModuli.unchanged db
    · split at h
      · exact considerHit_sameModuli _ _ _ _ _ _ _ _ h
      · simp only [Option.some.injEq] at h
        rw [← h]
        exact SameModuli.unchanged db

theorem considerSlots_sameModuli (P : Nat) (key : Buf) (fp : Nat) (put write : Bool)
    (ref : BucketRef) : ∀ (k i : Nat) (db : LINEARDB3) (v : Buf) (r : Ret),
    considerSlots P key fp put write ref k i db v = some r → SameModuli db r.db := by
  intro k
  induction k with
  | zero =>
    intro i db v r h
    simp only [considerSlots, Option.some.injEq] at h
    rw [← h]
    exact SameModuli.unchanged db
  | succ k ih =>
    intro i db v r h
    simp only [considerSlots] at h
    split at h
    · simp at h
    · rename_i r1 hr1
      have h1 := consider_sameModuli _ _ _ _ _ _ _ _ _ _ hr1
      split at h
      · simp only [Option.some.injEq] at h
        rw [← h]
        exact h1
      · exact h1.andThen (ih _ _ _ _ h)

theorem sameModuli_noteOverflowDepth (db : LINEARDB3) (d : Nat) :
    SameModuli db (noteOverflowDepth db d) :=
  (frame_noteOverflowDepth db d).sameModuli

theorem linkNewBucket_sameModuli (P fp : Nat) (ref : BucketRef) (db : LINEARDB3) (idx : Nat)
    (db4 : LINEARDB3) (h : linkNewBucket P fp ref db = some (idx, db4)) :
    SameModuli db db4 := by
  unfold linkNewBucket at h
  cases hfe : getFirstEmptyBucketIndex P db.overflowBuckets with
  | none => simp [hfe] at h
  | some p =>
    obtain ⟨newIndex, pm⟩ := p
    simp only [hfe] at h
    cases hl : getBucketAt P { db with overflowBuckets := pm } ref with
    | none => simp [hl] at h
    | some last =>
      simp only [hl] at h
      cases hs : setBucketAt P { db with overflowBuckets := pm } ref
          { last with overflowIndex := newIndex } with
      | none => simp [hs] at h
      | some db3 =>
        have h3 := sameModuli_setBucketAt _ _ _ _ _ hs
        simp only [hs] at h
        cases hn : getBucket P db3.overflowBuckets newIndex with
        | none => simp [hn] at h
        | some newBucket =>
          simp only [hn] at h
          split at h
          · simp at h
          · simp only [if_true, Option.some.injEq, Prod.mk.injEq] at h
            obtain ⟨_, h2⟩ := h
            subst h2
            exact ⟨h3.1, h3.2.1, h3.2.2⟩

theorem appendRecord_sameModuli (db : LINEARDB3) (key v : Buf) (pos : Nat) (r : Ret)
    (h : appendRecord db key v pos = some r) : SameModuli db r.db := by
  unfold appendRecord at h
  simp only at h
  split at h
  · simp only [Option.some.injEq] at h
    rw [← h]
    exact sameModuli_fseekoEnd db
  · split at h
    · simp at h
    · split at h
      · simp at h
      · split at h
        · simp only [Option.some.injEq] at h
          rw [← h]
          exact ((sameModuli_fseekoEnd db).andThen (sameModuli_fwrite _ _)).andThen
            (sameModuli_fwrite _ _)
        · simp only [Option.some.injEq] at h
          rw [← h]
          exact ((sameModuli_fseekoEnd db).andThen (sameModuli_fwrite _ _)).andThen
            (sameModuli_fwrite _ _)

theorem afterChain_sameModuli (P : Nat) (key v : Buf) (fp : Nat) (put write : Bool)
    (depth : Nat) (ref : BucketRef) (db : LINEARDB3) (r : Ret)
    (h : afterChain P key v fp put write depth ref db = some r) : SameModuli db r.db := by
  unfold afterChain at h
  split at h
  · simp at h
  · split at h
    · simp only at h
      split at h
      · simp at h
      · rename_i idx db4 hl
        have h4 := (sameModuli_noteOverflowDepth db (depth + 1)).andThen
          (linkNewBucket_sameModuli _ _ _ _ _ _ hl)
        split at h
        · exact h4.andThen (appendRecord_sameModuli _ _ _ _ _ h)
        · simp only [Option.some.injEq] at h
          rw [← h]
          exact h4
    · simp only [Option.some.injEq] at h
      rw [← h]
      exact SameModuli.unchanged db

theorem walkChain_sameModuli (R P : Nat) (key : Buf) (fp : Nat) (put write : Bool) :
    ∀ (fuel depth : Nat) (ref : BucketRef) (db : LINEARDB3) (v : Buf) (r : Ret),
    walkChain R P key fp put write fuel depth ref db v = some r → SameModuli db r.db := by
  intro fuel
  induction fuel with
  | zero => intro depth ref db v r h; simp [walkChain] at h
  | succ fuel ih =>
    intro depth ref db v r h
    simp only [walkChain] at h
    split at h
    · simp at h
    · split at h
      · split at h
        · simp at h
        · rename_i r1 hr1
          have h1 := (sameModuli_noteOverflowDepth db (depth + 1)).andThen
            (considerSlots_sameModuli _ _ _ _ _ _ _ _ _ _ _ hr1)
          split at h
          · simp only [Option.some.injEq] at h
            rw [← h]
            exact h1
          · exact h1.andThen (ih _ _ _ _ _ h)
      · exact afterChain_sameModuli _ _ _ _ _ _ _ _ _ _ h

/-- A `LINEARDB3_getOrPut` that returns, in any mode, leaves the table sizes and
the fingerprint modulus as they were. -/
theorem getOrPut_sameModuli (R P : Nat) (hash : List Nat → Nat) (fuel : Nat) (db : LINEARDB3)
    (key v : Buf) (put write : Bool) (r : Ret)
    (h : LINEARDB3_getOrPut R P hash fuel db key v put write = some r) :
    SameModuli db r.db := by
  unfold LINEARDB3_getOrPut at h
  split at h
  · simp at h
  · split at h
    · simp at h
    · simp only at h
      split at h
      · simp at h
      · rename_i r1 hr1
        have h1 := considerSlots_sameModuli _ _ _ _ _ _ _ _ _ _ _ hr1
        split at h
        · simp only [Option.some.injEq] at h
          rw [← h]
          exact h1
        · exact h1.andThen (walkChain_sameModuli _ _ _ _ _ _ _ _ _ _ _ _ h)

theorem rebuildLoop_sameModuli (R P : Nat) (hash : List Nat → Nat) (fuel : Nat) :
    ∀ (k : Nat) (db : LINEARDB3) (c : Int) (db2 : LINEARDB3),
    rebuildLoop R P hash fuel k db = some (c, db2) → SameModuli db db2 := by
  intro k
  induction k with
  | zero =>
    intro db c db2 h
    simp only [rebuildLoop, Option.some.injEq, Prod.mk.injEq] at h
    rw [← h.2]
    exact SameModuli.unchanged db
  | succ k ih =>
    intro db c db2 h
    have h0 : SameModuli db
        { (fread db db.recordSizeBytes).2.2 with
          recordBuffer := overwrite (fread db db.recordSizeBytes).2.2.recordBuffer 0
            (fread db db.recordSizeBytes).2.1 } :=
      ((frame_fread db _).trans (frame_recordBuffer _ _)).sameModuli
    simp only [rebuildLoop] at h
    split at h
    · simp only [Option.some.injEq, Prod.mk.injEq] at h
      rw [← h.2]
      exact h0
    · split at h
      · simp at h
      · rename_i res hres
        have h1 := h0.andThen (getOrPut_sameModuli _ _ _ _ _ _ _ _ _ _ hres)
        split at h
        · simp only [Option.some.injEq, Prod.mk.injEq] at h
          rw [← h.2]
          exact h1
        · exact h1.andThen (ih _ _ _ h)

theorem writeHeader_sameModuli (db : LINEARDB3) : SameModuli db (writeHeader db).2 := by
  have h0 : SameModuli db (fseekoSet db 0) := ⟨rfl, rfl, rfl⟩
  have h1 := h0.andThen (sameModuli_fwrite (fseekoSet db 0) magicString)
  have h2 := h1.andThen (sameModuli_fwrite _ (encode32 db.keySize))
  have h3 := h2.andThen (sameModuli_fwrite _ (encode32 db.valueSize))
  unfold writeHeader
  simp only
  split
  · exact h1
  · split
    · exact h2
    · split
      · exact h3
      · exact h3

/-- What a successful pass through the existing-file branch of `LINEARDB3_open`
leaves: the modulus recomputed for the size the handle had on entry, and both
table sizes set to the bucket count computed from the file length. -/
theorem openExisting_moduli (R P : Nat) (hash : List Nat → Nat) (fuel : Nat)
    (db0 : LINEARDB3) (ks vs : Nat) (db : LINEARDB3)
    (h : openExisting R P hash fuel db0 ks vs = some (0, db)) :
    recomputeLoop fuel db0.hashTableSizeA = some db.fingerprintMod ∧
    db0.recordSizeBytes ≠ 0 ∧
    db0.recordSizeBytes * ((db0.file.length - 11) / db0.recordSizeBytes) + 11
      = db0.file.length ∧
    db.hashTableSizeA
      = (2 * ((db0.file.length - 11) / db0.recordSizeBytes) % 2 ^ 32 + R - 1) / R % 2 ^ 32 ∧
    db.hashTableSizeB = db.hashTableSizeA := by
  unfold openExisting at h
  simp only at h
  split at h
  · simp at h
  split at h
  · simp at h
  split at h
  · simp at h
  split at h
  · simp at h
  split at h
  · simp at h
  split at h
  · simp at h
  have hfr : ∀ (d : LINEARDB3) (n : Nat), (fread d n).2.2.hashTableSizeA = d.hashTableSizeA ∧
      (fread d n).2.2.file = d.file ∧ (fread d n).2.2.keySize = d.keySize ∧
      (fread d n).2.2.valueSize = d.valueSize := fun d n =>
    ⟨(frame_fread d n).2.2.2.2.1, (frame_fread d n).1, (frame_fread d n).2.2.1,
      (frame_fread d n).2.2.2.1⟩
  split at h
  · simp at h
  · rename_i db2 hdb2
    obtain ⟨hloop, hA2, hB2⟩ := recomputeFingerprintMod_fields _ _ _ hdb2
    have hrest : db2.file = db0.file ∧ db2.keySize = db0.keySize ∧
        db2.valueSize = db0.valueSize := by
      unfold recomputeFingerprintMod at hdb2
      split at hdb2
      · simp at hdb2
      · simp only [Option.some.injEq] at hdb2
        subst hdb2
        simp only [fseekoEnd, hfr, fseekoSet]
        exact ⟨trivial, trivial, trivial⟩
    have hrs : db2.recordSizeBytes = db0.recordSizeBytes := by
      unfold LINEARDB3.recordSizeBytes
      rw [hrest.2.1, hrest.2.2]
    have hA0 : (fseekoEnd (fread (fread (fread (fseekoSet db0 0) 3).2.2 4).2.2 4).2.2).hashTableSizeA
        = db0.hashTableSizeA := by
      simp only [fseekoEnd, hfr, fseekoSet]
    have hlen : ftello (fseekoEnd (fread (fread (fread (fseekoSet db0 0) 3).2.2 4).2.2 4).2.2)
        = db0.file.length := by
      simp only [ftello, fseekoEnd, hfr, fseekoSet]
    rw [hA0] at hloop
    rw [hlen, hrs] at h
    split at h
    · simp at h
    · split at h
      · simp at h
      · have hm := rebuildLoop_sameModuli _ _ _ _ _ _ _ _ h
        obtain ⟨m1, m2, m3⟩ := hm
        simp only [fseekoSet] at m1 m2 m3
        rename_i hne hwhole
        refine ⟨?_, hne, by simpa [LINEARDB3_HEADER_SIZE] using hwhole, ?_, ?_⟩
        · rw [m3]; exact hloop
        · rw [m1, LINEARDB3_HEADER_SIZE]
        · rw [m1, m2]

theorem getBinNumber_zero_table (db : LINEARDB3) (hashVal : Nat)
    (hA : db.hashTableSizeA = 0) : getBinNumber db hashVal = none := by
  unfold getBinNumber
  split
  · rfl
  · simp only [hA, if_true]

theorem getBinNumber_unsplit (db : LINEARDB3) (hashVal : Nat) (hfm : 0 < db.fingerprintMod)
    (hA : 1 ≤ db.hashTableSizeA) (hB : db.hashTableSizeB = db.hashTableSizeA) :
    getBinNumber db hashVal =
      some (adjustedHash hashVal db.fingerprintMod % db.hashTableSizeA,
        adjustedHash hashVal db.fingerprintMod % db.fingerprintMod) := by
  unfold getBinNumber
  have hsp : (db.hashTableSizeB + 2 ^ 32 - db.hashTableSizeA) % 2 ^ 32 = 0 := by
    rw [hB, Nat.add_sub_cancel_left, Nat.mod_self]
  simp only [show ¬ (db.fingerprintMod = 0) by omega, show ¬ (db.hashTableSizeA = 0) by omega,
    if_false, hsp, Nat.not_lt_zero]

/-- With a table of no buckets, `LINEARDB3_getOrPut` divides by zero in
`getBinNumber`, in every mode and for every key. -/
theorem getOrPut_zero_table (R P : Nat) (hash : List Nat → Nat) (fuel : Nat) (db : LINEARDB3)
    (key v : Buf) (put write : Bool) (hA : db.hashTableSizeA = 0) :
    LINEARDB3_getOrPut R P hash fuel db key v put write = none := by
  unfold LINEARDB3_getOrPut
  split
  · rfl
  · rw [getBinNumber_zero_table db _ hA]

theorem open_fields (R P : Nat) (hash : List Nat → Nat) (fuel : Nat) (inFile : List Nat)
    (start ks vs : Nat) (db : LINEARDB3)
    (h : LINEARDB3_open R P hash fuel inFile start ks vs = some (0, db)) :
    recomputeLoop fuel start = some db.fingerprintMod ∧
    db.hashTableSizeB = db.hashTableSizeA ∧
    (inFile.length < 11 → db.hashTableSizeA = start) ∧
    (11 ≤ inFile.length → getRecordSizeBytes ks vs ≠ 0 ∧
      getRecordSizeBytes ks vs * ((inFile.length - 11) / getRecordSizeBytes ks vs) + 11
        = inFile.length ∧
      db.hashTableSizeA
        = (2 * ((inFile.length - 11) / getRecordSizeBytes ks vs) % 2 ^ 32 + R - 1) / R
          % 2 ^ 32) := by
  unfold LINEARDB3_open at h
  simp only at h
  split at h
  · simp at h
  · rename_i db1 hdb1
    obtain ⟨hloop, hA1, hB1⟩ := recomputeFingerprintMod_fields _ _ _ hdb1
    simp only at hloop hA1 hB1
    have hrest : db1.file = inFile ∧ db1.keySize = ks ∧ db1.valueSize = vs := by
      unfold recomputeFingerprintMod at hdb1
      split at hdb1
      · simp at hdb1
      · simp only [Option.some.injEq] at hdb1
        subst hdb1
        exact ⟨rfl, rfl, rfl⟩
    have hlen : ftello (fseekoEnd db1) = inFile.length := by
      simp only [ftello, fseekoEnd, hrest.1]
    rw [hlen, LINEARDB3_HEADER_SIZE] at h
    split at h
    · rename_i hshort
      split at h
      · simp at h
      · simp only [Option.some.injEq, Prod.mk.injEq, true_and] at h
        obtain ⟨w1, w2, w3⟩ := writeHeader_sameModuli (fseekoEnd db1)
        subst h
        refine ⟨?_, ?_, fun _ => ?_, fun hge => ?_⟩
        · show recomputeLoop fuel start = some (writeHeader (fseekoEnd db1)).2.fingerprintMod
          rw [w3]
          exact hloop
        · show (writeHeader (fseekoEnd db1)).2.hashTableSizeB
            = (writeHeader (fseekoEnd db1)).2.hashTableSizeA
          rw [w1, w2]
          exact hB1.trans hA1.symm
        · show (writeHeader (fseekoEnd db1)).2.hashTableSizeA = start
          rw [w1]
          exact hA1
        · omega
    · rename_i hlong
      obtain ⟨e1, e2, e3, e4, e5⟩ := openExisting_moduli _ _ _ _ _ _ _ _ h
      have hrs : (fseekoEnd db1).recordSizeBytes = getRecordSizeBytes ks vs := by
        simp only [LINEARDB3.recordSizeBytes, fseekoEnd, hrest.2.1, hrest.2.2]
      have hfile : (fseekoEnd db1).file.length = inFile.length := by
        simp only [fseekoEnd, hrest.1]
      rw [hrs] at e2
      rw [hrs, hfile] at e3 e4
      refine ⟨?_, e5, fun hlt => ?_, fun _ => ⟨e2, e3, e4⟩⟩
      · rw [← e1]
        simp only [fseekoEnd, hA1]
      · omega

/-- C21, as far as it holds.  After every `LINEARDB3_open` that returns 0, with
a start size between 1 and `2^32 - 1`, `fingerprintMod` is at least `2^31`, so
never zero.  On a file shorter than the header `hashTableSizeA` is the start
size, and on a file that holds at least one and fewer than `2^31` records it
is at least 1; in both cases `getBinNumber` returns for every hash value.  On
a file that holds the header and no record `hashTableSizeA` is 0, and
`getBinNumber` divides by zero for every hash value. -/
theorem open_moduli (R P : Nat) (hash : List Nat → Nat) (fuel : Nat) (inFile : List Nat)
    (start ks vs : Nat) (db : LINEARDB3) (hR : 1 ≤ R) (hstart : 1 ≤ start)
    (hstart32 : start < 2 ^ 32)
    (h : LINEARDB3_open R P hash fuel inFile start ks vs = some (0, db)) :
    2 ^ 31 ≤ db.fingerprintMod ∧
    (inFile.length < 11 →
      db.hashTableSizeA = start ∧ ∀ hv, ∃ bin f, getBinNumber db hv = some (bin, f)) ∧
    (11 < inFile.length → inFile.length < 11 + 2 ^ 31 * getRecordSizeBytes ks vs →
      1 ≤ db.hashTableSizeA ∧ ∀ hv, ∃ bin f, getBinNumber db hv = some (bin, f)) ∧
    (inFile.length = 11 →
      db.hashTableSizeA = 0 ∧ ∀ hv, getBinNumber db hv = none) := by
  obtain ⟨hloop, hB, hnew, hold⟩ := open_fields R P hash fuel inFile start ks vs db h
  have hfm := (recomputeLoop_range fuel start _ hstart hstart32 hloop).1
  have hfm0 : 0 < db.fingerprintMod := by omega
  refine ⟨hfm, fun hlt => ?_, fun hgt hlt => ?_, fun heq => ?_⟩
  · have hA := hnew hlt
    exact ⟨hA, fun hv => ⟨_, _, getBinNumber_unsplit db hv hfm0 (by omega) hB⟩⟩
  · obtain ⟨hrs, hwhole, hA⟩ := hold (by omega)
    have hn1 : 1 ≤ (inFile.length - 11) / getRecordSizeBytes ks vs := by
      rcases Nat.eq_zero_or_pos ((inFile.length - 11) / getRecordSizeBytes ks vs) with h0 | h0
      · rw [h0] at hwhole
        omega
      · exact h0
    have hn2 : (inFile.length - 11) / getRecordSizeBytes ks vs < 2 ^ 31 := by
      apply (Nat.div_lt_iff_lt_mul (by omega)).mpr
      omega
    have hA1 : 1 ≤ db.hashTableSizeA := by
      rw [hA]
      generalize (inFile.length - 11) / getRecordSizeBytes ks vs = n at hn1 hn2
      have hx : 2 * n % 2 ^ 32 = 2 * n := Nat.mod_eq_of_lt (by omega)
      rw [hx]
      have hlo : 1 ≤ (2 * n + R - 1) / R := by
        apply (Nat.le_div_iff_mul_le (by omega)).mpr
        omega
      have hhi : (2 * n + R - 1) / R ≤ 2 * n + R - 1 := Nat.div_le_self _ _
      have hhi2 : (2 * n + R - 1) / R < 2 ^ 32 := by
        apply (Nat.div_lt_iff_lt_mul (by omega)).mpr
        have : 2 ^ 32 * R = 2 ^ 32 + 2 ^ 32 * (R - 1) := by
          obtain ⟨q, rfl⟩ : ∃ q, R = q + 1 := ⟨R - 1, by omega⟩
          simp only [Nat.add_sub_cancel]
          ring
        have h3 : R - 1 ≤ 2 ^ 32 * (R - 1) := Nat.le_mul_of_pos_left _ (by decide)
        omega
      rw [Nat.mod_eq_of_lt hhi2]
      exact hlo
    exact ⟨hA1, fun hv => ⟨_, _, getBinNumber_unsplit db hv hfm0 hA1 hB⟩⟩
  · obtain ⟨_, _, hA⟩ := hold (by omega)
    have hA0 : db.hashTableSizeA = 0 := by
      rw [hA, heq]
      simp only [Nat.sub_self, Nat.zero_div, Nat.mul_zero, Nat.zero_mod, Nat.zero_add]
      rw [Nat.div_eq_of_lt (show R - 1 < R by omega), Nat.zero_mod]
    exact ⟨hA0, fun hv => getBinNumber_zero_table db hv hA0⟩

/-- Witness for C21: a file that holds the header and three records of one-byte
keys and values, (1, 10), (2, 1) and (3, 30); the open returns 0 and leaves a
table of one bucket. -/
theorem open_moduli_witness :
    1 ≤ 8 ∧ 1 ≤ 3 ∧ (3 : Nat) < 2 ^ 32 ∧
    ∃ db, LINEARDB3_open 8 4096 firstByteHash 40
        [76, 100, 50, 1, 0, 0, 0, 1, 0, 0, 0, 1, 10, 2, 1, 3, 30] 3 1 1 = some (0, db) ∧
      2 ^ 31 ≤ db.fingerprintMod ∧
      1 ≤ db.hashTableSizeA ∧ ∀ hv, ∃ bin f, getBinNumber db hv = some (bin, f) := by
  have hcode : (LINEARDB3_open 8 4096 firstByteHash 40
      [76, 100, 50, 1, 0, 0, 0, 1, 0, 0, 0, 1, 10, 2, 1, 3, 30] 3 1 1).map Prod.fst
      = some 0 := by decide
  obtain ⟨r, hr, hr0⟩ := Option.map_eq_some'.mp hcode
  obtain ⟨c, db⟩ := r
  simp only at hr0
  subst hr0
  have hall := open_moduli 8 4096 firstByteHash 40
    [76, 100, 50, 1, 0, 0, 0, 1, 0, 0, 0, 1, 10, 2, 1, 3, 30] 3 1 1 db (by decide) (by decide)
    (by decide) hr
  exact ⟨by decide, by decide, by decide, db, hr, hall.1,
    hall.2.2.1 (by decide) (by decide)⟩

/-- C21 fails on the code, on an existing file.  The 11-byte file that a fresh
open of a database of one-byte keys and values leaves (the header, no record),
opened again with a start size of 3: `LINEARDB3_open` returns 0 with
`hashTableSizeA = 0`, because the branch for an existing file sizes the table
from the number of records in the file alone.  `fingerprintMod` is not zero,
but `getBinNumber` divides by `hashTableSizeA` for every hash value, so no
following `LINEARDB3_get` or `LINEARDB3_put` returns. -/
theorem open_header_only_zero_table :
    ∃ db, LINEARDB3_open 8 4096 firstByteHash 33 [76, 100, 50, 1, 0, 0, 0, 1, 0, 0, 0] 3 1 1
        = some (0, db) ∧
      db.hashTableSizeA = 0 ∧ 1 ≤ db.fingerprintMod ∧
      (∀ hv, getBinNumber db hv = none) ∧
      ∀ (fuel : Nat) (key v : List Nat),
        LINEARDB3_get 8 4096 firstByteHash fuel db key v = none ∧
        LINEARDB3_put 8 4096 firstByteHash fuel db key v = none := by
  have hcode : (LINEARDB3_open 8 4096 firstByteHash 33
      [76, 100, 50, 1, 0, 0, 0, 1, 0, 0, 0] 3 1 1).map
      (fun r => (r.1, r.2.hashTableSizeA, r.2.fingerprintMod)) = some (0, 0, 3221225472) := by
    decide
  obtain ⟨r, hr, hr0⟩ := Option.map_eq_some'.mp hcode
  obtain ⟨c, db⟩ := r
  simp only [Prod.mk.injEq] at hr0
  obtain ⟨hc, hA, hfm⟩ := hr0
  subst hc
  refine ⟨db, hr, hA, by omega, fun hv => getBinNumber_zero_table db hv hA, fun fuel key v =>
    ⟨getOrPut_zero_table _ _ _ _ db _ _ _ _ hA, getOrPut_zero_table _ _ _ _ db _ _ _ _ hA⟩⟩

end LinearDB3
